import Mathlib

/-!
# VTextDocumentLayout: the block-offset cache and its geometry

A shallow embedding of `src/vtextdocumentlayout.{h,cpp}`.

* `qreal` values are modelled by rational numbers (`ℚ`): decidable comparisons,
  executable.  Arithmetic is exact wherever the engine compares the result of an
  operation with the result of the same operation on the same operands (offsets, bottoms,
  widths).  The one expression that adds and then subtracts, `h + dy2 - dy1` in
  `QRectF::adjusted` as `blockBoundingRect` calls it, is modelled with the two roundings
  of IEEE-754 double arithmetic (`roundToDouble`).  Conversions `qreal -> int` truncate
  toward zero and are bounded by the 32-bit range of `int` (`truncToInt`).
* `QVector<BlockInfo> m_blocks` is a `List BlockInfo`; `m_blocks[i]` is `blockAt bs i`
  and an assignment to a field of `m_blocks[i]` is `List.set`.
* Every `for`/`while` loop over block numbers is a recursive function that carries the
  loop index and a fuel argument equal to the number of remaining iterations
  (`size - i`), so the loop test `i < size` is kept literally and the fuel never runs out.
* What the engine reads from its external collaborators (the document and the shaping
  primitive) appears as explicit arguments: the rectangle `blockRectFromTextLayout(block)`
  returns for a block, the block numbers of the edited range, the new block count.
* `blockWidthInDocument` is called by the source but defined nowhere in it; it is an
  argument `bw : ℚ → ℚ` of the functions that call it.
* `Q_ASSERT`s are preconditions: they are hypotheses of the theorems, not run-time checks.
-/

namespace VTextDocumentLayout

/-! ## Double arithmetic -/

/-- The power `2 ^ e` as a rational number. -/
def pow2 (e : Int) : ℚ :=
  if 0 ≤ e then ((2 ^ e.toNat : Nat) : ℚ) else 1 / ((2 ^ (-e).toNat : Nat) : ℚ)

/-- The binary exponent of a positive rational `a`: the `e` with
`2 ^ e <= a < 2 ^ (e + 1)`. -/
def binaryExponent (a : ℚ) : Int :=
  if 1 ≤ a then (Nat.log2 ⌊a⌋₊ : Int)
  else
    let k : Nat := Nat.log2 ⌊1 / a⌋₊
    if a * ((2 ^ k : Nat) : ℚ) = 1 then -(k : Int) else -(k : Int) - 1

/-- Rounding of a non-negative rational to the nearest integer, a tie to the even one. -/
def roundHalfEven (r : ℚ) : Int :=
  let f : Int := ⌊r⌋
  if r - f < 1 / 2 then f
  else if 1 / 2 < r - f then f + 1
  else if f % 2 = 0 then f else f + 1

/-- The result of a `double` operation whose exact value is `q`: the IEEE-754 binary64
number nearest to `q`, a tie going to the even significand (53 significant bits, the
least exponent -1022; no overflow to infinity, which needs a magnitude of `2 ^ 1024`). -/
def roundToDouble (q : ℚ) : ℚ :=
  if q = 0 then 0
  else
    let a : ℚ := |q|
    let e : Int := max (binaryExponent a) (-1022)
    let ulp : ℚ := pow2 (e - 52)
    let m : ℚ := (roundHalfEven (a / ulp) : ℚ) * ulp
    if q < 0 then -m else m

/-! ## Rectangles -/

/-- The Qt rectangle `QRectF`: top-left corner `(x, y)`, width `w`, height `h`. -/
structure QRectF where
  x : ℚ
  y : ℚ
  w : ℚ
  h : ℚ
deriving DecidableEq

namespace QRectF

/-- The default-constructed `QRectF()`. -/
def null : QRectF := ⟨0, 0, 0, 0⟩

/-- Qt: `isNull()` is `w == 0. && h == 0.`. -/
def isNull (r : QRectF) : Bool := r.w == 0 && r.h == 0

/-- Qt: `QRectF(topLeft, bottomRight)`. -/
def ofCorners (x1 y1 x2 y2 : ℚ) : QRectF := ⟨x1, y1, x2 - x1, y2 - y1⟩

/-- Qt: `adjust(dx1, dy1, dx2, dy2)` adds the deltas to the two corners in place:
`xp += dx1; yp += dy1; w += dx2 - dx1; h += dy2 - dy1`. -/
def adjust (r : QRectF) (dx1 dy1 dx2 dy2 : ℚ) : QRectF :=
  ⟨r.x + dx1, r.y + dy1, r.w + (dx2 - dx1), r.h + (dy2 - dy1)⟩

/-- Qt: `adjusted(dx1, dy1, dx2, dy2)` returns
`QRectF(xp + dx1, yp + dy1, w + dx2 - dx1, h + dy2 - dy1)`: the width and the height are
each an addition followed by a subtraction, two roundings in double arithmetic. -/
def adjusted (r : QRectF) (dx1 dy1 dx2 dy2 : ℚ) : QRectF :=
  ⟨r.x + dx1, r.y + dy1, roundToDouble (roundToDouble (r.w + dx2) - dx1),
    roundToDouble (roundToDouble (r.h + dy2) - dy1)⟩

/-- Qt: `top()`. -/
def top (r : QRectF) : ℚ := r.y

/-- Qt: `width()`. -/
def width (r : QRectF) : ℚ := r.w

/-- Qt: `height()`. -/
def height (r : QRectF) : ℚ := r.h

end QRectF

/-- The least value of the 32-bit `int`, `INT_MIN`. -/
def intMin : Int := -2147483648

/-- The greatest value of the 32-bit `int`, `INT_MAX`. -/
def intMax : Int := 2147483647

/-- Conversion of a `qreal` to `int`: truncation toward zero when the truncated value
fits in the 32-bit `int`.  Out of that range the C++ conversion is undefined; the
x86-64 conversion instruction (`cvttsd2si`) then yields `INT_MIN`, which is the value
taken here. -/
def truncToInt (q : ℚ) : Int :=
  let t : Int := if 0 ≤ q then ⌊q⌋ else ⌈q⌉
  if intMin ≤ t ∧ t ≤ intMax then t else intMin

/-! ## BlockInfo (vtextdocumentlayout.h, lines 51-88) -/

/-- The cache entry of one block. -/
structure BlockInfo where
  m_offset : ℚ
  m_rect : QRectF
deriving DecidableEq

namespace BlockInfo

/-- The constructor `BlockInfo()`, which is `reset()`: offset `-1`, null rectangle. -/
def fresh : BlockInfo := ⟨-1, QRectF.null⟩

/-- The method `reset()`. -/
def reset (_b : BlockInfo) : BlockInfo := fresh

/-- The method `hasOffset()`: `m_offset > -1 && !m_rect.isNull()`. -/
def hasOffset (b : BlockInfo) : Bool := decide (b.m_offset > -1) && !b.m_rect.isNull

/-- The method `top()`. -/
def top (b : BlockInfo) : ℚ := b.m_offset

/-- The method `bottom()`: `m_offset + m_rect.height()`. -/
def bottom (b : BlockInfo) : ℚ := b.m_offset + b.m_rect.height

end BlockInfo

/-- The element `m_blocks[i]` (the default entry outside the vector, where C++ is undefined). -/
def blockAt (bs : List BlockInfo) (i : Nat) : BlockInfo := bs.getD i BlockInfo.fresh

/-! ## The engine state -/

/-- The size `QSizeF(width, height)`. -/
structure QSizeF where
  width : ℚ
  height : ℚ
deriving DecidableEq

/-- The data members of `VTextDocumentLayout` that the cache algorithms use, and the log
of the `documentSizeChanged` signals emitted so far (most recent first). -/
structure Layout where
  m_margin : ℚ
  m_width : ℚ
  m_maximumWidthBlockNumber : Int
  m_height : ℚ
  m_blockCount : Nat
  m_blocks : List BlockInfo
  documentSizeChanged : List QSizeF

/-- The state the constructor builds (lines 14-24). -/
def Layout.init (margin : ℚ) : Layout :=
  { m_margin := margin, m_width := 0, m_maximumWidthBlockNumber := -1, m_height := 0,
    m_blockCount := 0, m_blocks := [], documentSizeChanged := [] }

/-- The method `documentSize()`. -/
def documentSize (s : Layout) : QSizeF := ⟨s.m_width, s.m_height⟩

/-! ## validateBlocks (lines 360-373) -/

/-- The loop of `validateBlocks` over the remaining entries, with the flag `valid`. -/
def validateLoop : List BlockInfo → Bool → Bool
  | [], _ => true
  | info :: rest, valid =>
    if !info.hasOffset then validateLoop rest false
    else if !valid then false
    else validateLoop rest valid

/-- The method `validateBlocks()` on the vector `m_blocks`. -/
def validateBlocksList (bs : List BlockInfo) : Bool := validateLoop bs true

/-- The method `validateBlocks()`. -/
def validateBlocks (s : Layout) : Bool := validateBlocksList s.m_blocks

/-! ## clearOffsetFrom and clearBlockLayout (lines 324-344) -/

/-- The loop of `clearOffsetFrom`, at index `i` with `fuel = size - i`.  It returns the
vector and, when the `Q_ASSERT(validateBlocks())` was reached, the value its argument had. -/
def clearOffsetLoop : Nat → Nat → List BlockInfo → List BlockInfo × Option Bool
  | 0, _, bs => (bs, none)
  | fuel + 1, i, bs =>
    if i < bs.length then
      if !(blockAt bs i).hasOffset then (bs, some (validateBlocksList bs))
      else clearOffsetLoop fuel (i + 1) (bs.set i { blockAt bs i with m_offset := -1 })
    else (bs, none)

/-- The method `clearOffsetFrom(p_blockNumber)` on the vector, with the asserted value. -/
def clearOffsetFromList (bs : List BlockInfo) (p_blockNumber : Nat) :
    List BlockInfo × Option Bool :=
  clearOffsetLoop (bs.length - p_blockNumber) p_blockNumber bs

/-- The cache part of `clearBlockLayout(p_block)` for `num = p_block.blockNumber()`,
with the value asserted inside `clearOffsetFrom` (if the assertion was reached). -/
def clearBlockLayoutList (bs : List BlockInfo) (num : Nat) : List BlockInfo × Option Bool :=
  if num < bs.length then
    clearOffsetFromList (bs.set num (blockAt bs num).reset) (num + 1)
  else (bs, none)

/-- The method `clearOffsetFrom(p_blockNumber)`. -/
def clearOffsetFrom (s : Layout) (p_blockNumber : Nat) : Layout :=
  { s with m_blocks := (clearOffsetFromList s.m_blocks p_blockNumber).1 }

/-- The method `clearBlockLayout(p_block)`; the call `p_block.clearLayout()` changes the
document, not the cache. -/
def clearBlockLayout (s : Layout) (num : Nat) : Layout :=
  { s with m_blocks := (clearBlockLayoutList s.m_blocks num).1 }

/-- The value of `validateBlocks()` at the `Q_ASSERT` inside `clearOffsetFrom`, when
`clearBlockLayout(p_block)` reaches it. -/
def clearBlockLayoutAssert (s : Layout) (num : Nat) : Option Bool :=
  (clearBlockLayoutList s.m_blocks num).2

/-! ## fillOffsetFrom (lines 346-358) -/

/-- The loop of `fillOffsetFrom`, at index `i` with the running `offset` and
`fuel = size - i`. -/
def fillOffsetLoop : Nat → Nat → ℚ → List BlockInfo → List BlockInfo
  | 0, _, _, bs => bs
  | fuel + 1, i, offset, bs =>
    if i < bs.length then
      if !(blockAt bs i).m_rect.isNull then
        fillOffsetLoop fuel (i + 1) (offset + (blockAt bs i).m_rect.height)
          (bs.set i { blockAt bs i with m_offset := offset })
      else bs
    else bs

/-- The method `fillOffsetFrom(p_blockNumber)` on the vector. -/
def fillOffsetFromList (bs : List BlockInfo) (p_blockNumber : Nat) : List BlockInfo :=
  fillOffsetLoop (bs.length - (p_blockNumber + 1)) (p_blockNumber + 1)
    (blockAt bs p_blockNumber).bottom bs

/-- The method `fillOffsetFrom(p_blockNumber)`. -/
def fillOffsetFrom (s : Layout) (p_blockNumber : Nat) : Layout :=
  { s with m_blocks := fillOffsetFromList s.m_blocks p_blockNumber }

/-! ## finishBlockLayout (lines 444-469) -/

/-- The method `previousValidBlockNumber(p_number)`. -/
def previousValidBlockNumber (p_number : Int) : Int :=
  if p_number ≥ 0 then p_number - 1 else -1

/-- The method `finishBlockLayout(p_block)` on the vector, for `num = p_block.blockNumber()`
and `br = blockRectFromTextLayout(p_block)`.  Preconditions (`Q_ASSERT`): `num < size`
and `br` is not null. -/
def finishBlockLayoutList (bs : List BlockInfo) (num : Nat) (br : QRectF) : List BlockInfo :=
  let pre := previousValidBlockNumber num
  let info : BlockInfo := { (blockAt bs num).reset with m_rect := br }
  let info : BlockInfo :=
    if pre = -1 then { info with m_offset := 0 }
    else if (blockAt bs pre.toNat).hasOffset then
      { info with m_offset := (blockAt bs pre.toNat).bottom }
    else info
  let bs := bs.set num info
  if info.hasOffset then fillOffsetFromList bs num else bs

/-- The method `finishBlockLayout(p_block)`. -/
def finishBlockLayout (s : Layout) (num : Nat) (br : QRectF) : Layout :=
  { s with m_blocks := finishBlockLayoutList s.m_blocks num br }

/-! ## updateBlockCount (lines 375-395) -/

/-- What `updateBlockCount` reads from the document: its number of blocks and, for each
block number, the rectangle `blockRectFromTextLayout(block)` computed from the text
layout the block currently holds (null when that layout has no line). -/
structure Document where
  blockCount : Nat
  blockRect : Nat → QRectF

/-- `QVector::resize`: truncate, or extend with default-constructed entries. -/
def resize (bs : List BlockInfo) (n : Nat) : List BlockInfo :=
  bs.take n ++ List.replicate (n - bs.length) BlockInfo.fresh

/-- The loop of `updateBlockCount` over the document blocks from number `b` on, with
`fuel = blockCount - b`. -/
def updateBlockCountLoop (doc : Document) : Nat → Nat → List BlockInfo → List BlockInfo
  | 0, _, bs => bs
  | fuel + 1, b, bs =>
    if b < doc.blockCount then
      let info := (blockAt bs b).reset
      let br := doc.blockRect b
      let info : BlockInfo := if !br.isNull then { info with m_rect := br } else info
      updateBlockCountLoop doc fuel (b + 1) (bs.set b info)
    else bs

/-- The method `updateBlockCount(p_count, p_changeStartBlock)`;
`findBlockByNumber` gives an invalid block for a number outside `[0, blockCount)`. -/
def updateBlockCount (s : Layout) (doc : Document) (p_count : Nat)
    (p_changeStartBlock : Int) : Layout :=
  if s.m_blockCount ≠ p_count then
    let bs := resize s.m_blocks p_count
    let bs :=
      if 0 ≤ p_changeStartBlock then
        updateBlockCountLoop doc (doc.blockCount - p_changeStartBlock.toNat)
          p_changeStartBlock.toNat bs
      else bs
    { s with m_blockCount := p_count, m_blocks := bs }
  else s

/-! ## updateDocumentSize and updateDocumentSizeWithOneBlockChanged (lines 471-546) -/

/-- The width scan of `updateDocumentSize`: the loop over the remaining entries at index
`i`, carrying `m_width` and `m_maximumWidthBlockNumber`. -/
def widthScan : List BlockInfo → Nat → ℚ × Int → ℚ × Int
  | [], _, acc => acc
  | info :: rest, i, acc =>
    if acc.1 < info.m_rect.width then widthScan rest (i + 1) (info.m_rect.width, (i : Int))
    else widthScan rest (i + 1) acc

/-- The method `updateDocumentSize()`.  `oldHeight` and `oldWidth` are declared `int`
in the source, so they hold the truncated old values.  Precondition (`Q_ASSERT`): the
vector is not empty. -/
def updateDocumentSize (bw : ℚ → ℚ) (s : Layout) : Layout :=
  let idx := previousValidBlockNumber s.m_blocks.length
  if (blockAt s.m_blocks idx.toNat).hasOffset then
    let oldHeight : Int := truncToInt s.m_height
    let oldWidth : Int := truncToInt s.m_width
    let height := (blockAt s.m_blocks idx.toNat).bottom
    let scan := widthScan s.m_blocks 0 (0, s.m_maximumWidthBlockNumber)
    let width := bw scan.1
    let s' : Layout :=
      { s with m_height := height, m_width := width, m_maximumWidthBlockNumber := scan.2 }
    if (oldHeight : ℚ) ≠ height ∨ (oldWidth : ℚ) ≠ width then
      { s' with documentSizeChanged := documentSize s' :: s.documentSizeChanged }
    else s'
  else s

/-- The method `updateDocumentSizeWithOneBlockChanged(p_blockNumber)`. -/
def updateDocumentSizeWithOneBlockChanged (bw : ℚ → ℚ) (s : Layout) (p_blockNumber : Nat) :
    Layout :=
  let width := bw (blockAt s.m_blocks p_blockNumber).m_rect.width
  if width > s.m_width then
    let s' : Layout := { s with m_width := width, m_maximumWidthBlockNumber := p_blockNumber }
    { s' with documentSizeChanged := documentSize s' :: s.documentSizeChanged }
  else if width < s.m_width ∧ (p_blockNumber : Int) = s.m_maximumWidthBlockNumber then
    updateDocumentSize bw s
  else s

/-! ## blockBoundingRect (lines 239-252) -/

/-- The method `blockBoundingRect(p_block)` for a valid block of number `num`.
Precondition (`Q_ASSERT`): the block is positioned.  The top is `m_rect.y() + m_offset`;
the height is `m_rect.height() + m_offset - m_offset` in double arithmetic. -/
def blockBoundingRect (s : Layout) (num : Nat) : QRectF :=
  let info := blockAt s.m_blocks num
  info.m_rect.adjusted 0 info.m_offset 0 info.m_offset

/-! ## blockRangeFromRect (lines 49-96) -/

/-- The first loop of `blockRangeFromRect`, at block number `i` with `fuel = size - i`:
the number of the first block that satisfies the test, or `-1`. -/
def rangeFirstLoop (bs : List BlockInfo) (y : Int) : Nat → Nat → Int
  | 0, _ => -1
  | fuel + 1, i =>
    if i < bs.length then
      if (blockAt bs i).top = (y : ℚ)
          ∨ ((blockAt bs i).top < (y : ℚ) ∧ (blockAt bs i).bottom ≥ (y : ℚ)) then (i : Int)
      else rangeFirstLoop bs y fuel (i + 1)
    else -1

/-- The second loop of `blockRangeFromRect`, which goes on from the block where the first
loop stopped: the first block whose bottom is below `y`, or the initial `size - 1`. -/
def rangeLastLoop (bs : List BlockInfo) (y : Int) : Nat → Nat → Int
  | 0, _ => (bs.length : Int) - 1
  | fuel + 1, i =>
    if i < bs.length then
      if (blockAt bs i).bottom > (y : ℚ) then (i : Int)
      else rangeLastLoop bs y fuel (i + 1)
    else (bs.length : Int) - 1

/-- The method `blockRangeFromRect(p_rect, p_first, p_last)`, returning
`(p_first, p_last)`.  `y` is an `int` in the source: `p_rect.y()` is converted to `int`
(`truncToInt`: truncated, and `INT_MIN` when out of the 32-bit range), and
`y += p_rect.height()` converts the sum again. -/
def blockRangeFromRect (s : Layout) (p_rect : QRectF) : Int × Int :=
  if p_rect.isNull then (0, (s.m_blocks.length : Int) - 1)
  else
    let y : Int := truncToInt p_rect.y
    let first := rangeFirstLoop s.m_blocks y s.m_blocks.length 0
    if first = -1 then (-1, -1)
    else
      let y : Int := truncToInt ((y : ℚ) + p_rect.height)
      (first, rangeLastLoop s.m_blocks y (s.m_blocks.length - first.toNat) first.toNat)

/-! ## Predicates on cache states -/

/-- Block `i` is positioned: `m_blocks[i].hasOffset()`. -/
def Positioned (s : Layout) (i : Nat) : Prop := (blockAt s.m_blocks i).hasOffset = true

/-- Every block of the cache is positioned. -/
def FullyPositioned (s : Layout) : Prop := ∀ i, i < s.m_blocks.length → Positioned s i

/-- Contiguity: whenever blocks `i` and `i + 1` are both positioned, the bottom of block
`i` is the top of block `i + 1`. -/
def Contiguous (s : Layout) : Prop :=
  ∀ i, Positioned s i → Positioned s (i + 1) →
    (blockAt s.m_blocks i).bottom = (blockAt s.m_blocks (i + 1)).top

/-- The cache states the engine can reach from the state its constructor builds, through
the mutators of the cache: `updateBlockCount` (called, as in `documentChanged`, with the
block count of the document), `clearBlockLayout` (with the `clearOffsetFrom` it calls)
and `finishBlockLayout` (with the `fillOffsetFrom` it calls) on a block inside the cache
with a rectangle that satisfies `ok`; `frame` covers every step that leaves `m_blocks`
and `m_blockCount` as they are (the document size updates, the margin update). -/
inductive Reachable (ok : QRectF → Prop) : Layout → Prop
  | init (margin : ℚ) : Reachable ok (Layout.init margin)
  | updateBlockCount (s : Layout) (doc : Document) (p_changeStartBlock : Int) :
      Reachable ok s → Reachable ok (updateBlockCount s doc doc.blockCount p_changeStartBlock)
  | clearBlockLayout (s : Layout) (num : Nat) :
      Reachable ok s → Reachable ok (clearBlockLayout s num)
  | finishBlockLayout (s : Layout) (num : Nat) (br : QRectF) :
      Reachable ok s → num < s.m_blocks.length → ok br →
      Reachable ok (finishBlockLayout s num br)
  | frame (s s' : Layout) :
      Reachable ok s → s'.m_blocks = s.m_blocks → s'.m_blockCount = s.m_blockCount →
      Reachable ok s'

/-- A non-null rectangle of non-negative height. -/
def NonNullNonnegHeight (r : QRectF) : Prop := r.isNull = false ∧ 0 ≤ r.height

/-- The positioned blocks are closed downwards: no unpositioned block is followed by a
positioned one. -/
def DownClosed (bs : List BlockInfo) : Prop :=
  ∀ i j, i < j → (blockAt bs j).hasOffset = true → (blockAt bs i).hasOffset = true

/-- The value `finishBlockLayout` leaves in `info.m_offset` (lines 454-459): `0` for the
first block, the bottom of the previous block when that block is positioned, and the
`-1` of `reset()` otherwise. -/
def finishOffset (bs : List BlockInfo) (num : Nat) : ℚ :=
  if num = 0 then 0
  else if (blockAt bs (num - 1)).hasOffset then (blockAt bs (num - 1)).bottom
  else -1

/-- The entry `updateBlockCount` writes for a block whose text layout gives `br`. -/
def prepopulated (br : QRectF) : BlockInfo :=
  if !br.isNull then { BlockInfo.fresh with m_rect := br } else BlockInfo.fresh

/-! ## Laying out a whole document, and example states -/

/-- Runs `finishBlockLayout` on the blocks `0, 1, ..., n - 1` in this order, block `i`
with the rectangle `rects i`. -/
def finishUpTo (rects : Nat → QRectF) : Nat → Layout → Layout
  | 0, s => s
  | i + 1, s => finishBlockLayout (finishUpTo rects i s) i (rects i)

/-- A document of `n` blocks none of which holds a text layout yet. -/
def unshapedDocument (n : Nat) : Document := ⟨n, fun _ => QRectF.null⟩

/-- The cache of `n` freshly reset entries that `updateBlockCount` builds from the
constructor state for a document of `n` unshaped blocks. -/
def freshLayout (n : Nat) : Layout :=
  updateBlockCount (Layout.init 0) (unshapedDocument n) (unshapedDocument n).blockCount 0

/-- Example: three blocks of width 1 and height 10, laid out from scratch. -/
def threeBlocks : Layout := finishUpTo (fun _ => ⟨0, 0, 1, 10⟩) 3 (freshLayout 3)

/-! ## blockRectFromTextLayout (lines 512-532) -/

/-- What `blockRectFromTextLayout` reads from the `QTextLayout` of a block: the number of
lines, the bottom-right corner of `boundingRect()`, and `lineAt(0).naturalTextWidth()`. -/
structure TextLayout where
  lineCount : Nat
  boundingRight : ℚ
  boundingBottom : ℚ
  naturalTextWidth : ℚ

/-- The method `blockRectFromTextLayout(p_block)`, for the text layout `tl` of the block;
`nextValid` is `p_block.next().isValid()`. -/
def blockRectFromTextLayout (m_margin : ℚ) (tl : TextLayout) (nextValid : Bool) : QRectF :=
  if tl.lineCount < 1 then QRectF.null
  else
    let br := QRectF.ofCorners 0 0 tl.boundingRight tl.boundingBottom
    let br : QRectF := if tl.lineCount = 1 then { br with w := max br.width tl.naturalTextWidth } else br
    let br := br.adjust 0 0 m_margin 0
    if !nextValid then br.adjust 0 0 0 m_margin else br

/-- The rectangles `blockRectFromTextLayout` gives for the blocks of a document of `n`
blocks whose text layouts are `tls 0, ..., tls (n - 1)`. -/
def documentRects (m_margin : ℚ) (n : Nat) (tls : Nat → TextLayout) : Nat → QRectF :=
  fun i => blockRectFromTextLayout m_margin (tls i) (decide (i + 1 < n))

/-- Example: text layouts of one line, 7 wide and 20 high. -/
def oneLine20 : Nat → TextLayout := fun _ => ⟨1, 7, 20, 7⟩

/-- Example: a document of two blocks under the document margin -25, each block one line
20 high whose text is 26 wide, laid out from scratch: `blockRectFromTextLayout` gives
both blocks the width 1, block 0 the height 20 and the last block the height -5. -/
def negativeMarginBlocks : Layout :=
  finishUpTo (documentRects (-25) 2 (fun _ => ⟨1, 1, 20, 26⟩)) 2
    (updateBlockCount (Layout.init (-25)) (unshapedDocument 2) (unshapedDocument 2).blockCount 0)

/-- Example: one block, 10 wide and 20.5 high, laid out from scratch, with the document
size computed by `updateDocumentSize` (caret allowance 1). -/
def halfPixelBlock : Layout :=
  updateDocumentSize (fun w => w + 1) (finishUpTo (fun _ => ⟨0, 0, 10, 41 / 2⟩) 1 (freshLayout 1))

/-- The larger of 0 and the widest cached rectangle. -/
def maxRectWidth (bs : List BlockInfo) : ℚ :=
  bs.foldl (fun m b => max m b.m_rect.width) 0

/-- The fast path of `documentChanged` for an edit inside block `k` whose new shaping
result is `br` (lines 274-284, taken when the height is unchanged): `clearBlockLayout`,
`layoutBlock` (which ends in `finishBlockLayout`), and
`updateDocumentSizeWithOneBlockChanged`. -/
def fastPathEdit (bw : ℚ → ℚ) (s : Layout) (k : Nat) (br : QRectF) : Layout :=
  updateDocumentSizeWithOneBlockChanged bw (finishBlockLayout (clearBlockLayout s k) k br) k

/-- The rectangles of the document after the edit: `br` for block `k`, the cached
rectangle for every other block. -/
def editedRects (s : Layout) (k : Nat) (br : QRectF) : Nat → QRectF :=
  fun j => if j = k then br else (blockAt s.m_blocks j).m_rect

/-- The cache with every entry reset. -/
def resetAll (s : Layout) : Layout :=
  { s with m_blocks := List.replicate s.m_blocks.length BlockInfo.fresh }

/-- The full relayout of the whole document: reset the whole cache, run
`finishBlockLayout` on the blocks `0 .. n - 1` in order, then `updateDocumentSize`. -/
def fullRelayout (bw : ℚ → ℚ) (s : Layout) (rects : Nat → QRectF) : Layout :=
  updateDocumentSize bw (finishUpTo rects s.m_blocks.length (resetAll s))

/-! ## Vertical extents -/

/-- The half-open vertical extent `[top(b), bottom(b))` of a block intersects the
half-open interval `[y, y + h)`. -/
def ExtentIntersects (b : BlockInfo) (y h : ℚ) : Prop :=
  max b.top y < min b.bottom (y + h)

/-- The test of the first loop of `blockRangeFromRect` for a block, at the integer `y`. -/
def rangeFirstTest (b : BlockInfo) (y : Int) : Prop :=
  b.top = (y : ℚ) ∨ (b.top < (y : ℚ) ∧ b.bottom ≥ (y : ℚ))

/-! ## documentChanged (lines 254-322) -/

/-- What `documentChanged` reads from the document after an edit:
the new block count `doc->blockCount()`, the margin `doc->documentMargin()`, the number
of `changeStartBlock` (assumed a valid block), the number of `changeEndBlock` (`none`
when `findBlock` gives an invalid block), the `length()` of the start block, for each
block the rectangle `blockRectFromTextLayout` gives for the text layout the block holds
when `documentChanged` is entered (`heldRect`), and the rectangle it gives once
`layoutBlock` has shaped the block again (`shapedRect`). -/
structure Change where
  newBlockCount : Nat
  margin : ℚ
  changeStartBlock : Nat
  changeEndBlock : Option Nat
  startBlockLength : Nat
  heldRect : Nat → QRectF
  shapedRect : Nat → QRectF

/-- The first `do ... while` loop of `documentChanged` (lines 289-297), at block `b`
with `fuel = newBlockCount - b`: `clearBlockLayout(block)`, which also clears the text
layout the block holds, so that `blockRectFromTextLayout` gives the null rectangle for it
from then on. -/
def clearRangeLoop (c : Change) :
    Nat → Nat → Layout × (Nat → QRectF) → Layout × (Nat → QRectF)
  | 0, _, st => st
  | fuel + 1, b, st =>
    let st' := (clearBlockLayout st.1 b, Function.update st.2 b QRectF.null)
    if c.changeEndBlock = some b then st'
    else if b + 1 < c.newBlockCount then clearRangeLoop c fuel (b + 1) st'
    else st'

/-- The second `do ... while` loop of `documentChanged` (lines 306-314): `layoutBlock`,
which shapes the block and ends in `finishBlockLayout`. -/
def layoutRangeLoop (c : Change) : Nat → Nat → Layout → Layout
  | 0, _, s => s
  | fuel + 1, b, s =>
    let s' := finishBlockLayout s b (c.shapedRect b)
    if c.changeEndBlock = some b then s'
    else if b + 1 < c.newBlockCount then layoutRangeLoop c fuel (b + 1) s'
    else s'

/-- The method `documentChanged(p_from, p_charsRemoved, p_charsAdded)`. -/
def documentChanged (bw : ℚ → ℚ) (s : Layout) (c : Change) : Layout :=
  let s : Layout := { s with m_margin := c.margin }
  let k := c.changeStartBlock
  if c.changeEndBlock = some k ∧ c.newBlockCount = s.m_blockCount then
    if c.startBlockLength ≠ 0 then
      let oldBr := blockBoundingRect s k
      let s1 := finishBlockLayout (clearBlockLayout s k) k (c.shapedRect k)
      let newBr := blockBoundingRect s1 k
      if newBr.height = oldBr.height then
        updateDocumentSizeWithOneBlockChanged bw s1 k
      else
        updateDocumentSize bw
          (updateBlockCount s1
            ⟨c.newBlockCount, Function.update c.heldRect k (c.shapedRect k)⟩ c.newBlockCount k)
    else
      updateDocumentSize bw
        (updateBlockCount s ⟨c.newBlockCount, c.heldRect⟩ c.newBlockCount k)
  else
    let st := clearRangeLoop c (c.newBlockCount - k) k (s, c.heldRect)
    let s2 := updateBlockCount st.1 ⟨c.newBlockCount, st.2⟩ c.newBlockCount k
    let s3 := layoutRangeLoop c (c.newBlockCount - k) k s2
    updateDocumentSize bw s3

/-- The last block the two loops of the full path handle: `changeEndBlock` when it is a
block of the document at or after `changeStartBlock`, the last block of the document
otherwise (the loops then run until `block.next()` is invalid). -/
def rangeEnd (c : Change) : Nat :=
  match c.changeEndBlock with
  | some e => if c.changeStartBlock ≤ e ∧ e < c.newBlockCount then e else c.newBlockCount - 1
  | none => c.newBlockCount - 1

/-- The cache states reached from the constructor state by a sequence of edits, each
processed by `documentChanged` (with a valid start block) and each leaving every block
positioned. -/
inductive EditReachable (bw : ℚ → ℚ) : Layout → Prop
  | init (margin : ℚ) : EditReachable bw (Layout.init margin)
  | edit (s : Layout) (c : Change) :
      EditReachable bw s → c.changeStartBlock < c.newBlockCount →
      FullyPositioned (documentChanged bw s c) →
      EditReachable bw (documentChanged bw s c)

/-- Example: the first edit of an empty document, giving one block 0 wide and 20 high. -/
def zeroWidthChange : Change :=
  { newBlockCount := 1, margin := 0, changeStartBlock := 0, changeEndBlock := some 0,
    startBlockLength := 1, heldRect := fun _ => QRectF.null,
    shapedRect := fun _ => ⟨0, 0, 0, 20⟩ }

/-- Example: in the three-block example the newline between blocks 0 and 1 is deleted
under the document margin -25; the merged block 0 is shaped 1 wide and 20 high, the old
block 2 becomes the last block 1, whose rectangle is 1 wide and, with the margin, -5
high. -/
def mergeChangeNegativeMargin : Change :=
  { newBlockCount := 2, margin := -25, changeStartBlock := 0, changeEndBlock := some 0,
    startBlockLength := 3, heldRect := fun _ => ⟨0, 0, 1, -5⟩,
    shapedRect := fun _ => ⟨0, 0, 1, 20⟩ }

/-- Example: in the three-block example the newline between blocks 0 and 1 is deleted;
the merged block 0 is shaped 2 wide and 10 high, the old block 2 becomes block 1. -/
def mergeChangeOk : Change :=
  { newBlockCount := 2, margin := 0, changeStartBlock := 0, changeEndBlock := some 0,
    startBlockLength := 3, heldRect := fun _ => ⟨0, 0, 1, 10⟩,
    shapedRect := fun _ => ⟨0, 0, 2, 10⟩ }

/-- The cached width and the tracked widest block agree with the cache: the width is
`blockWidthInDocument` of the larger of 0 and the widest rectangle, and when some
rectangle has positive width the tracked index is a block of that maximal width. -/
def WidthTracked (bw : ℚ → ℚ) (s : Layout) : Prop :=
  (documentSize s).width = bw (maxRectWidth s.m_blocks)
  ∧ (0 < maxRectWidth s.m_blocks →
      ∃ j : Nat, s.m_maximumWidthBlockNumber = (j : Int) ∧ j < s.m_blocks.length
        ∧ (blockAt s.m_blocks j).m_rect.width = maxRectWidth s.m_blocks)

/-- Example: one block 5 wide and 10 high, laid out from scratch and sized by
`updateDocumentSize` (caret allowance 1), then laid out again on the fast path with a
rectangle -1 wide (an empty line under a document margin of -1) and the same height,
before `updateDocumentSizeWithOneBlockChanged` runs. -/
def shrunkBelowZero : Layout :=
  finishBlockLayout
    (clearBlockLayout
      (updateDocumentSize (fun w => w + 1)
        (finishUpTo (fun _ => ⟨0, 0, 5, 10⟩) 1 (freshLayout 1))) 0)
    0 ⟨0, 0, -1, 10⟩

/-- Example: three blocks 5, 3 and 4 wide (10 high each), sized by `updateDocumentSize`,
then block 0, the widest, laid out again 2 wide. -/
def shrunkWidest : Layout :=
  finishBlockLayout
    (clearBlockLayout
      (updateDocumentSize (fun w => w + 1)
        (finishUpTo (fun i => ⟨0, 0, if i = 0 then 5 else if i = 1 then 3 else 4, 10⟩) 3
          (freshLayout 3))) 0)
    0 ⟨0, 0, 2, 10⟩

/-! ## formatRangeFromSelection (lines 177-215) -/

/-- The cursor `QTextCursor` as `formatRangeFromSelection` reads it.  Qt keeps an anchor
and a position (document positions, between 0 and the length of the document, so the
`int` differences below cannot overflow). -/
structure QTextCursor where
  anchor : Int
  position : Int

namespace QTextCursor

/-- Qt: `selectionStart()` is the smaller of anchor and position. -/
def selectionStart (c : QTextCursor) : Int := min c.anchor c.position

/-- Qt: `selectionEnd()` is the larger of anchor and position. -/
def selectionEnd (c : QTextCursor) : Int := max c.anchor c.position

/-- Qt: `hasSelection()` is `position != anchor`. -/
def hasSelection (c : QTextCursor) : Bool := decide (c.position ≠ c.anchor)

end QTextCursor

/-- The format `QTextCharFormat` of a selection: whether it has the property
`QTextFormat::FullWidthSelection`, and a number standing for its other properties. -/
structure QTextCharFormat where
  fullWidthSelection : Bool
  properties : Nat
deriving DecidableEq

/-- The type `QAbstractTextDocumentLayout::Selection`. -/
structure Selection where
  cursor : QTextCursor
  format : QTextCharFormat

/-- The type `QTextLayout::FormatRange`. -/
structure FormatRange where
  start : Int
  length : Int
  format : QTextCharFormat
deriving DecidableEq

/-- What the engine reads from a `QTextLine`: `textStart()` and `textLength()`. -/
structure QTextLine where
  textStart : Int
  textLength : Int

/-- What `formatRangeFromSelection` reads from the block: `position()`, `length()`, and
`layout()->lineForTextPosition(pos)` of the shaping primitive. -/
structure TextBlock where
  position : Int
  length : Int
  lineForTextPosition : Int → QTextLine

/-- Qt: `QTextBlock::contains(position)` is
`position >= pos && position < pos + len`. -/
def TextBlock.contains (b : TextBlock) (pos : Int) : Bool :=
  decide (pos ≥ b.position ∧ pos < b.position + b.length)

/-- The loop of `formatRangeFromSelection` over the remaining selections, with the
vector `ret` built so far. -/
def formatRangeLoop (p_block : TextBlock) : List Selection → List FormatRange → List FormatRange
  | [], ret => ret
  | range :: rest, ret =>
    let blpos := p_block.position
    let bllen := p_block.length
    let selStart := range.cursor.selectionStart - blpos
    let selEnd := range.cursor.selectionEnd - blpos
    if selStart < bllen ∧ selEnd > 0 ∧ selEnd > selStart then
      formatRangeLoop p_block rest (ret ++ [⟨selStart, selEnd - selStart, range.format⟩])
    else if (!range.cursor.hasSelection) = true ∧ range.format.fullWidthSelection = true
        ∧ p_block.contains range.cursor.position = true then
      let l := p_block.lineForTextPosition (range.cursor.position - blpos)
      let length := if l.textStart + l.textLength = bllen - 1 then l.textLength + 1
        else l.textLength
      formatRangeLoop p_block rest (ret ++ [⟨l.textStart, length, range.format⟩])
    else formatRangeLoop p_block rest ret

/-- The method `formatRangeFromSelection(p_block, p_selections)`. -/
def formatRangeFromSelection (p_block : TextBlock) (p_selections : List Selection) :
    List FormatRange :=
  formatRangeLoop p_block p_selections []

/-- Example: a block of 10 characters at document position 0, laid out as one line. -/
def tenCharBlock : TextBlock := ⟨0, 10, fun _ => ⟨0, 9⟩⟩

/-! ## draw (lines 98-175) -/

/-- One pass of the paint loop of `draw`: the number of the block handled, the vertical
coordinate of the running `offset` at that moment, and whether the block is painted
(visible) or skipped. -/
structure DrawStep where
  blockNumber : Nat
  offsetY : ℚ
  painted : Bool
deriving DecidableEq

/-- The paint loop of `draw`, at block `b` with the running vertical offset `y` and
`fuel = size - b`; `last` is the number of `lastBlock`.  Only what decides the positions
is kept: the visibility test, the two increments of `offset.ry()` and the two exits. -/
def drawLoop (bs : List BlockInfo) (visible : Nat → Bool) (last : Int) :
    Nat → Nat → ℚ → List DrawStep
  | 0, _, _ => []
  | fuel + 1, b, y =>
    if b < bs.length then
      let rect := (blockAt bs b).m_rect
      if !visible b then
        ⟨b, y, false⟩ ::
          (if (b : Int) = last then [] else drawLoop bs visible last fuel (b + 1) (y + rect.height))
      else
        ⟨b, y, true⟩ ::
          (if (b : Int) = last then [] else drawLoop bs visible last fuel (b + 1) (y + rect.height))
    else []

/-- The method `draw(p_painter, p_context)` for the clip rectangle `clip`, as the list of
the passes of its paint loop; `visible b` is `block.isVisible()` for block `b`. -/
def draw (s : Layout) (clip : QRectF) (visible : Nat → Bool) : List DrawStep :=
  let range := blockRangeFromRect s clip
  if range.1 = -1 then []
  else
    drawLoop s.m_blocks visible range.2 (s.m_blocks.length - range.1.toNat) range.1.toNat
      (blockAt s.m_blocks range.1.toNat).top

/-! # Properties of the embedded engine -/

/-! ## Basic facts about the vector accessors -/

theorem blockAt_of_lt {bs : List BlockInfo} {i : Nat} (h : i < bs.length) :
    blockAt bs i = bs[i] := by
  simp [blockAt, List.getD_eq_getElem?_getD, List.getElem?_eq_getElem h]

theorem blockAt_of_le {bs : List BlockInfo} {i : Nat} (h : bs.length ≤ i) :
    blockAt bs i = BlockInfo.fresh := by
  simp [blockAt, List.getD_eq_getElem?_getD, List.getElem?_eq_none h]

theorem blockAt_set (bs : List BlockInfo) (i j : Nat) (v : BlockInfo) :
    blockAt (bs.set i v) j = if j = i ∧ i < bs.length then v else blockAt bs j := by
  unfold blockAt
  simp only [List.getD_eq_getElem?_getD, List.getElem?_set]
  by_cases hij : i = j
  · subst hij
    by_cases hi : i < bs.length
    · simp [hi]
    · simp [hi, List.getElem?_eq_none (Nat.le_of_not_lt hi)]
  · have hji : ¬ j = i := fun h => hij h.symm
    simp [hij, hji]

theorem blockAt_set_self {bs : List BlockInfo} {i : Nat} (v : BlockInfo) (h : i < bs.length) :
    blockAt (bs.set i v) i = v := by
  simp [blockAt_set, h]

theorem blockAt_set_ne {bs : List BlockInfo} {i j : Nat} (v : BlockInfo) (h : j ≠ i) :
    blockAt (bs.set i v) j = blockAt bs j := by
  simp [blockAt_set, h]

theorem fresh_not_hasOffset : BlockInfo.fresh.hasOffset = false := by
  decide!

theorem hasOffset_lt_length {bs : List BlockInfo} {i : Nat}
    (h : (blockAt bs i).hasOffset = true) : i < bs.length := by
  by_contra hn
  rw [blockAt_of_le (Nat.le_of_not_lt hn), fresh_not_hasOffset] at h
  exact Bool.false_ne_true h

theorem list_ext_blockAt {as bs : List BlockInfo} (hl : as.length = bs.length)
    (h : ∀ j, j < bs.length → blockAt as j = blockAt bs j) : as = bs := by
  apply List.ext_getElem hl
  intro n h1 h2
  have := h n h2
  rwa [blockAt_of_lt h1, blockAt_of_lt h2] at this

/-! ## fillOffsetFrom -/

theorem fillOffsetLoop_length (fuel i : Nat) (offset : ℚ) (bs : List BlockInfo) :
    (fillOffsetLoop fuel i offset bs).length = bs.length := by
  induction fuel generalizing i offset bs with
  | zero => rfl
  | succ fuel ih =>
    unfold fillOffsetLoop
    split
    · split
      · rw [ih]; simp
      · rfl
    · rfl

/-- Pointwise description of the loop of `fillOffsetFrom`, given the index `m` where it
stops: the first index from `i` on whose rectangle is null, or the size. -/
theorem fillOffsetLoop_blockAt (fuel : Nat) :
    ∀ (i : Nat) (offset : ℚ) (bs : List BlockInfo) (m : Nat),
      bs.length - i ≤ fuel → i ≤ m → m ≤ bs.length →
      (∀ t, i ≤ t → t < m → (blockAt bs t).m_rect.isNull = false) →
      (m = bs.length ∨ (blockAt bs m).m_rect.isNull = true) →
      ∀ j, blockAt (fillOffsetLoop fuel i offset bs) j =
        if i ≤ j ∧ j < m then
          { blockAt bs j with
            m_offset := offset + ∑ t ∈ Finset.Ico i j, (blockAt bs t).m_rect.height }
        else blockAt bs j := by
  induction fuel with
  | zero =>
    intro i offset bs m hf him hm _ _ j
    have : ¬ (i ≤ j ∧ j < m) := by omega
    simp [fillOffsetLoop, this]
  | succ fuel ih =>
    intro i offset bs m hf him hm hnn hstop j
    unfold fillOffsetLoop
    by_cases hi : i < bs.length
    · rw [if_pos hi]
      by_cases hnull : (blockAt bs i).m_rect.isNull = true
      · have hmi : m = i := by
          by_contra hne
          have := hnn i (le_refl i) (by omega)
          rw [hnull] at this
          exact Bool.noConfusion this
        have : ¬ (i ≤ j ∧ j < m) := by omega
        simp [hnull, this]
      · have hnull' : (blockAt bs i).m_rect.isNull = false := by
          cases h : (blockAt bs i).m_rect.isNull
          · rfl
          · exact absurd h hnull
        have him' : i + 1 ≤ m := by
          rcases Nat.lt_or_ge i m with h | h
          · exact h
          · have hmi : m = i := le_antisymm h him
            subst hmi
            rcases hstop with h1 | h1
            · omega
            · rw [hnull'] at h1; exact Bool.noConfusion h1
        simp only [hnull', Bool.not_false, if_true]
        have hrect : ∀ t, (blockAt (bs.set i { blockAt bs i with m_offset := offset }) t).m_rect
            = (blockAt bs t).m_rect := by
          intro t
          rw [blockAt_set]
          split
          · rename_i h; rw [h.1]
          · rfl
        rw [ih (i + 1) _ _ m (by simp; omega) him' (by simpa using hm)
          (by intro t ht1 ht2; rw [hrect]; exact hnn t (by omega) ht2)
          (by
            rcases hstop with h1 | h1
            · left; simpa using h1
            · right; rw [hrect]; exact h1)]
        by_cases hj : i + 1 ≤ j ∧ j < m
        · have hj' : i ≤ j ∧ j < m := ⟨by omega, hj.2⟩
          rw [if_pos hj, if_pos hj', blockAt_set_ne _ (by omega)]
          rw [Finset.sum_eq_sum_Ico_succ_bot (by omega : i < j)]
          simp only [hrect, add_assoc]
        · rw [if_neg hj]
          by_cases hji : j = i
          · subst hji
            rw [blockAt_set_self _ hi, if_pos ⟨le_refl _, by omega⟩]
            simp
          · have : ¬ (i ≤ j ∧ j < m) := by omega
            rw [if_neg this, blockAt_set_ne _ hji]
    · have : ¬ (i ≤ j ∧ j < m) := by omega
      rw [if_neg hi, if_neg this]

theorem fillOffsetFromList_length (bs : List BlockInfo) (k : Nat) :
    (fillOffsetFromList bs k).length = bs.length :=
  fillOffsetLoop_length _ _ _ _

/-- Pointwise description of `fillOffsetFrom(k)` with the stopping index `m`. -/
theorem fillOffsetFromList_blockAt (bs : List BlockInfo) (k m : Nat)
    (hkm : k < m) (hm : m ≤ bs.length)
    (hnn : ∀ t, k < t → t < m → (blockAt bs t).m_rect.isNull = false)
    (hstop : m = bs.length ∨ (blockAt bs m).m_rect.isNull = true) (j : Nat) :
    blockAt (fillOffsetFromList bs k) j =
      if k < j ∧ j < m then
        { blockAt bs j with
          m_offset := (blockAt bs k).bottom
            + ∑ t ∈ Finset.Ico (k + 1) j, (blockAt bs t).m_rect.height }
      else blockAt bs j := by
  unfold fillOffsetFromList
  rw [fillOffsetLoop_blockAt _ (k + 1) _ bs m (le_refl _) hkm hm
    (fun t h1 h2 => hnn t h1 h2) hstop j]
  rfl

/-- **C9.** `fillOffsetFrom(k)` on a cache in which block `k` is positioned, where `m` is
the smallest index greater than `k` whose rectangle is null (`m` is the number of blocks
if there is none): afterwards every block `j` with `k < j < m` has
`m_offset(j) = bottom(k) + sum of m_rect(i).height for k < i < j`, and every rectangle,
every entry of index at most `k` and every entry of index at least `m` is unchanged
(as are the number of entries and every other member of the engine). -/
theorem fillOffsetFrom_offsets (s : Layout) (k m : Nat)
    (_hk : Positioned s k) (hkm : k < m) (hm : m ≤ s.m_blocks.length)
    (hnn : ∀ t, k < t → t < m → (blockAt s.m_blocks t).m_rect.isNull = false)
    (hstop : m = s.m_blocks.length ∨ (blockAt s.m_blocks m).m_rect.isNull = true) :
    (∀ j, k < j → j < m →
        (blockAt (fillOffsetFrom s k).m_blocks j).m_offset =
          (blockAt s.m_blocks k).bottom
            + ∑ i ∈ Finset.Ioo k j, (blockAt s.m_blocks i).m_rect.height)
    ∧ (∀ j, (blockAt (fillOffsetFrom s k).m_blocks j).m_rect = (blockAt s.m_blocks j).m_rect)
    ∧ (∀ j, j ≤ k → blockAt (fillOffsetFrom s k).m_blocks j = blockAt s.m_blocks j)
    ∧ (∀ j, m ≤ j → blockAt (fillOffsetFrom s k).m_blocks j = blockAt s.m_blocks j)
    ∧ (fillOffsetFrom s k).m_blocks.length = s.m_blocks.length
    ∧ (fillOffsetFrom s k).m_blockCount = s.m_blockCount
    ∧ documentSize (fillOffsetFrom s k) = documentSize s := by
  have key := fillOffsetFromList_blockAt s.m_blocks k m hkm hm hnn hstop
  have hIoo : ∀ j, Finset.Ioo k j = Finset.Ico (k + 1) j := by
    intro j; ext t; simp [Finset.mem_Ioo, Finset.mem_Ico, Nat.succ_le_iff]
  refine ⟨?_, ?_, ?_, ?_, fillOffsetFromList_length _ _, rfl, rfl⟩
  · intro j h1 h2
    show (blockAt (fillOffsetFromList s.m_blocks k) j).m_offset = _
    rw [key j, if_pos ⟨h1, h2⟩, hIoo]
  · intro j
    show (blockAt (fillOffsetFromList s.m_blocks k) j).m_rect = _
    rw [key j]; split <;> rfl
  · intro j h1
    show blockAt (fillOffsetFromList s.m_blocks k) j = _
    rw [key j, if_neg (by omega)]
  · intro j h1
    show blockAt (fillOffsetFromList s.m_blocks k) j = _
    rw [key j, if_neg (by omega)]

/-! ## validateBlocks -/

theorem blockAt_cons_zero (a : BlockInfo) (l : List BlockInfo) : blockAt (a :: l) 0 = a := rfl

theorem blockAt_cons_succ (a : BlockInfo) (l : List BlockInfo) (j : Nat) :
    blockAt (a :: l) (j + 1) = blockAt l j := rfl

theorem validateLoop_iff (bs : List BlockInfo) :
    ∀ valid : Bool, validateLoop bs valid = true ↔
      ((valid = false → ∀ j, (blockAt bs j).hasOffset = false) ∧ DownClosed bs) := by
  induction bs with
  | nil =>
    intro valid
    simp only [validateLoop, true_iff]
    refine ⟨fun _ j => ?_, fun i j _ h => ?_⟩
    · rw [blockAt_of_le (by simp)]; exact fresh_not_hasOffset
    · rw [blockAt_of_le (by simp), fresh_not_hasOffset] at h; exact absurd h (by simp)
  | cons a l ih =>
    intro valid
    unfold validateLoop
    by_cases ha : a.hasOffset = true
    · simp only [ha, Bool.not_true, Bool.false_eq_true, if_false]
      cases valid with
      | false =>
        simp only [Bool.not_false, if_true]
        constructor
        · intro h; exact absurd h (by simp)
        · rintro ⟨h, _⟩
          have := h trivial 0
          rw [blockAt_cons_zero, ha] at this
          exact absurd this (by simp)
      | true =>
        simp only [Bool.not_true, Bool.false_eq_true, if_false]
        rw [ih true]
        constructor
        · rintro ⟨_, hd⟩
          refine ⟨fun h => absurd h (by simp), ?_⟩
          intro i j hij hj
          cases j with
          | zero => omega
          | succ j =>
            cases i with
            | zero => exact ha
            | succ i => exact hd i j (by omega) hj
        · rintro ⟨_, hd⟩
          refine ⟨fun h => absurd h (by simp), ?_⟩
          intro i j hij hj
          exact hd (i + 1) (j + 1) (by omega) hj
    · have ha' : a.hasOffset = false := by
        cases h : a.hasOffset
        · rfl
        · exact absurd h ha
      simp only [ha', Bool.not_false, if_true]
      rw [ih false]
      constructor
      · rintro ⟨hall, hd⟩
        have hall' := hall rfl
        have hno : ∀ j, (blockAt (a :: l) j).hasOffset = false := by
          intro j
          cases j with
          | zero => exact ha'
          | succ j => exact hall' j
        refine ⟨fun _ => hno, ?_⟩
        intro i j _ hj
        rw [hno j] at hj
        exact absurd hj (by simp)
      · rintro ⟨_, hd⟩
        have hall : ∀ j, (blockAt l j).hasOffset = false := by
          intro j
          cases h : (blockAt l j).hasOffset
          · rfl
          · have := hd 0 (j + 1) (by omega) h
            rw [blockAt_cons_zero, ha'] at this
            exact absurd this (by simp)
        refine ⟨fun _ => hall, ?_⟩
        intro i j _ hj
        rw [hall j] at hj
        exact absurd hj (by simp)

/-- `validateBlocks()` returns true exactly when no unpositioned block is followed by a
positioned block. -/
theorem validateBlocksList_iff (bs : List BlockInfo) :
    validateBlocksList bs = true ↔ DownClosed bs := by
  unfold validateBlocksList
  rw [validateLoop_iff]
  exact ⟨fun h => h.2, fun h => ⟨fun h' => absurd h' (by simp), h⟩⟩

/-! ## clearOffsetFrom and clearBlockLayout -/

theorem bool_eq_false_of_ne_true {b : Bool} (h : ¬ b = true) : b = false := by
  cases b
  · rfl
  · exact absurd rfl h

/-- The first index from `i` on at which a test holds (or the upper bound `n`). -/
theorem exists_first_index (P : Nat → Bool) (i n : Nat) (hi : i ≤ n) :
    ∃ m, i ≤ m ∧ m ≤ n ∧ (∀ t, i ≤ t → t < m → P t = false) ∧ (m = n ∨ P m = true) := by
  by_cases hex : ∃ t, i ≤ t ∧ t < n ∧ P t = true
  · refine ⟨Nat.find hex, (Nat.find_spec hex).1, le_of_lt (Nat.find_spec hex).2.1, ?_,
      Or.inr (Nat.find_spec hex).2.2⟩
    intro t ht1 ht2
    have := Nat.find_min hex ht2
    have hlt : t < n := lt_trans ht2 (Nat.find_spec hex).2.1
    exact bool_eq_false_of_ne_true fun h => this ⟨ht1, hlt, h⟩
  · refine ⟨n, hi, le_refl _, ?_, Or.inl rfl⟩
    intro t ht1 ht2
    exact bool_eq_false_of_ne_true fun h => hex ⟨t, ht1, ht2, h⟩

theorem clearOffsetLoop_length (fuel i : Nat) (bs : List BlockInfo) :
    (clearOffsetLoop fuel i bs).1.length = bs.length := by
  induction fuel generalizing i bs with
  | zero => rfl
  | succ fuel ih =>
    unfold clearOffsetLoop
    split
    · split
      · rfl
      · rw [ih]; simp
    · rfl

/-- Pointwise description of the loop of `clearOffsetFrom`, given the index `m` where it
stops: the first index from `i` on that is not positioned, or the size. -/
theorem clearOffsetLoop_blockAt (fuel : Nat) :
    ∀ (i : Nat) (bs : List BlockInfo) (m : Nat),
      bs.length - i ≤ fuel → i ≤ m → m ≤ bs.length →
      (∀ t, i ≤ t → t < m → (blockAt bs t).hasOffset = true) →
      (m = bs.length ∨ (blockAt bs m).hasOffset = false) →
      (∀ j, blockAt (clearOffsetLoop fuel i bs).1 j =
        if i ≤ j ∧ j < m then { blockAt bs j with m_offset := -1 } else blockAt bs j)
      ∧ (clearOffsetLoop fuel i bs).2 =
          if m < bs.length then some (validateBlocksList (clearOffsetLoop fuel i bs).1)
          else none := by
  induction fuel with
  | zero =>
    intro i bs m hf him hm _ _
    have hmn : ¬ m < bs.length := by omega
    refine ⟨fun j => ?_, by simp [clearOffsetLoop, hmn]⟩
    have : ¬ (i ≤ j ∧ j < m) := by omega
    simp [clearOffsetLoop, this]
  | succ fuel ih =>
    intro i bs m hf him hm hpos hstop
    unfold clearOffsetLoop
    by_cases hi : i < bs.length
    · rw [if_pos hi]
      by_cases hoff : (blockAt bs i).hasOffset = true
      · have him' : i + 1 ≤ m := by
          rcases Nat.lt_or_ge i m with h | h
          · exact h
          · have hmi : m = i := le_antisymm h him
            subst hmi
            rcases hstop with h1 | h1
            · omega
            · rw [hoff] at h1; exact Bool.noConfusion h1
        simp only [hoff, Bool.not_true, Bool.false_eq_true, if_false]
        have hoth : ∀ t, t ≠ i →
            blockAt (bs.set i { blockAt bs i with m_offset := -1 }) t = blockAt bs t :=
          fun t ht => blockAt_set_ne _ ht
        have hlen : (bs.set i { blockAt bs i with m_offset := -1 }).length = bs.length := by
          simp
        obtain ⟨h1, h2⟩ := ih (i + 1) (bs.set i { blockAt bs i with m_offset := -1 }) m
          (by rw [hlen]; omega) him' (by rw [hlen]; exact hm)
          (by intro t ht1 ht2; rw [hoth t (by omega)]; exact hpos t (by omega) ht2)
          (by
            rcases hstop with h | h
            · left; rw [hlen]; exact h
            · right
              have : m ≠ i := by omega
              rw [hoth m this]; exact h)
        refine ⟨fun j => ?_, by rw [h2, hlen]⟩
        rw [h1 j]
        by_cases hj : i + 1 ≤ j ∧ j < m
        · rw [if_pos hj, if_pos ⟨by omega, hj.2⟩, hoth j (by omega)]
        · rw [if_neg hj]
          by_cases hji : j = i
          · subst hji
            rw [blockAt_set_self _ hi, if_pos ⟨le_refl _, by omega⟩]
          · rw [hoth j hji, if_neg (by omega)]
      · have hoff' := bool_eq_false_of_ne_true hoff
        have hmi : m = i := by
          by_contra hne
          have := hpos i (le_refl i) (by omega)
          rw [hoff'] at this
          exact Bool.noConfusion this
        subst hmi
        simp only [hoff', Bool.not_false, if_true, hi]
        refine ⟨fun j => ?_, trivial⟩
        rw [if_neg (by omega)]
    · rw [if_neg hi]
      have hmn : ¬ m < bs.length := by omega
      refine ⟨fun j => ?_, by simp [hmn]⟩
      rw [if_neg (by omega)]

/-! ## finishBlockLayout -/

theorem previousValidBlockNumber_natCast (n : Nat) :
    previousValidBlockNumber (n : Int) = (n : Int) - 1 := by
  unfold previousValidBlockNumber
  rw [if_pos (by exact_mod_cast Nat.zero_le n)]

/-- The entry `finishBlockLayout` stores for the block, before `fillOffsetFrom` runs. -/
theorem finishBlockLayoutList_eq (bs : List BlockInfo) (num : Nat) (br : QRectF) :
    finishBlockLayoutList bs num br =
      if (BlockInfo.mk (finishOffset bs num) br).hasOffset then
        fillOffsetFromList (bs.set num ⟨finishOffset bs num, br⟩) num
      else bs.set num ⟨finishOffset bs num, br⟩ := by
  unfold finishBlockLayoutList
  simp only [previousValidBlockNumber_natCast]
  have hinfo : (if ((num : Int) - 1 = -1) then
        ({ ({ (blockAt bs num).reset with m_rect := br } : BlockInfo) with m_offset := 0 } : BlockInfo)
      else if (blockAt bs ((num : Int) - 1).toNat).hasOffset = true then
        { ({ (blockAt bs num).reset with m_rect := br } : BlockInfo) with
          m_offset := (blockAt bs ((num : Int) - 1).toNat).bottom }
      else { (blockAt bs num).reset with m_rect := br })
      = (⟨finishOffset bs num, br⟩ : BlockInfo) := by
    unfold finishOffset
    have htn : ((num : Int) - 1).toNat = num - 1 := by omega
    rw [htn]
    by_cases h0 : num = 0
    · subst h0; simp
    · have : ¬ ((num : Int) - 1 = -1) := by omega
      rw [if_neg this, if_neg h0]
      split <;> rfl
  rw [hinfo]

theorem finishBlockLayoutList_length (bs : List BlockInfo) (num : Nat) (br : QRectF) :
    (finishBlockLayoutList bs num br).length = bs.length := by
  rw [finishBlockLayoutList_eq]
  split
  · rw [fillOffsetFromList_length]; simp
  · simp

/-- Pointwise description of `finishBlockLayout`, with the index `m` at which the
`fillOffsetFrom` it calls stops. -/
theorem finishBlockLayoutList_blockAt (bs : List BlockInfo) (num m : Nat) (br : QRectF)
    (hnum : num < bs.length) (hkm : num < m) (hm : m ≤ bs.length)
    (hnn : ∀ t, num < t → t < m → (blockAt bs t).m_rect.isNull = false)
    (hstop : m = bs.length ∨ (blockAt bs m).m_rect.isNull = true) (j : Nat) :
    blockAt (finishBlockLayoutList bs num br) j =
      if j = num then ⟨finishOffset bs num, br⟩
      else if (BlockInfo.mk (finishOffset bs num) br).hasOffset = true ∧ num < j ∧ j < m then
        { blockAt bs j with
          m_offset := finishOffset bs num + br.height
            + ∑ t ∈ Finset.Ico (num + 1) j, (blockAt bs t).m_rect.height }
      else blockAt bs j := by
  rw [finishBlockLayoutList_eq]
  have hoth : ∀ t, t ≠ num →
      blockAt (bs.set num ⟨finishOffset bs num, br⟩) t = blockAt bs t :=
    fun t ht => blockAt_set_ne _ ht
  have hself : blockAt (bs.set num ⟨finishOffset bs num, br⟩) num = ⟨finishOffset bs num, br⟩ :=
    blockAt_set_self _ hnum
  by_cases hpos : (BlockInfo.mk (finishOffset bs num) br).hasOffset = true
  · rw [if_pos hpos]
    rw [fillOffsetFromList_blockAt _ num m hkm (by simpa using hm)
      (by intro t h1 h2; rw [hoth t (by omega)]; exact hnn t h1 h2)
      (by
        rcases hstop with h | h
        · left; simpa using h
        · right; rw [hoth m (by omega)]; exact h)]
    by_cases hj : j = num
    · subst hj
      rw [if_neg (by omega), if_pos rfl, hself]
    · rw [if_neg hj, hoth j hj]
      by_cases hjm : num < j ∧ j < m
      · rw [if_pos hjm, if_pos ⟨hpos, hjm⟩, hself]
        have : ∀ t ∈ Finset.Ico (num + 1) j,
            (blockAt (bs.set num ⟨finishOffset bs num, br⟩) t).m_rect.height
              = (blockAt bs t).m_rect.height := by
          intro t ht
          rw [hoth t (by simp [Finset.mem_Ico] at ht; omega)]
        rw [Finset.sum_congr rfl this]
        rfl
      · rw [if_neg hjm, if_neg (by tauto)]
  · rw [if_neg hpos]
    by_cases hj : j = num
    · subst hj
      rw [if_pos rfl, hself]
    · rw [if_neg hj, if_neg (by tauto), hoth j hj]

/-! ## updateBlockCount -/

theorem resize_length (bs : List BlockInfo) (n : Nat) : (resize bs n).length = n := by
  unfold resize
  simp only [List.length_append, List.length_take, List.length_replicate]
  omega

theorem blockAt_resize (bs : List BlockInfo) (n j : Nat) :
    blockAt (resize bs n) j = if j < n then blockAt bs j else BlockInfo.fresh := by
  by_cases hj : j < n
  · rw [if_pos hj]
    unfold resize blockAt
    simp only [List.getD_eq_getElem?_getD]
    by_cases hjl : j < bs.length
    · rw [List.getElem?_append_left (by simp; omega), List.getElem?_take_of_lt hj]
    · rw [List.getElem?_append_right (by simp; omega)]
      rw [List.getElem?_eq_none (Nat.le_of_not_lt hjl)]
      rw [List.getElem?_replicate]
      simp only [List.length_take]
      rw [if_pos (by omega)]
      rfl
  · rw [if_neg hj, blockAt_of_le (by rw [resize_length]; omega)]

theorem updateBlockCountLoop_length (doc : Document) (fuel b : Nat) (bs : List BlockInfo) :
    (updateBlockCountLoop doc fuel b bs).length = bs.length := by
  induction fuel generalizing b bs with
  | zero => rfl
  | succ fuel ih =>
    unfold updateBlockCountLoop
    split
    · simp only []
      rw [ih]; simp
    · rfl

/-- Pointwise description of the loop of `updateBlockCount`. -/
theorem updateBlockCountLoop_blockAt (doc : Document) (fuel : Nat) :
    ∀ (b : Nat) (bs : List BlockInfo), doc.blockCount - b ≤ fuel →
      ∀ j, blockAt (updateBlockCountLoop doc fuel b bs) j =
        if b ≤ j ∧ j < doc.blockCount ∧ j < bs.length then prepopulated (doc.blockRect j)
        else blockAt bs j := by
  induction fuel with
  | zero =>
    intro b bs hf j
    rw [if_neg (by omega)]
    rfl
  | succ fuel ih =>
    intro b bs hf j
    unfold updateBlockCountLoop
    by_cases hb : b < doc.blockCount
    · rw [if_pos hb]
      simp only []
      rw [ih (b + 1) _ (by omega) j]
      simp only [List.length_set]
      by_cases hj : b + 1 ≤ j ∧ j < doc.blockCount ∧ j < bs.length
      · rw [if_pos hj, if_pos ⟨by omega, hj.2⟩]
      · rw [if_neg hj]
        by_cases hjb : j = b
        · subst hjb
          rw [blockAt_set]
          by_cases hl : j < bs.length
          · rw [if_pos (show j = j ∧ j < bs.length from ⟨rfl, hl⟩),
              if_pos (show j ≤ j ∧ j < doc.blockCount ∧ j < bs.length from ⟨le_refl _, hb, hl⟩)]
            rfl
          · rw [if_neg (by tauto), if_neg (by tauto)]
        · rw [blockAt_set_ne _ hjb, if_neg (by omega)]
    · rw [if_neg hb, if_neg (by omega)]

theorem prepopulated_not_hasOffset (br : QRectF) : (prepopulated br).hasOffset = false := by
  unfold prepopulated
  split <;> simp [BlockInfo.hasOffset, BlockInfo.fresh]

/-! ## Contiguity is preserved by every mutator -/

/-- A step that changes only entries it leaves unpositioned keeps contiguity. -/
theorem contiguous_of_clears {bs res : List BlockInfo}
    (h : ∀ j, blockAt res j = blockAt bs j ∨ (blockAt res j).hasOffset = false)
    (hc : ∀ i, (blockAt bs i).hasOffset = true → (blockAt bs (i + 1)).hasOffset = true →
      (blockAt bs i).bottom = (blockAt bs (i + 1)).top) :
    ∀ i, (blockAt res i).hasOffset = true → (blockAt res (i + 1)).hasOffset = true →
      (blockAt res i).bottom = (blockAt res (i + 1)).top := by
  intro i h1 h2
  rcases h i with e1 | e1
  · rcases h (i + 1) with e2 | e2
    · rw [e1] at h1 ⊢
      rw [e2] at h2 ⊢
      exact hc i h1 h2
    · rw [e2] at h2; exact Bool.noConfusion h2
  · rw [e1] at h1; exact Bool.noConfusion h1

theorem cleared_not_hasOffset (b : BlockInfo) :
    ({ b with m_offset := -1 } : BlockInfo).hasOffset = false := by
  simp [BlockInfo.hasOffset]

theorem clearOffsetFromList_clears (bs : List BlockInfo) (p : Nat) (j : Nat) :
    blockAt (clearOffsetFromList bs p).1 j = blockAt bs j
      ∨ (blockAt (clearOffsetFromList bs p).1 j).hasOffset = false := by
  unfold clearOffsetFromList
  by_cases hp : p ≤ bs.length
  · obtain ⟨m, h1, h2, h3, h4⟩ :=
      exists_first_index (fun t => !(blockAt bs t).hasOffset) p bs.length hp
    have key := (clearOffsetLoop_blockAt _ p bs m (le_refl _) h1 h2
      (by intro t ht1 ht2; simpa using h3 t ht1 ht2)
      (by rcases h4 with h | h
          · exact Or.inl h
          · right; simpa using h)).1 j
    rw [key]
    split
    · right; exact cleared_not_hasOffset _
    · left; rfl
  · have : bs.length - p = 0 := by omega
    rw [this]
    left; rfl

theorem clearBlockLayoutList_clears (bs : List BlockInfo) (num : Nat) (j : Nat) :
    blockAt (clearBlockLayoutList bs num).1 j = blockAt bs j
      ∨ (blockAt (clearBlockLayoutList bs num).1 j).hasOffset = false := by
  unfold clearBlockLayoutList
  split
  · rcases clearOffsetFromList_clears (bs.set num (blockAt bs num).reset) (num + 1) j with h | h
    · rw [h, blockAt_set]
      split
      · right; exact fresh_not_hasOffset
      · left; rfl
    · right; exact h
  · left; rfl

theorem updateBlockCount_clears (s : Layout) (doc : Document) (c : Nat) (st : Int) (j : Nat) :
    blockAt (updateBlockCount s doc c st).m_blocks j = blockAt s.m_blocks j
      ∨ (blockAt (updateBlockCount s doc c st).m_blocks j).hasOffset = false := by
  unfold updateBlockCount
  split
  · simp only []
    have hres : blockAt (resize s.m_blocks c) j = blockAt s.m_blocks j
        ∨ (blockAt (resize s.m_blocks c) j).hasOffset = false := by
      rw [blockAt_resize]
      split
      · left; rfl
      · right; exact fresh_not_hasOffset
    split
    · rw [updateBlockCountLoop_blockAt doc _ _ _ (le_refl _) j]
      split
      · right; exact prepopulated_not_hasOffset _
      · exact hres
    · exact hres
  · left; rfl

theorem finishBlockLayoutList_contiguous (bs : List BlockInfo) (num : Nat) (br : QRectF)
    (hnum : num < bs.length)
    (hc : ∀ i, (blockAt bs i).hasOffset = true → (blockAt bs (i + 1)).hasOffset = true →
      (blockAt bs i).bottom = (blockAt bs (i + 1)).top) :
    ∀ i, (blockAt (finishBlockLayoutList bs num br) i).hasOffset = true →
      (blockAt (finishBlockLayoutList bs num br) (i + 1)).hasOffset = true →
      (blockAt (finishBlockLayoutList bs num br) i).bottom
        = (blockAt (finishBlockLayoutList bs num br) (i + 1)).top := by
  obtain ⟨m, h1, h2, h3, h4⟩ :=
    exists_first_index (fun t => (blockAt bs t).m_rect.isNull) (num + 1) bs.length hnum
  have key := finishBlockLayoutList_blockAt bs num m br hnum h1 h2
    (fun t ht1 ht2 => h3 t ht1 ht2) h4
  intro i hi hi1
  rw [key i] at hi ⊢
  rw [key (i + 1)] at hi1 ⊢
  by_cases e1 : i + 1 = num
  · -- the pair (num - 1, num)
    have hin : ¬ i = num := by omega
    have hi' : ¬ ((BlockInfo.mk (finishOffset bs num) br).hasOffset = true ∧ num < i ∧ i < m) := by
      omega
    rw [if_neg hin, if_neg hi'] at hi ⊢
    rw [if_pos e1] at hi1 ⊢
    have hn0 : ¬ num = 0 := by omega
    have hpre : num - 1 = i := by omega
    show _ = finishOffset bs num
    unfold finishOffset
    rw [if_neg hn0, hpre, if_pos hi]
  · rw [if_neg e1] at hi1 ⊢
    by_cases e2 : i = num
    · -- the pair (num, num + 1)
      rw [if_pos e2] at hi ⊢
      by_cases hr : num < i + 1 ∧ i + 1 < m
      · rw [if_pos ⟨hi, hr⟩]
        subst e2
        simp [BlockInfo.bottom, BlockInfo.top]
      · rw [if_neg (by tauto)] at hi1
        -- block num + 1 is positioned, so its rectangle is not null: it is below m
        exfalso
        have hlt := hasOffset_lt_length hi1
        have hm' : m = i + 1 := by omega
        rcases h4 with h | h
        · omega
        · rw [hm'] at h
          simp [BlockInfo.hasOffset, h] at hi1
    · rw [if_neg e2] at hi ⊢
      by_cases hp : (BlockInfo.mk (finishOffset bs num) br).hasOffset = true
      · by_cases hr : num < i ∧ i < m
        · rw [if_pos ⟨hp, hr⟩] at hi ⊢
          by_cases hr1 : i + 1 < m
          · rw [if_pos ⟨hp, by omega, hr1⟩]
            simp only [BlockInfo.top, BlockInfo.bottom]
            rw [Finset.sum_Ico_succ_top (by omega : num + 1 ≤ i)]
            ring
          · rw [if_neg (by tauto)] at hi1
            exfalso
            have hlt := hasOffset_lt_length hi1
            have hm' : m = i + 1 := by omega
            rcases h4 with h | h
            · omega
            · rw [hm'] at h
              simp [BlockInfo.hasOffset, h] at hi1
        · rw [if_neg (by tauto)] at hi ⊢
          rw [if_neg (by omega)] at hi1 ⊢
          exact hc i hi hi1
      · rw [if_neg (by tauto)] at hi ⊢
        rw [if_neg (by tauto)] at hi1 ⊢
        exact hc i hi hi1

/-- Contiguity holds in every reachable cache state, whatever the rectangles are. -/
theorem reachable_contiguous (ok : QRectF → Prop) (s : Layout) (h : Reachable ok s) :
    Contiguous s := by
  induction h with
  | init margin =>
    intro i hi _
    have := hasOffset_lt_length hi
    simp [Layout.init] at this
  | updateBlockCount s doc st _ ih =>
    exact contiguous_of_clears (updateBlockCount_clears s doc _ st) ih
  | clearBlockLayout s num _ ih =>
    exact contiguous_of_clears (clearBlockLayoutList_clears s.m_blocks num) ih
  | finishBlockLayout s num br _ hnum _ ih =>
    exact finishBlockLayoutList_contiguous s.m_blocks num br hnum ih
  | frame s s' _ hb _ ih =>
    intro i hi hi1
    unfold Positioned at hi hi1
    rw [hb] at hi hi1 ⊢
    exact ih i hi hi1

/-- **C1.** Contiguity is an invariant of the BlockInfo cache: in every cache state
reachable from the empty cache by `updateBlockCount`, `clearBlockLayout` (with the
`clearOffsetFrom` it calls) and `finishBlockLayout` with a non-null rectangle of
non-negative height (with the `fillOffsetFrom` it calls), whenever blocks `i` and `i + 1`
are both positioned, `m_offset(i) + m_rect(i).height = m_offset(i + 1)`. -/
theorem contiguity_invariant (s : Layout) (h : Reachable NonNullNonnegHeight s) (i : Nat)
    (hi : (blockAt s.m_blocks i).hasOffset = true)
    (hi1 : (blockAt s.m_blocks (i + 1)).hasOffset = true) :
    (blockAt s.m_blocks i).m_offset + (blockAt s.m_blocks i).m_rect.height
      = (blockAt s.m_blocks (i + 1)).m_offset :=
  reachable_contiguous NonNullNonnegHeight s h i hi hi1

/-! ## The positioned blocks stay closed downwards -/

theorem clearBlockLayoutList_length (bs : List BlockInfo) (num : Nat) :
    (clearBlockLayoutList bs num).1.length = bs.length := by
  unfold clearBlockLayoutList clearOffsetFromList
  split
  · rw [clearOffsetLoop_length]; simp
  · rfl

/-- After `clearBlockLayout(num)` on a down-closed cache, the positioned blocks are the
blocks below `num` that were positioned; and the assertion inside `clearOffsetFrom`, when
it is reached, is evaluated on the final vector. -/
theorem clearBlockLayoutList_downClosed (bs : List BlockInfo) (num : Nat)
    (hd : DownClosed bs) :
    (∀ j, (blockAt (clearBlockLayoutList bs num).1 j).hasOffset = true →
        (j < num ∨ bs.length ≤ num) ∧ blockAt (clearBlockLayoutList bs num).1 j = blockAt bs j)
    ∧ (∀ j, j < num → blockAt (clearBlockLayoutList bs num).1 j = blockAt bs j)
    ∧ (∀ v, (clearBlockLayoutList bs num).2 = some v →
        v = validateBlocksList (clearBlockLayoutList bs num).1) := by
  unfold clearBlockLayoutList
  by_cases hnum : num < bs.length
  · rw [if_pos hnum]
    unfold clearOffsetFromList
    have hlen : (bs.set num (blockAt bs num).reset).length = bs.length := by simp
    obtain ⟨m, h1, h2, h3, h4⟩ :=
      exists_first_index (fun t => !(blockAt (bs.set num (blockAt bs num).reset) t).hasOffset)
        (num + 1) (bs.set num (blockAt bs num).reset).length (by rw [hlen]; exact hnum)
    obtain ⟨key, kassert⟩ := clearOffsetLoop_blockAt _ (num + 1)
      (bs.set num (blockAt bs num).reset) m (le_refl _) h1 h2
      (by intro t ht1 ht2; simpa using h3 t ht1 ht2)
      (by rcases h4 with h | h
          · exact Or.inl h
          · right; simpa using h)
    refine ⟨?_, ?_, ?_⟩
    · intro j hj
      rw [key j] at hj ⊢
      by_cases hr : num + 1 ≤ j ∧ j < m
      · rw [if_pos hr, cleared_not_hasOffset] at hj
        exact Bool.noConfusion hj
      · rw [if_neg hr] at hj ⊢
        rw [blockAt_set] at hj ⊢
        by_cases hjn : j = num ∧ num < bs.length
        · rw [if_pos hjn] at hj
          exact absurd hj (by simp [BlockInfo.reset, fresh_not_hasOffset])
        · rw [if_neg hjn] at hj ⊢
          refine ⟨?_, rfl⟩
          left
          by_contra hge
          -- j ≥ m, and block m (inside the vector) is not positioned
          have hjl := hasOffset_lt_length hj
          have hmj : m ≤ j := by omega
          rcases h4 with h | h
          · rw [hlen] at h; omega
          · have hm_ne : m ≠ num := by omega
            simp only [Bool.not_eq_true', blockAt_set_ne _ hm_ne] at h
            rcases Nat.eq_or_lt_of_le hmj with e | e
            · rw [e, hj] at h; exact Bool.noConfusion h
            · have := hd m j e hj
              rw [h] at this; exact Bool.noConfusion this
    · intro j hj
      rw [key j, if_neg (by omega), blockAt_set_ne _ (by omega)]
    · intro v hv
      rw [kassert] at hv
      split at hv
      · exact (Option.some.inj hv).symm
      · exact Option.noConfusion hv
  · rw [if_neg hnum]
    refine ⟨fun j _ => ⟨Or.inr (by omega), rfl⟩, fun j _ => rfl, fun v hv => ?_⟩
    exact Option.noConfusion hv

theorem clearBlockLayoutList_validate (bs : List BlockInfo) (num : Nat)
    (hv : validateBlocksList bs = true) :
    validateBlocksList (clearBlockLayoutList bs num).1 = true := by
  rw [validateBlocksList_iff] at hv ⊢
  obtain ⟨h1, h2, _⟩ := clearBlockLayoutList_downClosed bs num hv
  intro i j hij hj
  obtain ⟨hlt, he⟩ := h1 j hj
  rw [he] at hj
  rcases hlt with hlt | hlt
  · rw [h2 i (by omega)]
    exact hv i j hij hj
  · have := hasOffset_lt_length hj
    have hi := hv i j hij hj
    have hres : (clearBlockLayoutList bs num).1 = bs := by
      unfold clearBlockLayoutList
      rw [if_neg (by omega)]
    rw [hres]
    exact hi

theorem updateBlockCount_validate (s : Layout) (doc : Document) (st : Int)
    (hv : validateBlocks s = true) :
    validateBlocks (updateBlockCount s doc doc.blockCount st) = true := by
  unfold validateBlocks at hv ⊢
  unfold updateBlockCount
  split
  · simp only []
    rw [validateBlocksList_iff] at hv ⊢
    have hres : DownClosed (resize s.m_blocks doc.blockCount) := by
      intro i j hij hj
      rw [blockAt_resize] at hj ⊢
      by_cases hjc : j < doc.blockCount
      · rw [if_pos hjc] at hj
        rw [if_pos (by omega)]
        exact hv i j hij hj
      · rw [if_neg hjc, fresh_not_hasOffset] at hj
        exact Bool.noConfusion hj
    split
    · rename_i hst
      intro i j hij hj
      rw [updateBlockCountLoop_blockAt doc _ _ _ (le_refl _)] at hj ⊢
      by_cases hc : st.toNat ≤ j ∧ j < doc.blockCount ∧ j < (resize s.m_blocks doc.blockCount).length
      · rw [if_pos hc, prepopulated_not_hasOffset] at hj
        exact Bool.noConfusion hj
      · rw [if_neg hc] at hj
        have hjl := hasOffset_lt_length hj
        rw [resize_length] at hjl hc
        rw [if_neg (by rw [resize_length]; omega)]
        exact hres i j hij hj
    · exact hres
  · exact hv

theorem hasOffset_iff (b : BlockInfo) :
    b.hasOffset = true ↔ -1 < b.m_offset ∧ b.m_rect.isNull = false := by
  simp [BlockInfo.hasOffset]

theorem finishBlockLayoutList_validate (bs : List BlockInfo) (num : Nat) (br : QRectF)
    (hv : validateBlocksList bs = true) (hnum : num < bs.length)
    (hbr : br.isNull = false) (hbrh : num + 1 < bs.length → 0 ≤ br.height)
    (hh : ∀ j, j + 1 < bs.length → 0 ≤ (blockAt bs j).m_rect.height) :
    validateBlocksList (finishBlockLayoutList bs num br) = true := by
  rw [validateBlocksList_iff] at hv ⊢
  obtain ⟨m, h1, h2, h3, h4⟩ :=
    exists_first_index (fun t => (blockAt bs t).m_rect.isNull) (num + 1) bs.length hnum
  have key := finishBlockLayoutList_blockAt bs num m br hnum h1 h2
    (fun t ht1 ht2 => h3 t ht1 ht2) h4
  -- nothing from m on was positioned
  have hbeyond : ∀ j, m ≤ j → (blockAt bs j).hasOffset = false := by
    intro j hmj
    apply bool_eq_false_of_ne_true
    intro hj
    have hjl := hasOffset_lt_length hj
    rcases h4 with h | h
    · omega
    · have hmn : (blockAt bs m).hasOffset = false := by
        simp [BlockInfo.hasOffset, show (blockAt bs m).m_rect.isNull = true from h]
      rcases Nat.eq_or_lt_of_le hmj with e | e
      · rw [e, hj] at hmn; exact Bool.noConfusion hmn
      · have := hv m j e hj
        rw [hmn] at this; exact Bool.noConfusion this
  by_cases hp : (BlockInfo.mk (finishOffset bs num) br).hasOffset = true
  · -- the new entry is positioned: afterwards exactly the blocks below m are
    have hoff : -1 < finishOffset bs num := ((hasOffset_iff _).1 hp).1
    have hbelow : ∀ i, i < num → (blockAt bs i).hasOffset = true := by
      intro i hi
      have hn0 : ¬ num = 0 := by omega
      have hpre : (blockAt bs (num - 1)).hasOffset = true := by
        apply by_contra
        intro hnp
        have : finishOffset bs num = -1 := by
          unfold finishOffset
          rw [if_neg hn0, if_neg hnp]
        rw [this] at hoff
        exact absurd hoff (by norm_num)
      rcases Nat.eq_or_lt_of_le (Nat.le_sub_one_of_lt hi) with e | e
      · rw [e]; exact hpre
      · exact hv i (num - 1) e hpre
    have hall : ∀ i, i < m → (blockAt (finishBlockLayoutList bs num br) i).hasOffset = true := by
      intro i hi
      rw [key i]
      by_cases e1 : i = num
      · rw [if_pos e1]; exact hp
      · rw [if_neg e1]
        by_cases e2 : num < i
        · rw [if_pos ⟨hp, e2, hi⟩]
          rw [hasOffset_iff]
          refine ⟨?_, h3 i (by omega) hi⟩
          have hs : 0 ≤ ∑ t ∈ Finset.Ico (num + 1) i, (blockAt bs t).m_rect.height :=
            Finset.sum_nonneg (fun t ht => hh t (by
              have := (Finset.mem_Ico.1 ht).2
              omega))
          have hb0 := hbrh (by omega)
          show -1 < finishOffset bs num + br.height + _
          linarith
        · rw [if_neg (by tauto)]
          exact hbelow i (by omega)
    intro i j hij hj
    rw [key j] at hj
    by_cases hjm : j < m
    · exact hall i (by omega)
    · rw [if_neg (by omega), if_neg (by tauto), hbeyond j (by omega)] at hj
      exact Bool.noConfusion hj
  · -- the new entry is not positioned: then nothing from num on was positioned
    have hfrom : ∀ j, num ≤ j → (blockAt bs j).hasOffset = false := by
      intro j hj
      apply bool_eq_false_of_ne_true
      intro hjp
      apply hp
      rw [hasOffset_iff]
      refine ⟨?_, hbr⟩
      show -1 < finishOffset bs num
      unfold finishOffset
      by_cases hn0 : num = 0
      · rw [if_pos hn0]; norm_num
      · rw [if_neg hn0]
        have hpre : (blockAt bs (num - 1)).hasOffset = true := hv (num - 1) j (by omega) hjp
        rw [if_pos hpre]
        have := ((hasOffset_iff _).1 hpre).1
        have := hh (num - 1) (by omega)
        show -1 < (blockAt bs (num - 1)).m_offset + (blockAt bs (num - 1)).m_rect.height
        linarith
    intro i j hij hj
    rw [key j] at hj
    rw [key i]
    by_cases e1 : j = num
    · rw [if_pos e1] at hj; exact absurd hj hp
    · rw [if_neg e1, if_neg (by tauto)] at hj
      have hjn : j < num := by
        by_contra hge
        rw [hfrom j (by omega)] at hj
        exact Bool.noConfusion hj
      rw [if_neg (by omega), if_neg (by tauto)]
      exact hv i j hij hj

theorem finishUpTo_length (rects : Nat → QRectF) (n : Nat) (s : Layout) :
    (finishUpTo rects n s).m_blocks.length = s.m_blocks.length := by
  induction n with
  | zero => rfl
  | succ n ih =>
    show (finishBlockLayoutList (finishUpTo rects n s).m_blocks n (rects n)).length = _
    rw [finishBlockLayoutList_length, ih]

theorem reachable_finishUpTo (ok : QRectF → Prop) (rects : Nat → QRectF) (s : Layout)
    (hs : Reachable ok s) :
    ∀ n, n ≤ s.m_blocks.length → (∀ i, i < n → ok (rects i)) →
      Reachable ok (finishUpTo rects n s) := by
  intro n
  induction n with
  | zero => intro _ _; exact hs
  | succ n ih =>
    intro hn hok
    exact Reachable.finishBlockLayout _ n (rects n)
      (ih (by omega) (fun i hi => hok i (by omega)))
      (by rw [finishUpTo_length]; omega) (hok n (by omega))

theorem reachable_freshLayout (ok : QRectF → Prop) (n : Nat) : Reachable ok (freshLayout n) :=
  Reachable.updateBlockCount _ _ _ (Reachable.init 0)

theorem reachable_threeBlocks : Reachable NonNullNonnegHeight threeBlocks :=
  reachable_finishUpTo _ _ _ (reachable_freshLayout _ 3) 3 (by decide!)
    (fun _ _ => ⟨by decide!, by decide!⟩)

/-- Witness of C1 on the three-block example. -/
theorem contiguity_invariant_witness :
    Reachable NonNullNonnegHeight threeBlocks
      ∧ (blockAt threeBlocks.m_blocks 1).hasOffset = true
      ∧ (blockAt threeBlocks.m_blocks 2).hasOffset = true
      ∧ (blockAt threeBlocks.m_blocks 1).m_offset + (blockAt threeBlocks.m_blocks 1).m_rect.height
          = (blockAt threeBlocks.m_blocks 2).m_offset :=
  ⟨reachable_threeBlocks, by decide!, by decide!,
    contiguity_invariant threeBlocks reachable_threeBlocks 1 (by decide!) (by decide!)⟩

/-- Witness of C9: in the three-block example with the offsets behind block 0 cleared,
`fillOffsetFrom(0)` puts block 2 at `bottom(0) + height(1)`. -/
theorem fillOffsetFrom_offsets_witness :
    Positioned (clearOffsetFrom threeBlocks 1) 0
      ∧ (blockAt (fillOffsetFrom (clearOffsetFrom threeBlocks 1) 0).m_blocks 2).m_offset
          = (blockAt (clearOffsetFrom threeBlocks 1).m_blocks 0).bottom
            + ∑ i ∈ Finset.Ioo 0 2,
                (blockAt (clearOffsetFrom threeBlocks 1).m_blocks i).m_rect.height :=
  ⟨by unfold Positioned; decide!,
    (fillOffsetFrom_offsets (clearOffsetFrom threeBlocks 1) 0 3 (by unfold Positioned; decide!)
      (by decide) (by decide!)
      (by intro t h1 h2; interval_cases t <;> decide!) (Or.inl (by decide!))).1 2
      (by decide) (by decide)⟩

/-- **C2.** The positioned blocks always form a lower segment: if `validateBlocks()`
returns true before `clearBlockLayout(k)`, before `finishBlockLayout(k)` with a non-null
rectangle, or before `updateBlockCount(count, start)`, then it returns true after that
operation; and it returns true at the point inside `clearOffsetFrom` where
`Q_ASSERT(validateBlocks())` is evaluated.  The rectangles are the ones
`blockRectFromTextLayout` builds: the document margin, which may be negative, is added
to the height of the last block only (lines 526-529) and the lines of a block stack
downwards from 0 (lines 402-431), so the rectangle of every block that has a successor
has a non-negative height (`blockRectFromTextLayout_height`); the height of the last
block is free.  `count` is the block
count of the document, as at the call sites (`newBlockCount = doc->blockCount()`) and as
`Q_ASSERT(document()->blockCount() == m_blocks.size())` requires of the cache. -/
theorem validateBlocks_preserved (s : Layout) (hv : validateBlocks s = true) :
    (∀ k, validateBlocks (clearBlockLayout s k) = true)
    ∧ (∀ k v, clearBlockLayoutAssert s k = some v → v = true)
    ∧ (∀ (doc : Document) (start : Int),
        validateBlocks (updateBlockCount s doc doc.blockCount start) = true)
    ∧ (∀ (k : Nat) (br : QRectF), k < s.m_blocks.length → br.isNull = false →
        (k + 1 < s.m_blocks.length → 0 ≤ br.height) →
        (∀ j, j + 1 < s.m_blocks.length → 0 ≤ (blockAt s.m_blocks j).m_rect.height) →
        validateBlocks (finishBlockLayout s k br) = true) := by
  refine ⟨fun k => clearBlockLayoutList_validate _ k hv, ?_,
    fun doc start => updateBlockCount_validate s doc start hv,
    fun k br hk hbr hbrh hh => finishBlockLayoutList_validate _ k br hv hk hbr hbrh hh⟩
  intro k v hkv
  have hd : DownClosed s.m_blocks := (validateBlocksList_iff _).1 hv
  rw [(clearBlockLayoutList_downClosed s.m_blocks k hd).2.2 v hkv]
  exact clearBlockLayoutList_validate _ k hv

/-- Witness of C2: clearing block 0 of the three-block example with block 1 already
cleared reaches the assertion, which holds; and `finishBlockLayout` for the last block
of the three-block example with a rectangle of height -5 (a negative document margin)
keeps `validateBlocks()` true. -/
theorem validateBlocks_preserved_witness :
    validateBlocks (clearBlockLayout threeBlocks 1) = true
      ∧ clearBlockLayoutAssert (clearBlockLayout threeBlocks 1) 0 = some true
      ∧ validateBlocks (clearBlockLayout (clearBlockLayout threeBlocks 1) 0) = true
      ∧ validateBlocks (finishBlockLayout threeBlocks 2 ⟨0, 0, 1, -5⟩) = true :=
  ⟨by decide!, by decide!,
    (validateBlocks_preserved (clearBlockLayout threeBlocks 1) (by decide!)).1 0,
    (validateBlocks_preserved threeBlocks (by decide!)).2.2.2 2 ⟨0, 0, 1, -5⟩
      (by decide!) (by decide!)
      (fun h => absurd h (by decide!))
      (fun j hj => by
        have hl : threeBlocks.m_blocks.length = 3 := by decide!
        rw [hl] at hj
        have hj2 : j < 2 := by omega
        interval_cases j <;> decide!)⟩

/-! ## updateDocumentSize -/

theorem lastIndex_toNat (n : Nat) : (previousValidBlockNumber (n : Int)).toNat = n - 1 := by
  rw [previousValidBlockNumber_natCast]; omega

theorem updateDocumentSize_blocks (bw : ℚ → ℚ) (s : Layout) :
    (updateDocumentSize bw s).m_blocks = s.m_blocks := by
  unfold updateDocumentSize
  simp only []
  split
  · split <;> rfl
  · rfl

theorem updateDocumentSize_blockCount (bw : ℚ → ℚ) (s : Layout) :
    (updateDocumentSize bw s).m_blockCount = s.m_blockCount := by
  unfold updateDocumentSize
  simp only []
  split
  · split <;> rfl
  · rfl

/-- When the last block is positioned, `updateDocumentSize` stores its bottom as the
height, and the result of the width scan as the width and the widest block. -/
theorem updateDocumentSize_size (bw : ℚ → ℚ) (s : Layout)
    (hlast : (blockAt s.m_blocks (s.m_blocks.length - 1)).hasOffset = true) :
    (updateDocumentSize bw s).m_height = (blockAt s.m_blocks (s.m_blocks.length - 1)).bottom
    ∧ (updateDocumentSize bw s).m_width
        = bw (widthScan s.m_blocks 0 (0, s.m_maximumWidthBlockNumber)).1
    ∧ (updateDocumentSize bw s).m_maximumWidthBlockNumber
        = (widthScan s.m_blocks 0 (0, s.m_maximumWidthBlockNumber)).2 := by
  unfold updateDocumentSize
  simp only [lastIndex_toNat, hlast, if_true]
  split <;> exact ⟨rfl, rfl, rfl⟩

/-! ## Laying out a document from scratch -/

theorem blockRectFromTextLayout_origin (m_margin : ℚ) (tl : TextLayout) (nextValid : Bool) :
    (blockRectFromTextLayout m_margin tl nextValid).x = 0
      ∧ (blockRectFromTextLayout m_margin tl nextValid).y = 0 := by
  unfold blockRectFromTextLayout
  split
  · exact ⟨rfl, rfl⟩
  · simp only []
    split <;> split <;> simp [QRectF.adjust, QRectF.ofCorners]

/-- For a block that has a successor `blockRectFromTextLayout` returns the height of the
bounding rectangle of the lines, without the document margin: a non-negative height when
the lines stack downwards from 0. -/
theorem blockRectFromTextLayout_height (m_margin : ℚ) (tl : TextLayout)
    (h : 0 ≤ tl.boundingBottom) :
    0 ≤ (blockRectFromTextLayout m_margin tl true).height := by
  unfold blockRectFromTextLayout
  split
  · exact le_refl _
  · simp only [Bool.not_true, Bool.false_eq_true, if_false]
    split <;> simpa [QRectF.adjust, QRectF.ofCorners, QRectF.height] using h

/-- The cache after `finishBlockLayout` has run on the blocks `0 .. i - 1` of a freshly
reset cache: these blocks sit at the partial sums of the heights, the others are fresh. -/
theorem finishUpTo_fresh (rects : Nat → QRectF) (s0 : Layout) (n : Nat)
    (hfresh : s0.m_blocks = List.replicate n BlockInfo.fresh)
    (hnn : ∀ i, i < n → (rects i).isNull = false)
    (hsum : ∀ i, i < n → -1 < ∑ t ∈ Finset.range i, (rects t).height) :
    ∀ i, i ≤ n → ∀ j, blockAt (finishUpTo rects i s0).m_blocks j =
      if j < i then ⟨∑ t ∈ Finset.range j, (rects t).height, rects j⟩ else BlockInfo.fresh := by
  intro i
  induction i with
  | zero =>
    intro _ j
    rw [if_neg (by omega)]
    show blockAt s0.m_blocks j = _
    rw [hfresh]
    unfold blockAt
    simp only [List.getD_eq_getElem?_getD, List.getElem?_replicate]
    split <;> rfl
  | succ i ih =>
    intro hi j
    have ih' := ih (by omega)
    have hlen : (finishUpTo rects i s0).m_blocks.length = n := by
      rw [finishUpTo_length, hfresh, List.length_replicate]
    -- the offset the new entry receives
    have hoff : finishOffset (finishUpTo rects i s0).m_blocks i
        = ∑ t ∈ Finset.range i, (rects t).height := by
      unfold finishOffset
      by_cases h0 : i = 0
      · subst h0; simp
      · have hb : blockAt (finishUpTo rects i s0).m_blocks (i - 1)
            = ⟨∑ t ∈ Finset.range (i - 1), (rects t).height, rects (i - 1)⟩ := by
          rw [ih' (i - 1), if_pos (by omega)]
        rw [if_neg h0, hb]
        have hpos : (BlockInfo.mk (∑ t ∈ Finset.range (i - 1), (rects t).height)
            (rects (i - 1))).hasOffset = true := by
          rw [hasOffset_iff]
          exact ⟨hsum (i - 1) (by omega), hnn (i - 1) (by omega)⟩
        rw [if_pos hpos]
        show ∑ t ∈ Finset.range (i - 1), (rects t).height + (rects (i - 1)).height = _
        have hs := Finset.sum_range_succ (fun t => (rects t).height) (i - 1)
        rw [Nat.sub_add_cancel (by omega : 1 ≤ i)] at hs
        exact hs.symm
    show blockAt (finishBlockLayoutList (finishUpTo rects i s0).m_blocks i (rects i)) j = _
    rw [finishBlockLayoutList_blockAt _ i (i + 1) (rects i) (by rw [hlen]; omega) (by omega)
      (by rw [hlen]; omega)
      (by intro t h1 h2; omega)
      (by
        by_cases hin : i + 1 = n
        · left; omega
        · right; rw [ih' (i + 1), if_neg (by omega)]; rfl)]
    rw [hoff]
    by_cases e1 : j = i
    · subst e1
      rw [if_pos rfl, if_pos (by omega)]
    · rw [if_neg e1, if_neg (by omega), ih' j]
      by_cases e2 : j < i
      · rw [if_pos e2, if_pos (by omega)]
      · rw [if_neg e2, if_neg (by omega)]

/-- Laying out a document from scratch stacks the blocks at the partial sums of
their heights: for a cache of `n >= 1` freshly reset entries and rectangles
`r_0 .. r_(n-1)` given by `blockRectFromTextLayout`, all non-null and of non-negative
height, running `finishBlockLayout` on the blocks `0, 1, ..., n - 1` in order and then
`updateDocumentSize` gives `m_offset(i) = sum of height(r_j) for j < i`,
`documentSize().height = sum of all heights`, and `blockBoundingRect(i)` has top
`m_offset(i)`; it has the width of `r_i` when that width is a double, and the height of
`r_i` when that height and its sum with `m_offset(i)` are doubles, so that the addition
and the subtraction of `adjusted` are exact. -/
theorem layout_from_scratch (bw : ℚ → ℚ) (s0 : Layout) (n : Nat) (tls : Nat → TextLayout)
    (hn : 1 ≤ n) (hfresh : s0.m_blocks = List.replicate n BlockInfo.fresh)
    (hnn : ∀ i, i < n → (documentRects s0.m_margin n tls i).isNull = false)
    (hh : ∀ i, i < n → 0 ≤ (documentRects s0.m_margin n tls i).height) :
    (∀ i, i < n →
      (blockAt (updateDocumentSize bw
          (finishUpTo (documentRects s0.m_margin n tls) n s0)).m_blocks i).m_offset
        = ∑ j ∈ Finset.range i, (documentRects s0.m_margin n tls j).height
      ∧ (blockBoundingRect (updateDocumentSize bw
          (finishUpTo (documentRects s0.m_margin n tls) n s0)) i).top
        = (blockAt (updateDocumentSize bw
          (finishUpTo (documentRects s0.m_margin n tls) n s0)).m_blocks i).m_offset
      ∧ (roundToDouble (documentRects s0.m_margin n tls i).width
            = (documentRects s0.m_margin n tls i).width →
          (blockBoundingRect (updateDocumentSize bw
            (finishUpTo (documentRects s0.m_margin n tls) n s0)) i).width
          = (documentRects s0.m_margin n tls i).width)
      ∧ (roundToDouble (documentRects s0.m_margin n tls i).height
            = (documentRects s0.m_margin n tls i).height →
          roundToDouble ((documentRects s0.m_margin n tls i).height
              + ∑ j ∈ Finset.range i, (documentRects s0.m_margin n tls j).height)
            = (documentRects s0.m_margin n tls i).height
              + ∑ j ∈ Finset.range i, (documentRects s0.m_margin n tls j).height →
          (blockBoundingRect (updateDocumentSize bw
            (finishUpTo (documentRects s0.m_margin n tls) n s0)) i).height
          = (documentRects s0.m_margin n tls i).height))
    ∧ (documentSize (updateDocumentSize bw
          (finishUpTo (documentRects s0.m_margin n tls) n s0))).height
        = ∑ j ∈ Finset.range n, (documentRects s0.m_margin n tls j).height := by
  have hsum : ∀ i, i < n → -1 < ∑ t ∈ Finset.range i, (documentRects s0.m_margin n tls t).height := by
    intro i hi
    have : 0 ≤ ∑ t ∈ Finset.range i, (documentRects s0.m_margin n tls t).height :=
      Finset.sum_nonneg (fun t ht => hh t (by simp at ht; omega))
    linarith
  have key := finishUpTo_fresh (documentRects s0.m_margin n tls) s0 n hfresh hnn hsum n (le_refl _)
  have hlen : (finishUpTo (documentRects s0.m_margin n tls) n s0).m_blocks.length = n := by
    rw [finishUpTo_length, hfresh, List.length_replicate]
  constructor
  · intro i hi
    unfold blockBoundingRect
    rw [updateDocumentSize_blocks, key i, if_pos hi]
    refine ⟨rfl, ?_, ?_, ?_⟩
    · show (documentRects s0.m_margin n tls i).y + _ = _
      have := (blockRectFromTextLayout_origin s0.m_margin (tls i) (decide (i + 1 < n))).2
      unfold documentRects
      rw [this, zero_add]
    · intro hw
      show roundToDouble (roundToDouble ((documentRects s0.m_margin n tls i).width + 0) - 0) = _
      rw [add_zero, sub_zero, hw, hw]
    · intro hd hs
      show roundToDouble (roundToDouble ((documentRects s0.m_margin n tls i).height
        + ∑ j ∈ Finset.range i, (documentRects s0.m_margin n tls j).height)
        - ∑ j ∈ Finset.range i, (documentRects s0.m_margin n tls j).height) = _
      rw [hs, add_sub_cancel_right, hd]
  · have hlastpos : (blockAt (finishUpTo (documentRects s0.m_margin n tls) n s0).m_blocks
        ((finishUpTo (documentRects s0.m_margin n tls) n s0).m_blocks.length - 1)).hasOffset
        = true := by
      rw [hlen, key (n - 1), if_pos (by omega), hasOffset_iff]
      exact ⟨hsum (n - 1) (by omega), hnn (n - 1) (by omega)⟩
    show (updateDocumentSize bw _).m_height = _
    rw [(updateDocumentSize_size bw _ hlastpos).1, hlen, key (n - 1), if_pos (by omega)]
    show ∑ t ∈ Finset.range (n - 1), (documentRects s0.m_margin n tls t).height
      + (documentRects s0.m_margin n tls (n - 1)).height = _
    have hs := Finset.sum_range_succ (fun t => (documentRects s0.m_margin n tls t).height) (n - 1)
    rw [Nat.sub_add_cancel hn] at hs
    exact hs.symm

/-- End-to-end scenario A: three blocks of height 20 and margin 0 give a
document of height 60 with block 1 at top 20. -/
theorem layout_from_scratch_scenario :
    (documentSize (updateDocumentSize (fun w => w + 1)
        (finishUpTo (documentRects 0 3 oneLine20) 3 (freshLayout 3)))).height = 60
    ∧ (blockBoundingRect (updateDocumentSize (fun w => w + 1)
        (finishUpTo (documentRects 0 3 oneLine20) 3 (freshLayout 3))) 1).top = 20 := by
  have h := layout_from_scratch (fun w => w + 1) (freshLayout 3) 3 oneLine20 (by decide)
    (by decide!) (by intro i hi; interval_cases i <;> decide!)
    (by intro i hi; interval_cases i <;> decide!)
  refine ⟨?_, ?_⟩
  · have h2 := h.2
    rw [show (freshLayout 3).m_margin = 0 from rfl] at h2
    rw [h2]
    decide!
  · have h1 := h.1 1 (by decide)
    rw [show (freshLayout 3).m_margin = 0 from rfl] at h1
    rw [h1.2.1, h1.1]
    decide!

theorem truncToInt_intCast (z : Int) (h1 : intMin ≤ z) (h2 : z ≤ intMax) :
    truncToInt (z : ℚ) = z := by
  unfold truncToInt
  have ht : (if (0 : ℚ) ≤ (z : ℚ) then ⌊(z : ℚ)⌋ else ⌈(z : ℚ)⌉) = z := by
    split
    · exact Int.floor_intCast z
    · exact Int.ceil_intCast z
  simp only [ht]
  rw [if_pos ⟨h1, h2⟩]

theorem truncToInt_intCast_out (z : Int) (h : ¬ (intMin ≤ z ∧ z ≤ intMax)) :
    truncToInt (z : ℚ) = intMin := by
  unfold truncToInt
  have ht : (if (0 : ℚ) ≤ (z : ℚ) then ⌊(z : ℚ)⌋ else ⌈(z : ℚ)⌉) = z := by
    split
    · exact Int.floor_intCast z
    · exact Int.ceil_intCast z
  simp only [ht]
  rw [if_neg h]

theorem truncToInt_bounds (q : ℚ) : intMin ≤ truncToInt q ∧ truncToInt q ≤ intMax := by
  unfold truncToInt
  by_cases h : intMin ≤ (if 0 ≤ q then ⌊q⌋ else ⌈q⌉) ∧ (if 0 ≤ q then ⌊q⌋ else ⌈q⌉) ≤ intMax
  · simp only []
    rw [if_pos h]
    exact h
  · simp only []
    rw [if_neg h]
    exact ⟨le_refl _, by unfold intMin intMax; omega⟩

/-- With integer-valued cached width and height in the range of `int`, `updateDocumentSize` emits no
notification when the recomputed size equals the cached one. -/
theorem updateDocumentSize_silent_of_integral (bw : ℚ → ℚ) (s : Layout) (a b : Int)
    (hw : s.m_width = (a : ℚ)) (hh : s.m_height = (b : ℚ))
    (ha : intMin ≤ a ∧ a ≤ intMax) (hb : intMin ≤ b ∧ b ≤ intMax)
    (hw' : (updateDocumentSize bw s).m_width = s.m_width)
    (hh' : (updateDocumentSize bw s).m_height = s.m_height) :
    (updateDocumentSize bw s).documentSizeChanged = s.documentSizeChanged := by
  revert hw' hh'
  unfold updateDocumentSize
  simp only []
  split
  · rw [hw, hh, truncToInt_intCast b hb.1 hb.2, truncToInt_intCast a ha.1 ha.2]
    split
    · rename_i hne
      intro h1 h2
      simp only [] at h1 h2
      rcases hne with hne | hne
      · exact absurd h2.symm hne
      · exact absurd h1.symm hne
    · intro _ _; rfl
  · intro _ _; rfl

/-- **C10 (the code at the failing input).** One block of height 20.5 is positioned and
the cached size (11, 20.5) was computed by `updateDocumentSize`; a second call recomputes
the same width and the same height, and still emits `documentSizeChanged`, because the
old values are kept in `int` variables (20.5 is compared as 20). -/
theorem updateDocumentSize_emits_without_change :
    FullyPositioned halfPixelBlock
    ∧ (updateDocumentSize (fun w => w + 1) halfPixelBlock).m_width = halfPixelBlock.m_width
    ∧ (updateDocumentSize (fun w => w + 1) halfPixelBlock).m_height = halfPixelBlock.m_height
    ∧ halfPixelBlock.m_height = 41 / 2
    ∧ (updateDocumentSize (fun w => w + 1) halfPixelBlock).documentSizeChanged
        = ⟨11, 41 / 2⟩ :: halfPixelBlock.documentSizeChanged := by
  refine ⟨?_, by decide!, by decide!, by decide!, by decide!⟩
  intro i hi
  have : i = 0 := by
    have : halfPixelBlock.m_blocks.length = 1 := by decide!
    omega
  subst this
  unfold Positioned
  decide!

/-! ## A single-block edit of unchanged height -/

/-- In a contiguous run of positioned blocks, offsets are partial sums of heights. -/
theorem offset_eq_sum (bs : List BlockInfo)
    (hpos : ∀ i, i < bs.length → (blockAt bs i).hasOffset = true)
    (hc : ∀ i, (blockAt bs i).hasOffset = true → (blockAt bs (i + 1)).hasOffset = true →
      (blockAt bs i).bottom = (blockAt bs (i + 1)).top)
    (k : Nat) : ∀ j, k ≤ j → j < bs.length →
      (blockAt bs j).m_offset
        = (blockAt bs k).m_offset + ∑ t ∈ Finset.Ico k j, (blockAt bs t).m_rect.height := by
  intro j
  induction j with
  | zero =>
    intro hk _
    have : k = 0 := by omega
    subst this
    simp
  | succ j ih =>
    intro hk hj
    rcases Nat.eq_or_lt_of_le hk with e | e
    · rw [← e]; simp
    · have h1 := ih (by omega) (by omega)
      have h2 := hc j (hpos j (by omega)) (hpos (j + 1) hj)
      rw [Finset.sum_Ico_succ_top (by omega : k ≤ j)]
      show (blockAt bs (j + 1)).top = _
      rw [← h2]
      show (blockAt bs j).m_offset + (blockAt bs j).m_rect.height = _
      rw [h1]
      ring

/-- In every reachable cache state, block 0 is at offset 0 when it is positioned. -/
theorem reachable_first_offset (ok : QRectF → Prop) (s : Layout) (h : Reachable ok s) :
    (blockAt s.m_blocks 0).hasOffset = true → (blockAt s.m_blocks 0).m_offset = 0 := by
  induction h with
  | init margin =>
    intro hi
    have := hasOffset_lt_length hi
    simp [Layout.init] at this
  | updateBlockCount s doc st _ ih =>
    intro hi
    rcases updateBlockCount_clears s doc doc.blockCount st 0 with e | e
    · rw [e] at hi ⊢; exact ih hi
    · rw [e] at hi; exact Bool.noConfusion hi
  | clearBlockLayout s num _ ih =>
    intro hi
    rcases clearBlockLayoutList_clears s.m_blocks num 0 with e | e
    · change (blockAt (clearBlockLayoutList s.m_blocks num).1 0).hasOffset = true at hi
      show (blockAt (clearBlockLayoutList s.m_blocks num).1 0).m_offset = 0
      rw [e] at hi ⊢; exact ih hi
    · change (blockAt (clearBlockLayoutList s.m_blocks num).1 0).hasOffset = true at hi
      rw [e] at hi; exact Bool.noConfusion hi
  | finishBlockLayout s num br _ hnum _ ih =>
    intro hi
    obtain ⟨m, h1, h2, h3, h4⟩ :=
      exists_first_index (fun t => (blockAt s.m_blocks t).m_rect.isNull) (num + 1)
        s.m_blocks.length hnum
    have key := finishBlockLayoutList_blockAt s.m_blocks num m br hnum h1 h2
      (fun t ht1 ht2 => h3 t ht1 ht2) h4 0
    change (blockAt (finishBlockLayoutList s.m_blocks num br) 0).hasOffset = true at hi
    show (blockAt (finishBlockLayoutList s.m_blocks num br) 0).m_offset = 0
    rw [key] at hi ⊢
    by_cases e : 0 = num
    · rw [if_pos e]
      show finishOffset s.m_blocks num = 0
      unfold finishOffset
      rw [if_pos e.symm]
    · rw [if_neg e, if_neg (by omega)] at hi ⊢
      exact ih hi
  | frame s s' _ hb _ ih =>
    intro hi
    rw [hb] at hi ⊢
    exact ih hi

/-- Pointwise description of `clearBlockLayout(k)` on a fully positioned cache: block `k`
is reset and every later block loses its offset and keeps its rectangle. -/
theorem clearBlockLayoutList_full (bs : List BlockInfo) (k : Nat) (hk : k < bs.length)
    (hpos : ∀ i, i < bs.length → (blockAt bs i).hasOffset = true) (j : Nat) :
    blockAt (clearBlockLayoutList bs k).1 j =
      if j < k then blockAt bs j
      else if j = k then BlockInfo.fresh
      else { blockAt bs j with m_offset := -1 } := by
  unfold clearBlockLayoutList
  rw [if_pos hk]
  unfold clearOffsetFromList
  have hlen : (bs.set k (blockAt bs k).reset).length = bs.length := by simp
  have key := (clearOffsetLoop_blockAt _ (k + 1) (bs.set k (blockAt bs k).reset) bs.length
    (by rw [hlen]) hk (by rw [hlen])
    (by intro t ht1 ht2; rw [blockAt_set_ne _ (by omega)]; exact hpos t ht2)
    (Or.inl hlen.symm)).1 j
  simp only [List.length_set] at key ⊢
  rw [key]
  by_cases h1 : j < k
  · rw [if_neg (by omega), if_pos h1, blockAt_set_ne _ (by omega)]
  · rw [if_neg h1]
    by_cases h2 : j = k
    · subst h2
      rw [if_neg (by omega), if_pos rfl, blockAt_set_self _ hk]
      rfl
    · rw [if_neg h2]
      by_cases h3 : j < bs.length
      · rw [if_pos ⟨by omega, h3⟩, blockAt_set_ne _ h2]
      · rw [if_neg (by omega), blockAt_set_ne _ h2, blockAt_of_le (by omega)]
        rfl

/-- The fast-path edit of block `k` on a fully positioned contiguous cache (block 0 at
offset 0), with a new non-null rectangle of the old height: every entry keeps its value,
except that block `k` holds the new rectangle. -/
theorem relayout_same_height_list (bs : List BlockInfo) (k : Nat) (br : QRectF)
    (hk : k < bs.length)
    (hpos : ∀ i, i < bs.length → (blockAt bs i).hasOffset = true)
    (hc : ∀ i, (blockAt bs i).hasOffset = true → (blockAt bs (i + 1)).hasOffset = true →
      (blockAt bs i).bottom = (blockAt bs (i + 1)).top)
    (h0 : (blockAt bs 0).m_offset = 0)
    (hbr : br.isNull = false) (hh : br.height = (blockAt bs k).m_rect.height) (j : Nat) :
    blockAt (finishBlockLayoutList (clearBlockLayoutList bs k).1 k br) j =
      if j = k then ⟨(blockAt bs k).m_offset, br⟩ else blockAt bs j := by
  have hcl := clearBlockLayoutList_full bs k hk hpos
  have hlen : (clearBlockLayoutList bs k).1.length = bs.length := clearBlockLayoutList_length bs k
  have hnull : ∀ t, t < bs.length → (blockAt bs t).m_rect.isNull = false :=
    fun t ht => ((hasOffset_iff _).1 (hpos t ht)).2
  -- the offset the new entry receives is the old offset of block k
  have hoff : finishOffset (clearBlockLayoutList bs k).1 k = (blockAt bs k).m_offset := by
    unfold finishOffset
    by_cases hk0 : k = 0
    · subst hk0; rw [if_pos rfl, h0]
    · have hb : blockAt (clearBlockLayoutList bs k).1 (k - 1) = blockAt bs (k - 1) := by
        rw [hcl (k - 1), if_pos (by omega)]
      rw [if_neg hk0, hb, if_pos (hpos (k - 1) (by omega))]
      have := hc (k - 1) (hpos (k - 1) (by omega))
        (by rw [Nat.sub_add_cancel (by omega : 1 ≤ k)]; exact hpos k hk)
      rw [Nat.sub_add_cancel (by omega : 1 ≤ k)] at this
      exact this
  rw [finishBlockLayoutList_blockAt _ k bs.length br (by rw [hlen]; exact hk) hk (by rw [hlen])
    (by
      intro t ht1 ht2
      rw [hcl t, if_neg (by omega), if_neg (by omega)]
      exact hnull t ht2)
    (Or.inl hlen.symm), hoff]
  by_cases e1 : j = k
  · rw [if_pos e1, if_pos e1]
  · rw [if_neg e1, if_neg e1]
    have hp : (BlockInfo.mk (blockAt bs k).m_offset br).hasOffset = true := by
      rw [hasOffset_iff]
      exact ⟨((hasOffset_iff _).1 (hpos k hk)).1, hbr⟩
    by_cases e2 : k < j ∧ j < bs.length
    · rw [if_pos ⟨hp, e2⟩, hcl j, if_neg (by omega), if_neg e1]
      have hsum : ∑ t ∈ Finset.Ico (k + 1) j, (blockAt (clearBlockLayoutList bs k).1 t).m_rect.height
          = ∑ t ∈ Finset.Ico (k + 1) j, (blockAt bs t).m_rect.height := by
        apply Finset.sum_congr rfl
        intro t ht
        rw [hcl t, if_neg (by simp [Finset.mem_Ico] at ht; omega),
          if_neg (by simp [Finset.mem_Ico] at ht; omega)]
      have hj := offset_eq_sum bs hpos hc k j (by omega) e2.2
      rw [Finset.sum_eq_sum_Ico_succ_bot (by omega : k < j)] at hj
      rw [hsum, hh]
      cases hb : blockAt bs j with
      | mk o r =>
        rw [hb] at hj
        simp only at hj
        show BlockInfo.mk _ r = BlockInfo.mk o r
        rw [hj, add_assoc]
    · rw [if_neg (by tauto), hcl j]
      by_cases e3 : j < k
      · rw [if_pos e3]
      · rw [if_neg e3, if_neg e1, blockAt_of_le (by omega)]
        rfl

theorem fullyPositioned_threeBlocks : FullyPositioned threeBlocks := by
  intro i hi
  have hl : threeBlocks.m_blocks.length = 3 := by decide!
  rw [hl] at hi
  unfold Positioned
  interval_cases i <;> decide!

/-- **C7.** Single-block edits leave the rest of the cache untouched: in a fully
positioned contiguous cache (a state the engine can reach), `clearBlockLayout(k)`
followed by `finishBlockLayout(k)` with a new non-null rectangle whose height equals the
old height leaves `m_rect` and `m_offset` of every block `j != k`, and `m_offset` of
block `k` itself, exactly as they were; block `k` holds the new rectangle. -/
theorem single_block_edit_frame (ok : QRectF → Prop) (s : Layout) (k : Nat) (br : QRectF)
    (hr : Reachable ok s) (hpos : FullyPositioned s) (hc : Contiguous s)
    (hk : k < s.m_blocks.length) (hbr : br.isNull = false)
    (hh : br.height = (blockAt s.m_blocks k).m_rect.height) :
    (∀ j, j ≠ k →
      blockAt (finishBlockLayout (clearBlockLayout s k) k br).m_blocks j = blockAt s.m_blocks j)
    ∧ (blockAt (finishBlockLayout (clearBlockLayout s k) k br).m_blocks k).m_offset
        = (blockAt s.m_blocks k).m_offset
    ∧ (blockAt (finishBlockLayout (clearBlockLayout s k) k br).m_blocks k).m_rect = br
    ∧ (finishBlockLayout (clearBlockLayout s k) k br).m_blocks.length = s.m_blocks.length := by
  have h0 : (blockAt s.m_blocks 0).m_offset = 0 :=
    reachable_first_offset ok s hr (hpos 0 (by omega))
  have key := relayout_same_height_list s.m_blocks k br hk hpos hc h0 hbr hh
  refine ⟨fun j hj => ?_, ?_, ?_, ?_⟩
  · show blockAt (finishBlockLayoutList (clearBlockLayoutList s.m_blocks k).1 k br) j = _
    rw [key j, if_neg hj]
  · show (blockAt (finishBlockLayoutList (clearBlockLayoutList s.m_blocks k).1 k br) k).m_offset = _
    rw [key k, if_pos rfl]
  · show (blockAt (finishBlockLayoutList (clearBlockLayoutList s.m_blocks k).1 k br) k).m_rect = _
    rw [key k, if_pos rfl]
  · show (finishBlockLayoutList (clearBlockLayoutList s.m_blocks k).1 k br).length = _
    rw [finishBlockLayoutList_length, clearBlockLayoutList_length]

/-- Witness of C7 (end-to-end scenario B): relaying out block 1 of the three-block
example with a wider rectangle of the same height leaves block 2 where it was. -/
theorem single_block_edit_frame_witness :
    FullyPositioned threeBlocks ∧ Contiguous threeBlocks
    ∧ blockAt (finishBlockLayout (clearBlockLayout threeBlocks 1) 1 ⟨0, 0, 5, 10⟩).m_blocks 2
        = blockAt threeBlocks.m_blocks 2 :=
  ⟨fullyPositioned_threeBlocks, reachable_contiguous _ _ reachable_threeBlocks,
    (single_block_edit_frame _ threeBlocks 1 ⟨0, 0, 5, 10⟩ reachable_threeBlocks
      fullyPositioned_threeBlocks (reachable_contiguous _ _ reachable_threeBlocks)
      (by decide!) (by decide!) (by decide!)).1 2 (by decide)⟩

/-! ## The width scan -/

theorem widthScan_fst (bs : List BlockInfo) :
    ∀ (i : Nat) (acc : ℚ × Int),
      (widthScan bs i acc).1 = bs.foldl (fun m b => max m b.m_rect.width) acc.1 := by
  induction bs with
  | nil => intro i acc; rfl
  | cons a rest ih =>
    intro i acc
    unfold widthScan
    simp only [List.foldl_cons]
    split
    · rename_i h
      rw [ih, max_eq_right (le_of_lt h)]
    · rename_i h
      rw [ih, max_eq_left (not_lt.1 h)]

/-- The fold of `max` over the widths is their least upper bound above the start value. -/
theorem foldl_max_spec (bs : List BlockInfo) :
    ∀ w0 : ℚ,
      w0 ≤ bs.foldl (fun m b => max m b.m_rect.width) w0
      ∧ (∀ j, j < bs.length →
          (blockAt bs j).m_rect.width ≤ bs.foldl (fun m b => max m b.m_rect.width) w0)
      ∧ (bs.foldl (fun m b => max m b.m_rect.width) w0 = w0
          ∨ ∃ j, j < bs.length ∧
            (blockAt bs j).m_rect.width = bs.foldl (fun m b => max m b.m_rect.width) w0) := by
  induction bs with
  | nil =>
    intro w0
    exact ⟨le_refl _, fun j hj => absurd hj (by simp), Or.inl rfl⟩
  | cons a rest ih =>
    intro w0
    simp only [List.foldl_cons]
    obtain ⟨h1, h2, h3⟩ := ih (max w0 a.m_rect.width)
    refine ⟨le_trans (le_max_left _ _) h1, ?_, ?_⟩
    · intro j hj
      cases j with
      | zero => exact le_trans (le_max_right _ _) h1
      | succ j => exact h2 j (by simpa using hj)
    · rcases h3 with h | ⟨j, hj, h⟩
      · rcases le_total w0 a.m_rect.width with hle | hle
        · right
          refine ⟨0, by simp, ?_⟩
          rw [h, max_eq_right hle]
          rfl
        · left
          rw [h, max_eq_left hle]
      · right
        exact ⟨j + 1, by simpa using hj, h⟩

/-- Two values that are both the least upper bound of the same widths are equal. -/
theorem max_unique (f : Nat → ℚ) (n : Nat) (w0 M M' : ℚ)
    (h1 : w0 ≤ M) (h2 : ∀ j, j < n → f j ≤ M) (h3 : M = w0 ∨ ∃ j, j < n ∧ f j = M)
    (h1' : w0 ≤ M') (h2' : ∀ j, j < n → f j ≤ M')
    (h3' : M' = w0 ∨ ∃ j, j < n ∧ f j = M') : M = M' := by
  apply le_antisymm
  · rcases h3 with h | ⟨j, hj, h⟩
    · rw [h]; exact h1'
    · rw [← h]; exact h2' j hj
  · rcases h3' with h | ⟨j, hj, h⟩
    · rw [h]; exact h1
    · rw [← h]; exact h2 j hj

theorem maxRectWidth_spec (bs : List BlockInfo) :
    0 ≤ maxRectWidth bs
    ∧ (∀ j, j < bs.length → (blockAt bs j).m_rect.width ≤ maxRectWidth bs)
    ∧ (maxRectWidth bs = 0
        ∨ ∃ j, j < bs.length ∧ (blockAt bs j).m_rect.width = maxRectWidth bs) :=
  foldl_max_spec bs 0

theorem maxRectWidth_eq (bs : List BlockInfo) (M : ℚ) (h1 : 0 ≤ M)
    (h2 : ∀ j, j < bs.length → (blockAt bs j).m_rect.width ≤ M)
    (h3 : M = 0 ∨ ∃ j, j < bs.length ∧ (blockAt bs j).m_rect.width = M) :
    maxRectWidth bs = M :=
  max_unique (fun j => (blockAt bs j).m_rect.width) bs.length 0 _ _
    (maxRectWidth_spec bs).1 (maxRectWidth_spec bs).2.1 (maxRectWidth_spec bs).2.2 h1 h2 h3

/-- The index the width scan returns: a block that attains the maximum when the maximum
exceeds the start value, the start index otherwise. -/
theorem widthScan_snd (bs : List BlockInfo) :
    ∀ (i : Nat) (acc : ℚ × Int),
      (acc.1 < (widthScan bs i acc).1 →
        ∃ j, j < bs.length ∧ (widthScan bs i acc).2 = ((i + j : Nat) : Int)
          ∧ (blockAt bs j).m_rect.width = (widthScan bs i acc).1)
      ∧ (¬ acc.1 < (widthScan bs i acc).1 → (widthScan bs i acc).2 = acc.2) := by
  induction bs with
  | nil =>
    intro i acc
    exact ⟨fun h => absurd h (lt_irrefl _), fun _ => rfl⟩
  | cons a rest ih =>
    intro i acc
    unfold widthScan
    split
    · rename_i hlt
      obtain ⟨ih1, ih2⟩ := ih (i + 1) (a.m_rect.width, (i : Int))
      have hge : a.m_rect.width ≤ (widthScan rest (i + 1) (a.m_rect.width, (i : Int))).1 := by
        rw [widthScan_fst]; exact (foldl_max_spec rest _).1
      refine ⟨fun _ => ?_, fun h => absurd (lt_of_lt_of_le hlt hge) h⟩
      by_cases hm : a.m_rect.width < (widthScan rest (i + 1) (a.m_rect.width, (i : Int))).1
      · obtain ⟨j, hj, e1, e2⟩ := ih1 hm
        refine ⟨j + 1, by simpa using hj, ?_, e2⟩
        rw [e1]; push_cast; ring
      · refine ⟨0, by simp, ?_, ?_⟩
        · rw [ih2 hm]; simp
        · exact le_antisymm hge (not_lt.1 hm)
    · obtain ⟨ih1, ih2⟩ := ih (i + 1) acc
      refine ⟨fun h => ?_, ih2⟩
      obtain ⟨j, hj, e1, e2⟩ := ih1 h
      refine ⟨j + 1, by simpa using hj, ?_, e2⟩
      rw [e1]; push_cast; ring

/-! ## Fast path and full relayout -/

theorem layout_eq_of_fields (a b : Layout) (h1 : a.m_margin = b.m_margin)
    (h2 : a.m_width = b.m_width)
    (h3 : a.m_maximumWidthBlockNumber = b.m_maximumWidthBlockNumber)
    (h4 : a.m_height = b.m_height) (h5 : a.m_blockCount = b.m_blockCount)
    (h6 : a.m_blocks = b.m_blocks) (h7 : a.documentSizeChanged = b.documentSizeChanged) :
    a = b := by
  cases a; cases b
  simp only [Layout.mk.injEq]
  exact ⟨h1, h2, h3, h4, h5, h6, h7⟩

/-- `finishUpTo` changes nothing but `m_blocks`. -/
theorem finishUpTo_fields (rects : Nat → QRectF) (n : Nat) (s : Layout) :
    finishUpTo rects n s = { s with m_blocks := (finishUpTo rects n s).m_blocks } := by
  induction n with
  | zero => rfl
  | succ n ih =>
    show finishBlockLayout (finishUpTo rects n s) n (rects n) = _
    rw [ih]
    rfl

theorem updateDocumentSizeWithOneBlockChanged_blocks (bw : ℚ → ℚ) (s : Layout) (k : Nat) :
    (updateDocumentSizeWithOneBlockChanged bw s k).m_blocks = s.m_blocks := by
  unfold updateDocumentSizeWithOneBlockChanged
  simp only []
  split
  · rfl
  · split
    · exact updateDocumentSize_blocks bw s
    · rfl

/-- On a fully positioned cache whose cached size is up to date and whose widest block is
tracked, except that block `k` has just received a new rectangle of unchanged height,
`updateDocumentSizeWithOneBlockChanged(k)` and `updateDocumentSize()` compute the same
document size. -/
theorem oneBlockChanged_eq_full (bw : ℚ → ℚ) (hbw : StrictMono bw) (s : Layout) (k : Nat)
    (W : ℚ) (hk : k < s.m_blocks.length)
    (hlast : (blockAt s.m_blocks (s.m_blocks.length - 1)).hasOffset = true)
    (hheight : s.m_height = (blockAt s.m_blocks (s.m_blocks.length - 1)).bottom)
    (hwidth : s.m_width = bw W) (hW0 : 0 ≤ W)
    (hWle : ∀ j, j < s.m_blocks.length → j ≠ k → (blockAt s.m_blocks j).m_rect.width ≤ W)
    (hWat : 0 < W → ∃ j : Nat, j < s.m_blocks.length ∧ s.m_maximumWidthBlockNumber = (j : Int)
      ∧ (j ≠ k → (blockAt s.m_blocks j).m_rect.width = W)) :
    documentSize (updateDocumentSizeWithOneBlockChanged bw s k)
      = documentSize (updateDocumentSize bw s) := by
  obtain ⟨fh, fw, _⟩ := updateDocumentSize_size bw s hlast
  rw [widthScan_fst] at fw
  have hfull : documentSize (updateDocumentSize bw s)
      = ⟨bw (maxRectWidth s.m_blocks), s.m_height⟩ := by
    unfold documentSize
    rw [fh, fw, hheight]
    rfl
  rw [hfull]
  unfold updateDocumentSizeWithOneBlockChanged
  simp only []
  by_cases hA : bw (blockAt s.m_blocks k).m_rect.width > s.m_width
  · -- the block became the widest
    rw [if_pos hA]
    have hlt : W < (blockAt s.m_blocks k).m_rect.width := by
      rw [hwidth] at hA; exact hbw.lt_iff_lt.1 hA
    have hmax : maxRectWidth s.m_blocks = (blockAt s.m_blocks k).m_rect.width := by
      apply maxRectWidth_eq
      · exact le_trans hW0 (le_of_lt hlt)
      · intro j hj
        by_cases hjk : j = k
        · rw [hjk]
        · exact le_trans (hWle j hj hjk) (le_of_lt hlt)
      · exact Or.inr ⟨k, hk, rfl⟩
    rw [hmax]
    rfl
  · rw [if_neg hA]
    have hle : (blockAt s.m_blocks k).m_rect.width ≤ W := by
      rw [hwidth] at hA
      exact hbw.le_iff_le.1 (not_lt.1 hA)
    by_cases hB : bw (blockAt s.m_blocks k).m_rect.width < s.m_width
        ∧ (k : Int) = s.m_maximumWidthBlockNumber
    · rw [if_pos hB]
      exact hfull
    · rw [if_neg hB]
      have hmax : maxRectWidth s.m_blocks = W := by
        apply maxRectWidth_eq _ _ hW0
        · intro j hj
          by_cases hjk : j = k
          · rw [hjk]; exact hle
          · exact hWle j hj hjk
        · rcases eq_or_lt_of_le hW0 with h | h
          · exact Or.inl h.symm
          · right
            obtain ⟨j, hj, hidx, hat⟩ := hWat h
            by_cases hjk : j = k
            · -- the tracked block is k itself: it did not shrink
              refine ⟨k, hk, ?_⟩
              have hnlt : ¬ bw (blockAt s.m_blocks k).m_rect.width < s.m_width := by
                intro hlt
                exact hB ⟨hlt, by rw [hidx, hjk]⟩
              rw [hwidth] at hnlt
              exact le_antisymm hle (hbw.le_iff_le.1 (not_lt.1 hnlt))
            · exact ⟨j, hj, hat hjk⟩
      unfold documentSize
      rw [hmax, hwidth]

/-- **C3.** Fast-path equivalence: starting from a fully positioned cache (a state the
engine can reach) whose width and height were produced by `updateDocumentSize`, a
single-block edit of block `k` handled by the fast path (`clearBlockLayout(k)`,
`finishBlockLayout(k)` with a new non-null rectangle of the same height,
`updateDocumentSizeWithOneBlockChanged(k)`) yields the same `documentSize()` and the same
offset for every block (indeed the same cache) as resetting the whole cache, running
`finishBlockLayout` on the blocks `0 .. n - 1` in order with the new rectangles, and then
`updateDocumentSize`; `blockWidthInDocument` is assumed strictly increasing. -/
theorem fast_path_equivalence (bw : ℚ → ℚ) (hbw : StrictMono bw) (ok : QRectF → Prop)
    (s0 : Layout) (k : Nat) (br : QRectF)
    (hr : Reachable ok s0) (hpos : FullyPositioned s0) (hk : k < s0.m_blocks.length)
    (hbr : br.isNull = false) (hh : br.height = (blockAt s0.m_blocks k).m_rect.height) :
    documentSize (fastPathEdit bw (updateDocumentSize bw s0) k br)
      = documentSize (fullRelayout bw (updateDocumentSize bw s0)
          (editedRects (updateDocumentSize bw s0) k br))
    ∧ (∀ j, (blockAt (fastPathEdit bw (updateDocumentSize bw s0) k br).m_blocks j).m_offset
        = (blockAt (fullRelayout bw (updateDocumentSize bw s0)
            (editedRects (updateDocumentSize bw s0) k br)).m_blocks j).m_offset)
    ∧ (fastPathEdit bw (updateDocumentSize bw s0) k br).m_blocks
        = (fullRelayout bw (updateDocumentSize bw s0)
            (editedRects (updateDocumentSize bw s0) k br)).m_blocks := by
  have hb : (updateDocumentSize bw s0).m_blocks = s0.m_blocks := updateDocumentSize_blocks bw s0
  have hc : Contiguous s0 := reachable_contiguous ok s0 hr
  have h0 : (blockAt s0.m_blocks 0).m_offset = 0 :=
    reachable_first_offset ok s0 hr (hpos 0 (by omega))
  have hlast0 : (blockAt s0.m_blocks (s0.m_blocks.length - 1)).hasOffset = true :=
    hpos _ (by omega)
  obtain ⟨sh, sw, sm⟩ := updateDocumentSize_size bw s0 hlast0
  -- the cache after the relayout of block k
  have key := relayout_same_height_list s0.m_blocks k br hk hpos hc h0 hbr hh
  have hlen1 : (finishBlockLayoutList (clearBlockLayoutList s0.m_blocks k).1 k br).length
      = s0.m_blocks.length := by
    rw [finishBlockLayoutList_length, clearBlockLayoutList_length]
  -- the cache after the full relayout
  have hrh : ∀ t, (editedRects (updateDocumentSize bw s0) k br t).height
      = (blockAt s0.m_blocks t).m_rect.height := by
    intro t
    unfold editedRects
    rw [hb]
    by_cases htk : t = k
    · rw [if_pos htk, htk, hh]
    · rw [if_neg htk]
  have hsumF : ∀ j, j < s0.m_blocks.length →
      ∑ t ∈ Finset.range j, (editedRects (updateDocumentSize bw s0) k br t).height
        = (blockAt s0.m_blocks j).m_offset := by
    intro j hj
    rw [offset_eq_sum s0.m_blocks hpos hc 0 j (Nat.zero_le _) hj, h0, zero_add,
      Finset.range_eq_Ico]
    exact Finset.sum_congr rfl (fun t _ => hrh t)
  have hnull : ∀ t, t < s0.m_blocks.length → (blockAt s0.m_blocks t).m_rect.isNull = false :=
    fun t ht => ((hasOffset_iff _).1 (hpos t ht)).2
  have keyF := finishUpTo_fresh (editedRects (updateDocumentSize bw s0) k br)
    (resetAll (updateDocumentSize bw s0)) s0.m_blocks.length
    (by show List.replicate _ _ = _; rw [hb])
    (by
      intro i hi
      unfold editedRects
      rw [hb]
      by_cases hik : i = k
      · rw [if_pos hik]; exact hbr
      · rw [if_neg hik]; exact hnull i hi)
    (by intro i hi; rw [hsumF i hi]; exact ((hasOffset_iff _).1 (hpos i hi)).1)
    s0.m_blocks.length (le_refl _)
  have hlenF : (finishUpTo (editedRects (updateDocumentSize bw s0) k br) s0.m_blocks.length
      (resetAll (updateDocumentSize bw s0))).m_blocks.length = s0.m_blocks.length := by
    rw [finishUpTo_length]
    show (List.replicate _ _).length = _
    rw [List.length_replicate, hb]
  have hsame : (finishUpTo (editedRects (updateDocumentSize bw s0) k br) s0.m_blocks.length
      (resetAll (updateDocumentSize bw s0))).m_blocks
      = finishBlockLayoutList (clearBlockLayoutList s0.m_blocks k).1 k br := by
    apply list_ext_blockAt (by rw [hlenF, hlen1])
    intro j hj
    rw [hlen1] at hj
    rw [keyF j, if_pos hj, key j, hsumF j hj]
    unfold editedRects
    rw [hb]
    by_cases hjk : j = k
    · rw [if_pos hjk, if_pos hjk, hjk]
    · rw [if_neg hjk, if_neg hjk]
  -- both paths continue from the same state
  have hstate : finishUpTo (editedRects (updateDocumentSize bw s0) k br)
      (updateDocumentSize bw s0).m_blocks.length (resetAll (updateDocumentSize bw s0))
      = finishBlockLayout (clearBlockLayout (updateDocumentSize bw s0) k) k br := by
    rw [hb, finishUpTo_fields]
    apply layout_eq_of_fields <;> try rfl
    show (finishUpTo _ _ _).m_blocks
      = finishBlockLayoutList (clearBlockLayoutList (updateDocumentSize bw s0).m_blocks k).1 k br
    rw [hb]
    exact hsame
  have hblocks1 : (finishBlockLayout (clearBlockLayout (updateDocumentSize bw s0) k) k br).m_blocks
      = finishBlockLayoutList (clearBlockLayoutList s0.m_blocks k).1 k br := by
    show finishBlockLayoutList (clearBlockLayoutList (updateDocumentSize bw s0).m_blocks k).1 k br
      = _
    rw [hb]
  have hfields1 : (finishBlockLayout (clearBlockLayout (updateDocumentSize bw s0) k) k br).m_width
        = (updateDocumentSize bw s0).m_width
      ∧ (finishBlockLayout (clearBlockLayout (updateDocumentSize bw s0) k) k br).m_height
        = (updateDocumentSize bw s0).m_height
      ∧ (finishBlockLayout (clearBlockLayout (updateDocumentSize bw s0) k) k br).m_maximumWidthBlockNumber
        = (updateDocumentSize bw s0).m_maximumWidthBlockNumber := ⟨rfl, rfl, rfl⟩
  have hdoc : documentSize (updateDocumentSizeWithOneBlockChanged bw
        (finishBlockLayout (clearBlockLayout (updateDocumentSize bw s0) k) k br) k)
      = documentSize (updateDocumentSize bw
        (finishBlockLayout (clearBlockLayout (updateDocumentSize bw s0) k) k br)) := by
    have hn1 : s0.m_blocks.length - 1 < s0.m_blocks.length := by omega
    apply oneBlockChanged_eq_full bw hbw _ k (maxRectWidth s0.m_blocks)
    · rw [hblocks1, hlen1]; exact hk
    · rw [hblocks1, hlen1, key]
      split
      · rw [hasOffset_iff]
        exact ⟨((hasOffset_iff _).1 (hpos k hk)).1, hbr⟩
      · exact hlast0
    · rw [hfields1.2.1, sh, hblocks1, hlen1, key]
      split
      · rename_i e
        rw [e]
        show _ = (blockAt s0.m_blocks k).m_offset + br.height
        rw [hh]
        rfl
      · rfl
    · rw [hfields1.1, sw, widthScan_fst]
      rfl
    · exact (maxRectWidth_spec _).1
    · intro j hj hjk
      rw [hblocks1, hlen1] at hj
      rw [hblocks1, key, if_neg hjk]
      exact (maxRectWidth_spec _).2.1 j hj
    · intro hW
      have hscan := (widthScan_snd s0.m_blocks 0 (0, s0.m_maximumWidthBlockNumber)).1
        (by rw [widthScan_fst]; exact hW)
      obtain ⟨j, hj, e1, e2⟩ := hscan
      refine ⟨j, by rw [hblocks1, hlen1]; exact hj, ?_, fun hjk => ?_⟩
      · rw [hfields1.2.2, sm, e1]; simp
      · rw [hblocks1, key, if_neg hjk, e2, widthScan_fst]
        rfl
  refine ⟨?_, ?_, ?_⟩
  · unfold fastPathEdit fullRelayout
    rw [hstate]
    exact hdoc
  · intro j
    unfold fastPathEdit fullRelayout
    rw [hstate, updateDocumentSizeWithOneBlockChanged_blocks, updateDocumentSize_blocks]
  · unfold fastPathEdit fullRelayout
    rw [hstate, updateDocumentSizeWithOneBlockChanged_blocks, updateDocumentSize_blocks]

/-- Witness of C3: widening block 1 of the three-block example (same height) gives the
same document size on the fast path as a full relayout. -/
theorem fast_path_equivalence_witness :
    documentSize (fastPathEdit (fun w => w + 1)
        (updateDocumentSize (fun w => w + 1) threeBlocks) 1 ⟨0, 0, 5, 10⟩)
      = documentSize (fullRelayout (fun w => w + 1)
          (updateDocumentSize (fun w => w + 1) threeBlocks)
          (editedRects (updateDocumentSize (fun w => w + 1) threeBlocks) 1 ⟨0, 0, 5, 10⟩)) :=
  (fast_path_equivalence (fun w => w + 1) (fun _ _ h => add_lt_add_right h 1) _
    threeBlocks 1 ⟨0, 0, 5, 10⟩ reachable_threeBlocks fullyPositioned_threeBlocks
    (by decide!) (by decide!) (by decide!)).1

/-! ## blockRangeFromRect -/

/-- What the first loop of `blockRangeFromRect` returns. -/
theorem rangeFirstLoop_spec (bs : List BlockInfo) (y : Int) (fuel : Nat) :
    ∀ i, bs.length - i ≤ fuel →
      (rangeFirstLoop bs y fuel i = -1 ∧ ∀ b, i ≤ b → b < bs.length →
          ¬ rangeFirstTest (blockAt bs b) y)
      ∨ ∃ f : Nat, rangeFirstLoop bs y fuel i = (f : Int) ∧ i ≤ f ∧ f < bs.length
          ∧ rangeFirstTest (blockAt bs f) y
          ∧ ∀ b, i ≤ b → b < f → ¬ rangeFirstTest (blockAt bs b) y := by
  induction fuel with
  | zero =>
    intro i hf
    left
    exact ⟨rfl, fun b h1 h2 => absurd h2 (by omega)⟩
  | succ fuel ih =>
    intro i hf
    unfold rangeFirstLoop
    by_cases hi : i < bs.length
    · rw [if_pos hi]
      by_cases ht : rangeFirstTest (blockAt bs i) y
      · right
        refine ⟨i, ?_, le_refl _, hi, ht, fun b h1 h2 => absurd h2 (by omega)⟩
        unfold rangeFirstTest at ht
        rw [if_pos ht]
      · have ht' := ht
        unfold rangeFirstTest at ht'
        rw [if_neg ht']
        rcases ih (i + 1) (by omega) with ⟨h1, h2⟩ | ⟨f, h1, h2, h3, h4, h5⟩
        · left
          refine ⟨h1, fun b hb1 hb2 => ?_⟩
          rcases Nat.eq_or_lt_of_le hb1 with e | e
          · rw [← e]; exact ht
          · exact h2 b e hb2
        · right
          refine ⟨f, h1, by omega, h3, h4, fun b hb1 hb2 => ?_⟩
          rcases Nat.eq_or_lt_of_le hb1 with e | e
          · rw [← e]; exact ht
          · exact h5 b e hb2
    · rw [if_neg hi]
      left
      exact ⟨rfl, fun b h1 h2 => absurd h2 (by omega)⟩

/-- What the second loop of `blockRangeFromRect` returns. -/
theorem rangeLastLoop_spec (bs : List BlockInfo) (y : Int) (fuel : Nat) :
    ∀ i, bs.length - i ≤ fuel →
      (rangeLastLoop bs y fuel i = (bs.length : Int) - 1 ∧ ∀ b, i ≤ b → b < bs.length →
          ¬ (blockAt bs b).bottom > (y : ℚ))
      ∨ ∃ l : Nat, rangeLastLoop bs y fuel i = (l : Int) ∧ i ≤ l ∧ l < bs.length
          ∧ (blockAt bs l).bottom > (y : ℚ)
          ∧ ∀ b, i ≤ b → b < l → ¬ (blockAt bs b).bottom > (y : ℚ) := by
  induction fuel with
  | zero =>
    intro i hf
    left
    exact ⟨rfl, fun b h1 h2 => absurd h2 (by omega)⟩
  | succ fuel ih =>
    intro i hf
    unfold rangeLastLoop
    by_cases hi : i < bs.length
    · rw [if_pos hi]
      by_cases ht : (blockAt bs i).bottom > (y : ℚ)
      · right
        rw [if_pos ht]
        exact ⟨i, rfl, le_refl _, hi, ht, fun b h1 h2 => absurd h2 (by omega)⟩
      · rw [if_neg ht]
        rcases ih (i + 1) (by omega) with ⟨h1, h2⟩ | ⟨l, h1, h2, h3, h4, h5⟩
        · left
          refine ⟨h1, fun b hb1 hb2 => ?_⟩
          rcases Nat.eq_or_lt_of_le hb1 with e | e
          · rw [← e]; exact ht
          · exact h2 b e hb2
        · right
          refine ⟨l, h1, by omega, h3, h4, fun b hb1 hb2 => ?_⟩
          rcases Nat.eq_or_lt_of_le hb1 with e | e
          · rw [← e]; exact ht
          · exact h5 b e hb2
    · rw [if_neg hi]
      left
      exact ⟨rfl, fun b h1 h2 => absurd h2 (by omega)⟩

/-- In a fully positioned contiguous cache with non-negative heights, tops and bottoms
grow with the block number. -/
theorem tops_monotone (bs : List BlockInfo)
    (hpos : ∀ i, i < bs.length → (blockAt bs i).hasOffset = true)
    (hc : ∀ i, (blockAt bs i).hasOffset = true → (blockAt bs (i + 1)).hasOffset = true →
      (blockAt bs i).bottom = (blockAt bs (i + 1)).top)
    (hh : ∀ j, 0 ≤ (blockAt bs j).m_rect.height) :
    ∀ i j, i ≤ j → j < bs.length →
      (blockAt bs i).top ≤ (blockAt bs j).top ∧ (blockAt bs i).bottom ≤ (blockAt bs j).bottom := by
  intro i j hij hj
  have hs := offset_eq_sum bs hpos hc i j hij hj
  have hnn : 0 ≤ ∑ t ∈ Finset.Ico i j, (blockAt bs t).m_rect.height :=
    Finset.sum_nonneg (fun t _ => hh t)
  have htop : (blockAt bs i).top ≤ (blockAt bs j).top := by
    show (blockAt bs i).m_offset ≤ (blockAt bs j).m_offset
    linarith
  refine ⟨htop, ?_⟩
  rcases Nat.eq_or_lt_of_le hij with e | e
  · rw [e]
  · -- bottom(i) = top(i + 1) ≤ top(j) ≤ bottom(j)
    have h1 := hc i (hpos i (by omega)) (hpos (i + 1) (by omega))
    have hs2 := offset_eq_sum bs hpos hc (i + 1) j e hj
    have hnn2 : 0 ≤ ∑ t ∈ Finset.Ico (i + 1) j, (blockAt bs t).m_rect.height :=
      Finset.sum_nonneg (fun t _ => hh t)
    have h2 : (blockAt bs (i + 1)).top ≤ (blockAt bs j).top := by
      show (blockAt bs (i + 1)).m_offset ≤ (blockAt bs j).m_offset
      linarith
    have h3 : (blockAt bs j).top ≤ (blockAt bs j).bottom := by
      show (blockAt bs j).m_offset ≤ (blockAt bs j).m_offset + (blockAt bs j).m_rect.height
      have := hh j
      linarith
    rw [h1]
    exact le_trans h2 h3

theorem truncToInt_add_nonneg_ge (y : Int) (h : ℚ) (hh : 0 ≤ h) (hy : intMin ≤ y)
    (hfit : (y : ℚ) + h < 2147483648) :
    y ≤ truncToInt ((y : ℚ) + h) := by
  have ht : y ≤ (if 0 ≤ (y : ℚ) + h then ⌊(y : ℚ) + h⌋ else ⌈(y : ℚ) + h⌉)
      ∧ (if 0 ≤ (y : ℚ) + h then ⌊(y : ℚ) + h⌋ else ⌈(y : ℚ) + h⌉) ≤ intMax := by
    split
    · constructor
      · rw [Int.le_floor]; linarith
      · have h1 : (⌊(y : ℚ) + h⌋ : Int) < 2147483648 := by
          rw [Int.floor_lt]; exact_mod_cast hfit
        show ⌊(y : ℚ) + h⌋ ≤ (2147483647 : Int)
        omega
    · rename_i hneg
      constructor
      · have h1 : ((y : ℚ) + h) ≤ ((⌈(y : ℚ) + h⌉ : Int) : ℚ) := Int.le_ceil _
        have h2 : (y : ℚ) ≤ ((⌈(y : ℚ) + h⌉ : Int) : ℚ) := by linarith
        exact_mod_cast h2
      · have h1 : ⌈(y : ℚ) + h⌉ ≤ (0 : Int) := by
          rw [Int.ceil_le]; push_cast; linarith
        show ⌈(y : ℚ) + h⌉ ≤ (2147483647 : Int)
        omega
  unfold truncToInt
  simp only []
  rw [if_pos ⟨le_trans hy ht.1, ht.2⟩]
  exact ht.1

theorem rangeFirstTest_iff (b : BlockInfo) (y : Int) (hh : 0 ≤ b.m_rect.height) :
    rangeFirstTest b y ↔ b.top ≤ (y : ℚ) ∧ (y : ℚ) ≤ b.bottom := by
  unfold rangeFirstTest
  have hb : b.bottom = b.top + b.m_rect.height := rfl
  constructor
  · rintro (h | ⟨h1, h2⟩)
    · rw [hb, h]; exact ⟨le_refl _, by linarith⟩
    · exact ⟨le_of_lt h1, h2⟩
  · rintro ⟨h1, h2⟩
    rcases eq_or_lt_of_le h1 with e | e
    · exact Or.inl e
    · exact Or.inr ⟨e, h2⟩

theorem blockRangeFromRect_none (s : Layout) (p_rect : QRectF) (hnn : p_rect.isNull = false)
    (h : rangeFirstLoop s.m_blocks (truncToInt p_rect.y) s.m_blocks.length 0 = -1) :
    blockRangeFromRect s p_rect = (-1, -1) := by
  unfold blockRangeFromRect
  simp only [hnn, Bool.false_eq_true, if_false, h, if_true]

theorem blockRangeFromRect_some (s : Layout) (p_rect : QRectF) (hnn : p_rect.isNull = false)
    (f : Nat)
    (h : rangeFirstLoop s.m_blocks (truncToInt p_rect.y) s.m_blocks.length 0 = (f : Int)) :
    blockRangeFromRect s p_rect
      = ((f : Int), rangeLastLoop s.m_blocks
          (truncToInt (((truncToInt p_rect.y : Int) : ℚ) + p_rect.height))
          (s.m_blocks.length - f) f) := by
  unfold blockRangeFromRect
  have hne : ¬ ((f : Int) = -1) := by omega
  simp only [hnn, Bool.false_eq_true, if_false, h, hne, Int.toNat_ofNat]

/-- What `blockRangeFromRect` computes, in terms of the integers it keeps: for a fully
positioned contiguous cache whose rectangles have non-negative heights and a non-null
query rectangle of non-negative height, with `Y` the truncated `p_rect.y()` and `Y2` the
truncated `Y + p_rect.height()`, where `Y + p_rect.height()` is below `2^31` (so that
the second conversion stays in the range of `int`), the result is `(-1, -1)` exactly when no block has
`top <= Y <= bottom`; otherwise a block `b` lies in the returned range exactly when
`top(b) <= Y2` and `Y <= bottom(b)`. -/
theorem blockRangeFromRect_truncated (s : Layout) (p_rect : QRectF)
    (hpos : FullyPositioned s) (hc : Contiguous s)
    (hh : ∀ j, 0 ≤ (blockAt s.m_blocks j).m_rect.height)
    (hnn : p_rect.isNull = false) (hrh : 0 ≤ p_rect.height)
    (hfit : ((truncToInt p_rect.y : Int) : ℚ) + p_rect.height < 2147483648) :
    (blockRangeFromRect s p_rect = (-1, -1) ↔
      ¬ ∃ b, b < s.m_blocks.length ∧ (blockAt s.m_blocks b).top ≤ ((truncToInt p_rect.y : Int) : ℚ)
        ∧ ((truncToInt p_rect.y : Int) : ℚ) ≤ (blockAt s.m_blocks b).bottom)
    ∧ (blockRangeFromRect s p_rect ≠ (-1, -1) →
        ∀ b : Nat, b < s.m_blocks.length →
          (((blockRangeFromRect s p_rect).1 ≤ (b : Int)
              ∧ (b : Int) ≤ (blockRangeFromRect s p_rect).2)
            ↔ ((blockAt s.m_blocks b).top
                  ≤ ((truncToInt (((truncToInt p_rect.y : Int) : ℚ) + p_rect.height) : Int) : ℚ)
                ∧ ((truncToInt p_rect.y : Int) : ℚ) ≤ (blockAt s.m_blocks b).bottom))) := by
  have hmono := tops_monotone s.m_blocks hpos hc hh
  have hY : ((truncToInt p_rect.y : Int) : ℚ)
      ≤ ((truncToInt (((truncToInt p_rect.y : Int) : ℚ) + p_rect.height) : Int) : ℚ) := by
    exact_mod_cast truncToInt_add_nonneg_ge (truncToInt p_rect.y) p_rect.height hrh
      (truncToInt_bounds p_rect.y).1 hfit
  rcases rangeFirstLoop_spec s.m_blocks (truncToInt p_rect.y) s.m_blocks.length 0 (by omega)
    with ⟨h1, h2⟩ | ⟨f, h1, _, hf, hft, hfmin⟩
  · -- no block passes the first test
    have hres := blockRangeFromRect_none s p_rect hnn h1
    refine ⟨⟨fun _ => ?_, fun _ => hres⟩, fun hne => absurd hres hne⟩
    rintro ⟨b, hb, hb1, hb2⟩
    exact h2 b (Nat.zero_le _) hb ((rangeFirstTest_iff _ _ (hh b)).2 ⟨hb1, hb2⟩)
  · have hres := blockRangeFromRect_some s p_rect hnn f h1
    have hft' := (rangeFirstTest_iff _ _ (hh f)).1 hft
    have hne : blockRangeFromRect s p_rect ≠ (-1, -1) := by
      rw [hres]
      intro h
      have := congrArg Prod.fst h
      simp only at this
      omega
    refine ⟨⟨fun h => absurd h hne, fun h => absurd ⟨f, hf, hft'.1, hft'.2⟩ h⟩, fun _ b hb => ?_⟩
    rw [hres]
    simp only
    -- membership below: b ≥ first iff Y ≤ bottom(b)
    have hlow : f ≤ b ↔ ((truncToInt p_rect.y : Int) : ℚ) ≤ (blockAt s.m_blocks b).bottom := by
      constructor
      · intro hfb
        exact le_trans hft'.2 (hmono f b hfb hb).2
      · intro hyb
        by_contra hlt
        have hbf : b < f := by omega
        have hnt := hfmin b (Nat.zero_le _) hbf
        rw [rangeFirstTest_iff _ _ (hh b)] at hnt
        exact hnt ⟨le_trans (hmono b f (by omega) hf).1 hft'.1, hyb⟩
    rcases rangeLastLoop_spec s.m_blocks
        (truncToInt (((truncToInt p_rect.y : Int) : ℚ) + p_rect.height))
        (s.m_blocks.length - f) f (le_refl _)
      with ⟨l1, l2⟩ | ⟨l, l1, lf, ll, lt, lmin⟩
    · -- no bottom exceeds Y2 from first on: last stays size - 1
      rw [l1]
      have hup : ∀ b, f ≤ b → b < s.m_blocks.length → (blockAt s.m_blocks b).top
          ≤ ((truncToInt (((truncToInt p_rect.y : Int) : ℚ) + p_rect.height) : Int) : ℚ) := by
        intro b hfb hb
        have h3 : (blockAt s.m_blocks b).top ≤ (blockAt s.m_blocks b).bottom := by
          show (blockAt s.m_blocks b).m_offset
            ≤ (blockAt s.m_blocks b).m_offset + (blockAt s.m_blocks b).m_rect.height
          have := hh b
          linarith
        exact le_trans h3 (not_lt.1 (l2 b hfb hb))
      constructor
      · rintro ⟨hb1, _⟩
        have hfb : f ≤ b := by omega
        exact ⟨hup b hfb hb, hlow.1 hfb⟩
      · rintro ⟨_, hb2⟩
        have hfb := hlow.2 hb2
        constructor <;> omega
    · rw [l1]
      constructor
      · rintro ⟨hb1, hb2⟩
        have hfb : f ≤ b := by omega
        have hbl : b ≤ l := by omega
        refine ⟨?_, hlow.1 hfb⟩
        rcases Nat.eq_or_lt_of_le hfb with e | e
        · rw [← e]; exact le_trans hft'.1 hY
        · -- top(b) = bottom(b - 1), and b - 1 is before the stop
          have hpre := lmin (b - 1) (by omega) (by omega)
          have hcb := hc (b - 1) (hpos (b - 1) (by omega))
            (by rw [Nat.sub_add_cancel (by omega : 1 ≤ b)]; exact hpos b hb)
          rw [Nat.sub_add_cancel (by omega : 1 ≤ b)] at hcb
          rw [← hcb]
          exact not_lt.1 hpre
      · rintro ⟨hb1, hb2⟩
        have hfb := hlow.2 hb2
        refine ⟨by omega, ?_⟩
        by_contra hgt
        have hlb : l < b := by omega
        -- top(b) ≥ bottom(l) > Y2
        have h1' := hc l (hpos l ll) (hpos (l + 1) (by omega))
        have h2' := (hmono (l + 1) b (by omega) hb).1
        rw [← h1'] at h2'
        exact absurd (lt_of_lt_of_le lt h2') (not_lt.2 hb1)

/-! ## Width tracking -/

theorem updateDocumentSize_tracked (bw : ℚ → ℚ) (s : Layout)
    (hlast : (blockAt s.m_blocks (s.m_blocks.length - 1)).hasOffset = true) :
    WidthTracked bw (updateDocumentSize bw s) := by
  obtain ⟨_, fw, fm⟩ := updateDocumentSize_size bw s hlast
  unfold WidthTracked documentSize
  rw [updateDocumentSize_blocks, fw, fm, widthScan_fst]
  refine ⟨rfl, fun hW => ?_⟩
  obtain ⟨j, hj, e1, e2⟩ := (widthScan_snd s.m_blocks 0 (0, s.m_maximumWidthBlockNumber)).1
    (by rw [widthScan_fst]; exact hW)
  refine ⟨j, ?_, hj, ?_⟩
  · rw [e1]; simp
  · rw [e2, widthScan_fst]; rfl

/-- `updateDocumentSizeWithOneBlockChanged(k)` restores the width tracking after block
`k` alone has received a new rectangle. -/
theorem oneBlockChanged_tracked (bw : ℚ → ℚ) (hbw : StrictMono bw) (s : Layout) (k : Nat)
    (W : ℚ) (hk : k < s.m_blocks.length)
    (hlast : (blockAt s.m_blocks (s.m_blocks.length - 1)).hasOffset = true)
    (hwidth : s.m_width = bw W) (hW0 : 0 ≤ W)
    (hWle : ∀ j, j < s.m_blocks.length → j ≠ k → (blockAt s.m_blocks j).m_rect.width ≤ W)
    (hWat : 0 < W → ∃ j : Nat, j < s.m_blocks.length ∧ s.m_maximumWidthBlockNumber = (j : Int)
      ∧ (j ≠ k → (blockAt s.m_blocks j).m_rect.width = W)) :
    WidthTracked bw (updateDocumentSizeWithOneBlockChanged bw s k) := by
  unfold updateDocumentSizeWithOneBlockChanged
  simp only []
  by_cases hA : bw (blockAt s.m_blocks k).m_rect.width > s.m_width
  · rw [if_pos hA]
    have hlt : W < (blockAt s.m_blocks k).m_rect.width := by
      rw [hwidth] at hA; exact hbw.lt_iff_lt.1 hA
    have hmax : maxRectWidth s.m_blocks = (blockAt s.m_blocks k).m_rect.width := by
      apply maxRectWidth_eq
      · exact le_trans hW0 (le_of_lt hlt)
      · intro j hj
        by_cases hjk : j = k
        · rw [hjk]
        · exact le_trans (hWle j hj hjk) (le_of_lt hlt)
      · exact Or.inr ⟨k, hk, rfl⟩
    unfold WidthTracked documentSize
    simp only []
    rw [hmax]
    exact ⟨rfl, fun _ => ⟨k, rfl, hk, rfl⟩⟩
  · rw [if_neg hA]
    have hle : (blockAt s.m_blocks k).m_rect.width ≤ W := by
      rw [hwidth] at hA
      exact hbw.le_iff_le.1 (not_lt.1 hA)
    by_cases hB : bw (blockAt s.m_blocks k).m_rect.width < s.m_width
        ∧ (k : Int) = s.m_maximumWidthBlockNumber
    · rw [if_pos hB]
      exact updateDocumentSize_tracked bw s hlast
    · rw [if_neg hB]
      have hkeep : 0 < W → ∃ j, j < s.m_blocks.length ∧ s.m_maximumWidthBlockNumber = (j : Int)
          ∧ (blockAt s.m_blocks j).m_rect.width = W := by
        intro h
        obtain ⟨j, hj, hidx, hat⟩ := hWat h
        refine ⟨j, hj, hidx, ?_⟩
        by_cases hjk : j = k
        · have hnlt : ¬ bw (blockAt s.m_blocks k).m_rect.width < s.m_width := by
            intro hlt
            exact hB ⟨hlt, by rw [hidx, hjk]⟩
          rw [hwidth] at hnlt
          rw [hjk]
          exact le_antisymm hle (hbw.le_iff_le.1 (not_lt.1 hnlt))
        · exact hat hjk
      have hmax : maxRectWidth s.m_blocks = W := by
        apply maxRectWidth_eq _ _ hW0
        · intro j hj
          by_cases hjk : j = k
          · rw [hjk]; exact hle
          · exact hWle j hj hjk
        · rcases eq_or_lt_of_le hW0 with h | h
          · exact Or.inl h.symm
          · obtain ⟨j, hj, _, hat⟩ := hkeep h
            exact Or.inr ⟨j, hj, hat⟩
      unfold WidthTracked documentSize
      rw [hmax]
      refine ⟨hwidth, fun h => ?_⟩
      obtain ⟨j, hj, hidx, hat⟩ := hkeep h
      exact ⟨j, hidx, hj, hat⟩

/-! ## Rectangles and sizes kept by the mutators -/

theorem clearBlockLayoutList_rect (bs : List BlockInfo) (k j : Nat) (hjk : j ≠ k) :
    (blockAt (clearBlockLayoutList bs k).1 j).m_rect = (blockAt bs j).m_rect := by
  unfold clearBlockLayoutList
  by_cases hk : k < bs.length
  · rw [if_pos hk]
    unfold clearOffsetFromList
    have hlen : (bs.set k (blockAt bs k).reset).length = bs.length := by simp
    obtain ⟨m, h1, h2, h3, h4⟩ :=
      exists_first_index (fun t => !(blockAt (bs.set k (blockAt bs k).reset) t).hasOffset)
        (k + 1) (bs.set k (blockAt bs k).reset).length (by rw [hlen]; exact hk)
    have key := (clearOffsetLoop_blockAt _ (k + 1) (bs.set k (blockAt bs k).reset) m
      (le_refl _) h1 h2 (by intro t ht1 ht2; simpa using h3 t ht1 ht2)
      (by rcases h4 with h | h
          · exact Or.inl h
          · right; simpa using h)).1 j
    rw [key]
    split
    · show (blockAt (bs.set k (blockAt bs k).reset) j).m_rect = _
      rw [blockAt_set_ne _ hjk]
    · rw [blockAt_set_ne _ hjk]
  · rw [if_neg hk]

theorem finishBlockLayoutList_rect (bs : List BlockInfo) (k : Nat) (br : QRectF)
    (hk : k < bs.length) (j : Nat) :
    (blockAt (finishBlockLayoutList bs k br) j).m_rect
      = if j = k then br else (blockAt bs j).m_rect := by
  obtain ⟨m, h1, h2, h3, h4⟩ :=
    exists_first_index (fun t => (blockAt bs t).m_rect.isNull) (k + 1) bs.length hk
  rw [finishBlockLayoutList_blockAt bs k m br hk h1 h2 (fun t ht1 ht2 => h3 t ht1 ht2) h4 j]
  by_cases e : j = k
  · rw [if_pos e, if_pos e]
  · rw [if_neg e, if_neg e]
    split <;> rfl

theorem updateBlockCount_length (s : Layout) (doc : Document) (st : Int)
    (h : s.m_blocks.length = s.m_blockCount) :
    (updateBlockCount s doc doc.blockCount st).m_blocks.length
      = (updateBlockCount s doc doc.blockCount st).m_blockCount := by
  unfold updateBlockCount
  split
  · simp only []
    split
    · rw [updateBlockCountLoop_length, resize_length]
    · rw [resize_length]
  · exact h

theorem clearRangeLoop_length (c : Change) (fuel : Nat) :
    ∀ (b : Nat) (st : Layout × (Nat → QRectF)),
      (clearRangeLoop c fuel b st).1.m_blocks.length = st.1.m_blocks.length
      ∧ (clearRangeLoop c fuel b st).1.m_blockCount = st.1.m_blockCount := by
  induction fuel with
  | zero => intro b st; exact ⟨rfl, rfl⟩
  | succ fuel ih =>
    intro b st
    unfold clearRangeLoop
    simp only []
    have h1 : (clearBlockLayout st.1 b).m_blocks.length = st.1.m_blocks.length :=
      clearBlockLayoutList_length _ _
    split
    · exact ⟨h1, rfl⟩
    · split
      · obtain ⟨i1, i2⟩ := ih (b + 1) (clearBlockLayout st.1 b, Function.update st.2 b QRectF.null)
        exact ⟨i1.trans h1, i2⟩
      · exact ⟨h1, rfl⟩

theorem layoutRangeLoop_length (c : Change) (fuel : Nat) :
    ∀ (b : Nat) (s : Layout),
      (layoutRangeLoop c fuel b s).m_blocks.length = s.m_blocks.length
      ∧ (layoutRangeLoop c fuel b s).m_blockCount = s.m_blockCount := by
  induction fuel with
  | zero => intro b s; exact ⟨rfl, rfl⟩
  | succ fuel ih =>
    intro b s
    unfold layoutRangeLoop
    simp only []
    have h1 : (finishBlockLayout s b (c.shapedRect b)).m_blocks.length = s.m_blocks.length :=
      finishBlockLayoutList_length _ _ _
    split
    · exact ⟨h1, rfl⟩
    · split
      · obtain ⟨i1, i2⟩ := ih (b + 1) (finishBlockLayout s b (c.shapedRect b))
        exact ⟨i1.trans h1, i2⟩
      · exact ⟨h1, rfl⟩

/-- The shape of `documentChanged`: either it ends in `updateDocumentSize` (on a state
whose vector length still equals `m_blockCount`), or it is the fast path. -/
theorem documentChanged_cases (bw : ℚ → ℚ) (s : Layout) (c : Change) :
    (∃ s1, documentChanged bw s c = updateDocumentSize bw s1
        ∧ (s.m_blocks.length = s.m_blockCount → s1.m_blocks.length = s1.m_blockCount))
    ∨ (c.newBlockCount = s.m_blockCount
        ∧ documentChanged bw s c = updateDocumentSizeWithOneBlockChanged bw
            (finishBlockLayout (clearBlockLayout { s with m_margin := c.margin }
              c.changeStartBlock) c.changeStartBlock (c.shapedRect c.changeStartBlock))
            c.changeStartBlock) := by
  unfold documentChanged
  simp only []
  split
  · rename_i hfast
    split
    · split
      · right
        exact ⟨hfast.2, rfl⟩
      · left
        refine ⟨_, rfl, fun h => ?_⟩
        apply updateBlockCount_length _ ⟨c.newBlockCount, _⟩
        show (finishBlockLayoutList (clearBlockLayoutList s.m_blocks _).1 _ _).length = _
        rw [finishBlockLayoutList_length, clearBlockLayoutList_length]
        exact h
    · left
      exact ⟨_, rfl, fun h => updateBlockCount_length _ ⟨c.newBlockCount, _⟩ _ h⟩
  · left
    refine ⟨_, rfl, fun h => ?_⟩
    rw [(layoutRangeLoop_length c _ _ _).1, (layoutRangeLoop_length c _ _ _).2]
    apply updateBlockCount_length _ ⟨c.newBlockCount, _⟩
    rw [(clearRangeLoop_length c _ _ _).1, (clearRangeLoop_length c _ _ _).2]
    exact h

theorem relayout_rect_ne (s : Layout) (k : Nat) (br : QRectF) (hk : k < s.m_blocks.length)
    (j : Nat) (hjk : j ≠ k) :
    (blockAt (finishBlockLayout (clearBlockLayout s k) k br).m_blocks j).m_rect
      = (blockAt s.m_blocks j).m_rect := by
  show (blockAt (finishBlockLayoutList (clearBlockLayoutList s.m_blocks k).1 k br) j).m_rect = _
  rw [finishBlockLayoutList_rect _ k br (by rw [clearBlockLayoutList_length]; exact hk) j,
    if_neg hjk, clearBlockLayoutList_rect _ k j hjk]

/-- The invariant behind the width tracking: the vector length equals `m_blockCount`,
and a non-empty cache is fully positioned with its width tracked. -/
theorem editReachable_invariant (bw : ℚ → ℚ) (hbw : StrictMono bw) (s : Layout)
    (h : EditReachable bw s) :
    s.m_blocks.length = s.m_blockCount
    ∧ (s.m_blocks ≠ [] → FullyPositioned s ∧ WidthTracked bw s) := by
  induction h with
  | init margin => exact ⟨rfl, fun h => absurd rfl h⟩
  | edit s c _ hstart hfull ih =>
    obtain ⟨ihlen, ihw⟩ := ih
    rcases documentChanged_cases bw s c with ⟨s1, hres, hlen⟩ | ⟨hcount, hres⟩
    · -- the edit ends in a full rescan
      rw [hres] at hfull ⊢
      have hb := updateDocumentSize_blocks bw s1
      refine ⟨by rw [hb, updateDocumentSize_blockCount]; exact hlen ihlen, fun hne => ⟨hfull, ?_⟩⟩
      apply updateDocumentSize_tracked
      have hpos : 0 < s1.m_blocks.length := by
        rw [hb] at hne
        exact List.length_pos.2 hne
      have := hfull (s1.m_blocks.length - 1) (by rw [hb]; omega)
      unfold Positioned at this
      rw [hb] at this
      exact this
    · -- the fast path
      rw [hres] at hfull ⊢
      have hk : c.changeStartBlock < s.m_blocks.length := by omega
      have hne : s.m_blocks ≠ [] := List.length_pos.1 (by omega)
      obtain ⟨_, hw1, hw2⟩ := ihw hne
      have hb := updateDocumentSizeWithOneBlockChanged_blocks bw
        (finishBlockLayout (clearBlockLayout { s with m_margin := c.margin }
          c.changeStartBlock) c.changeStartBlock (c.shapedRect c.changeStartBlock))
        c.changeStartBlock
      have hlen1 : (finishBlockLayout (clearBlockLayout { s with m_margin := c.margin }
          c.changeStartBlock) c.changeStartBlock
          (c.shapedRect c.changeStartBlock)).m_blocks.length = s.m_blocks.length := by
        show (finishBlockLayoutList (clearBlockLayoutList s.m_blocks _).1 _ _).length = _
        rw [finishBlockLayoutList_length, clearBlockLayoutList_length]
      have hcnt : (updateDocumentSizeWithOneBlockChanged bw
          (finishBlockLayout (clearBlockLayout { s with m_margin := c.margin }
            c.changeStartBlock) c.changeStartBlock (c.shapedRect c.changeStartBlock))
          c.changeStartBlock).m_blockCount = s.m_blockCount := by
        unfold updateDocumentSizeWithOneBlockChanged
        simp only []
        split
        · rfl
        · split
          · rw [updateDocumentSize_blockCount]; rfl
          · rfl
      refine ⟨by rw [hb, hlen1, hcnt]; exact ihlen, fun _ => ⟨hfull, ?_⟩⟩
      apply oneBlockChanged_tracked bw hbw _ _ (maxRectWidth s.m_blocks)
      · rw [hlen1]; exact hk
      · have := hfull (s.m_blocks.length - 1) (by rw [hb, hlen1]; omega)
        unfold Positioned at this
        rw [hb] at this
        rw [hlen1]
        exact this
      · exact hw1
      · exact (maxRectWidth_spec _).1
      · intro j hj hjk
        rw [hlen1] at hj
        have := relayout_rect_ne { s with m_margin := c.margin } c.changeStartBlock
          (c.shapedRect c.changeStartBlock) hk j hjk
        rw [this]
        exact (maxRectWidth_spec s.m_blocks).2.1 j hj
      · intro hW
        obtain ⟨j, hidx, hj, hat⟩ := hw2 hW
        refine ⟨j, by rw [hlen1]; exact hj, hidx, fun hjk => ?_⟩
        have := relayout_rect_ne { s with m_margin := c.margin } c.changeStartBlock
          (c.shapedRect c.changeStartBlock) hk j hjk
        rw [this]
        exact hat

/-- What the width tracking does keep: after any sequence of edits
processed by `documentChanged` (fast path or full path) each of which leaves every block
positioned, with `blockWidthInDocument` strictly increasing, `documentSize().width`
equals `blockWidthInDocument` applied to the larger of 0 and the maximum `m_rect.width`
over all blocks, and, when some rectangle has positive width,
`m_maximumWidthBlockNumber` is a valid block index whose rectangle width is that
maximum. -/
theorem width_tracked_of_positive (bw : ℚ → ℚ) (hbw : StrictMono bw) (s : Layout)
    (h : EditReachable bw s) (hne : s.m_blocks ≠ []) :
    (documentSize s).width = bw (maxRectWidth s.m_blocks)
    ∧ (0 < maxRectWidth s.m_blocks →
        ∃ j : Nat, s.m_maximumWidthBlockNumber = (j : Int) ∧ j < s.m_blocks.length
          ∧ (blockAt s.m_blocks j).m_rect.width = maxRectWidth s.m_blocks) :=
  ((editReachable_invariant bw hbw s h).2 hne).2

theorem editReachable_zeroWidth :
    EditReachable (fun w => w + 1)
      (documentChanged (fun w => w + 1) (Layout.init 0) zeroWidthChange) := by
  refine EditReachable.edit _ _ (EditReachable.init 0) (by decide!) ?_
  intro i hi
  have hl : (documentChanged (fun w => w + 1) (Layout.init 0) zeroWidthChange).m_blocks.length
      = 1 := by decide!
  rw [hl] at hi
  unfold Positioned
  interval_cases i
  decide!

/-- **C4 (the code at the failing input).** The first edit of an empty document under the
document margin 0 produces one block 0 wide and 20 high.  Every block is positioned, the
width of the document is `blockWidthInDocument 0`, and block 0 is a block whose
rectangle has the maximal width 0; but `m_maximumWidthBlockNumber` is still the `-1` of
the constructor, which is not a block index: the scan of `updateDocumentSize` starts
from `m_width = 0` and compares with `<`, so a widest block of width 0 is never
recorded. -/
theorem widest_block_index_unset :
    EditReachable (fun w => w + 1)
        (documentChanged (fun w => w + 1) (Layout.init 0) zeroWidthChange)
    ∧ FullyPositioned (documentChanged (fun w => w + 1) (Layout.init 0) zeroWidthChange)
    ∧ (documentChanged (fun w => w + 1) (Layout.init 0) zeroWidthChange).m_blocks.length = 1
    ∧ (documentSize (documentChanged (fun w => w + 1) (Layout.init 0) zeroWidthChange)).width
        = (fun w : ℚ => w + 1) 0
    ∧ (blockAt (documentChanged (fun w => w + 1) (Layout.init 0)
          zeroWidthChange).m_blocks 0).m_rect.width = 0
    ∧ (documentChanged (fun w => w + 1) (Layout.init 0) zeroWidthChange).m_maximumWidthBlockNumber
        = -1
    ∧ ¬ (0 ≤ (documentChanged (fun w => w + 1) (Layout.init 0)
            zeroWidthChange).m_maximumWidthBlockNumber) := by
  refine ⟨editReachable_zeroWidth, ?_, by decide!, by decide!, by decide!, by decide!,
    by decide!⟩
  intro i hi
  have hl : (documentChanged (fun w => w + 1) (Layout.init 0) zeroWidthChange).m_blocks.length
      = 1 := by decide!
  rw [hl] at hi
  unfold Positioned
  interval_cases i
  decide!

/-! ## The full path of documentChanged -/

theorem clearBlockLayoutList_below (bs : List BlockInfo) (k j : Nat) (hjk : j < k) :
    blockAt (clearBlockLayoutList bs k).1 j = blockAt bs j := by
  unfold clearBlockLayoutList
  by_cases hk : k < bs.length
  · rw [if_pos hk]
    unfold clearOffsetFromList
    have hlen : (bs.set k (blockAt bs k).reset).length = bs.length := by simp
    obtain ⟨m, h1, h2, h3, h4⟩ :=
      exists_first_index (fun t => !(blockAt (bs.set k (blockAt bs k).reset) t).hasOffset)
        (k + 1) (bs.set k (blockAt bs k).reset).length (by rw [hlen]; exact hk)
    have key := (clearOffsetLoop_blockAt _ (k + 1) (bs.set k (blockAt bs k).reset) m
      (le_refl _) h1 h2 (by intro t ht1 ht2; simpa using h3 t ht1 ht2)
      (by rcases h4 with h | h
          · exact Or.inl h
          · right; simpa using h)).1 j
    rw [key, if_neg (by omega), blockAt_set_ne _ (by omega)]
  · rw [if_neg hk]

theorem rangeEnd_bounds (c : Change) (hN : c.changeStartBlock < c.newBlockCount) :
    c.changeStartBlock ≤ rangeEnd c ∧ rangeEnd c < c.newBlockCount := by
  unfold rangeEnd
  split
  · split
    · rename_i h; exact h
    · omega
  · omega

/-- Both loops of the full path stop exactly after the block `rangeEnd`. -/
theorem rangeEnd_stop (c : Change) (b : Nat) (hkb : c.changeStartBlock ≤ b)
    (_hbE : b ≤ rangeEnd c) (hE : rangeEnd c < c.newBlockCount) :
    (b = rangeEnd c → (c.changeEndBlock = some b ∨ ¬ b + 1 < c.newBlockCount))
    ∧ (b < rangeEnd c → ¬ c.changeEndBlock = some b ∧ b + 1 < c.newBlockCount) := by
  unfold rangeEnd at hE ⊢
  cases he : c.changeEndBlock with
  | none =>
    rw [he] at hE
    simp only at hE ⊢
    exact ⟨fun h => Or.inr (by omega), fun h => ⟨by simp, by omega⟩⟩
  | some e =>
    rw [he] at hE
    simp only at hE ⊢
    by_cases hin : c.changeStartBlock ≤ e ∧ e < c.newBlockCount
    · rw [if_pos hin] at hE ⊢
      refine ⟨fun h => Or.inl (by rw [h]), fun h => ⟨?_, by omega⟩⟩
      intro h'
      have := Option.some.inj h'
      omega
    · rw [if_neg hin] at hE ⊢
      refine ⟨fun h => Or.inr (by omega), fun h => ⟨?_, by omega⟩⟩
      intro h'
      have := Option.some.inj h'
      omega

/-- The first loop leaves the blocks before the range as they are and clears exactly the
text layouts of the blocks of the range. -/
theorem clearRangeLoop_spec (c : Change) (hE : rangeEnd c < c.newBlockCount) (fuel : Nat) :
    ∀ (b : Nat) (st : Layout × (Nat → QRectF)),
      c.newBlockCount - b ≤ fuel → c.changeStartBlock ≤ b → b ≤ rangeEnd c →
      (∀ j, j < b → blockAt (clearRangeLoop c fuel b st).1.m_blocks j = blockAt st.1.m_blocks j)
      ∧ (∀ j, (clearRangeLoop c fuel b st).2 j =
          if b ≤ j ∧ j ≤ rangeEnd c then QRectF.null else st.2 j) := by
  induction fuel with
  | zero => intro b st hf hkb hbE; omega
  | succ fuel ih =>
    intro b st hf hkb hbE
    unfold clearRangeLoop
    simp only []
    obtain ⟨hs1, hs2⟩ := rangeEnd_stop c b hkb hbE hE
    have hbelow : ∀ j, j < b → blockAt (clearBlockLayout st.1 b).m_blocks j
        = blockAt st.1.m_blocks j :=
      fun j hj => clearBlockLayoutList_below _ b j hj
    have hupd : ∀ j, Function.update st.2 b QRectF.null j
        = if b ≤ j ∧ j ≤ b then QRectF.null else st.2 j := by
      intro j
      by_cases hjb : j = b
      · rw [hjb, Function.update_same, if_pos ⟨le_refl _, le_refl _⟩]
      · rw [Function.update_noteq hjb, if_neg (by omega)]
    rcases Nat.eq_or_lt_of_le hbE with e | e
    · -- the last block of the range
      have hstop := hs1 e
      have hfin : (if c.changeEndBlock = some b then
            (clearBlockLayout st.1 b, Function.update st.2 b QRectF.null)
          else if b + 1 < c.newBlockCount then
            clearRangeLoop c fuel (b + 1)
              (clearBlockLayout st.1 b, Function.update st.2 b QRectF.null)
          else (clearBlockLayout st.1 b, Function.update st.2 b QRectF.null))
          = (clearBlockLayout st.1 b, Function.update st.2 b QRectF.null) := by
        by_cases h1 : c.changeEndBlock = some b
        · rw [if_pos h1]
        · rw [if_neg h1]
          rcases hstop with h | h
          · exact absurd h h1
          · rw [if_neg h]
      rw [hfin]
      refine ⟨hbelow, fun j => ?_⟩
      simp only
      rw [hupd j, ← e]
    · obtain ⟨h1, h2⟩ := hs2 e
      rw [if_neg h1, if_pos h2]
      obtain ⟨i1, i2⟩ := ih (b + 1) (clearBlockLayout st.1 b, Function.update st.2 b QRectF.null)
        (by omega) (by omega) (by omega)
      refine ⟨fun j hj => ?_, fun j => ?_⟩
      · rw [i1 j (by omega)]
        exact hbelow j hj
      · rw [i2 j]
        simp only
        by_cases hj : b + 1 ≤ j ∧ j ≤ rangeEnd c
        · rw [if_pos hj, if_pos ⟨by omega, hj.2⟩]
        · rw [if_neg hj, hupd j]
          by_cases hjb : j = b
          · rw [if_pos (by omega), if_pos (by omega)]
          · rw [if_neg (by omega), if_neg (by omega)]

/-- After `finishBlockLayout` with a non-null rectangle, in a cache whose blocks before
`num` are positioned and where every block that has a successor (block `num` with its
new rectangle included) has a non-negative height, every block before the index where
`fillOffsetFrom` stops is positioned. -/
theorem finishBlockLayoutList_positioned (bs : List BlockInfo) (num m : Nat) (br : QRectF)
    (hnum : num < bs.length) (hkm : num < m) (hm : m ≤ bs.length)
    (hnn : ∀ t, num < t → t < m → (blockAt bs t).m_rect.isNull = false)
    (hstop : m = bs.length ∨ (blockAt bs m).m_rect.isNull = true)
    (hbr : br.isNull = false) (hbrh : num + 1 < bs.length → 0 ≤ br.height)
    (hh : ∀ j, j + 1 < bs.length → 0 ≤ (blockAt bs j).m_rect.height)
    (hprev : ∀ i, i < num → (blockAt bs i).hasOffset = true) :
    ∀ i, i < m → (blockAt (finishBlockLayoutList bs num br) i).hasOffset = true := by
  have key := finishBlockLayoutList_blockAt bs num m br hnum hkm hm hnn hstop
  have hoff : -1 < finishOffset bs num := by
    unfold finishOffset
    by_cases h0 : num = 0
    · rw [if_pos h0]; norm_num
    · have hp := hprev (num - 1) (by omega)
      rw [if_neg h0, if_pos hp]
      have h1 := ((hasOffset_iff _).1 hp).1
      have h2 := hh (num - 1) (by omega)
      show -1 < (blockAt bs (num - 1)).m_offset + (blockAt bs (num - 1)).m_rect.height
      linarith
  have hp : (BlockInfo.mk (finishOffset bs num) br).hasOffset = true :=
    (hasOffset_iff _).2 ⟨hoff, hbr⟩
  intro i hi
  rw [key i]
  by_cases e1 : i = num
  · rw [if_pos e1]; exact hp
  · rw [if_neg e1]
    by_cases e2 : num < i
    · rw [if_pos ⟨hp, e2, hi⟩, hasOffset_iff]
      refine ⟨?_, hnn i e2 hi⟩
      have hs : 0 ≤ ∑ t ∈ Finset.Ico (num + 1) i, (blockAt bs t).m_rect.height :=
        Finset.sum_nonneg (fun t ht => hh t (by
          have := (Finset.mem_Ico.1 ht).2
          omega))
      have hb0 := hbrh (by omega)
      show -1 < finishOffset bs num + br.height + _
      linarith
    · rw [if_neg (by tauto)]
      exact hprev i (by omega)

theorem finishBlockLayoutList_first (bs : List BlockInfo) (num : Nat) (br : QRectF)
    (hnum : num < bs.length)
    (h0 : (blockAt bs 0).hasOffset = true → (blockAt bs 0).m_offset = 0) :
    (blockAt (finishBlockLayoutList bs num br) 0).hasOffset = true →
      (blockAt (finishBlockLayoutList bs num br) 0).m_offset = 0 := by
  obtain ⟨m, h1, h2, h3, h4⟩ :=
    exists_first_index (fun t => (blockAt bs t).m_rect.isNull) (num + 1) bs.length hnum
  have key := finishBlockLayoutList_blockAt bs num m br hnum h1 h2
    (fun t ht1 ht2 => h3 t ht1 ht2) h4 0
  intro hi
  rw [key] at hi ⊢
  by_cases e : 0 = num
  · rw [if_pos e]
    show finishOffset bs num = 0
    unfold finishOffset
    rw [if_pos e.symm]
  · rw [if_neg e, if_neg (by omega)] at hi ⊢
    exact h0 hi

/-- The second loop of the full path: when the blocks before `b` are positioned, the
blocks of the rest of the range have no rectangle yet and the blocks behind the range
hold a rectangle, it leaves every block positioned (and keeps contiguity and the first
offset). -/
theorem layoutRangeLoop_spec (c : Change) (hE : rangeEnd c < c.newBlockCount)
    (hshaped : ∀ b, c.changeStartBlock ≤ b → b ≤ rangeEnd c →
      (c.shapedRect b).isNull = false
        ∧ (b + 1 < c.newBlockCount → 0 ≤ (c.shapedRect b).height))
    (fuel : Nat) :
    ∀ (b : Nat) (s : Layout),
      c.newBlockCount - b ≤ fuel → c.changeStartBlock ≤ b → b ≤ rangeEnd c →
      s.m_blocks.length = c.newBlockCount →
      (∀ j, j < b → (blockAt s.m_blocks j).hasOffset = true) →
      (∀ j, b ≤ j → j ≤ rangeEnd c → (blockAt s.m_blocks j).m_rect.isNull = true) →
      (∀ j, rangeEnd c < j → j < c.newBlockCount → (blockAt s.m_blocks j).m_rect.isNull = false) →
      (∀ j, j + 1 < c.newBlockCount → 0 ≤ (blockAt s.m_blocks j).m_rect.height) →
      Contiguous s →
      ((blockAt s.m_blocks 0).hasOffset = true → (blockAt s.m_blocks 0).m_offset = 0) →
      FullyPositioned (layoutRangeLoop c fuel b s)
      ∧ Contiguous (layoutRangeLoop c fuel b s)
      ∧ ((blockAt (layoutRangeLoop c fuel b s).m_blocks 0).hasOffset = true →
          (blockAt (layoutRangeLoop c fuel b s).m_blocks 0).m_offset = 0) := by
  induction fuel with
  | zero => intro b s hf hkb hbE; omega
  | succ fuel ih =>
    intro b s hf hkb hbE hlen hprev hnull hheld hh hc h0
    unfold layoutRangeLoop
    simp only []
    obtain ⟨hs1, hs2⟩ := rangeEnd_stop c b hkb hbE hE
    have hb : b < s.m_blocks.length := by omega
    obtain ⟨hsn, hsh⟩ := hshaped b hkb hbE
    -- facts about the state after finishBlockLayout(b)
    have hlen' : (finishBlockLayout s b (c.shapedRect b)).m_blocks.length = c.newBlockCount := by
      show (finishBlockLayoutList s.m_blocks b (c.shapedRect b)).length = _
      rw [finishBlockLayoutList_length]; exact hlen
    have hrect : ∀ j, (blockAt (finishBlockLayout s b (c.shapedRect b)).m_blocks j).m_rect
        = if j = b then c.shapedRect b else (blockAt s.m_blocks j).m_rect :=
      fun j => finishBlockLayoutList_rect s.m_blocks b (c.shapedRect b) hb j
    have hh' : ∀ j, j + 1 < c.newBlockCount →
        0 ≤ (blockAt (finishBlockLayout s b (c.shapedRect b)).m_blocks j).m_rect.height := by
      intro j hj
      rw [hrect j]
      split
      · rename_i hjb
        exact hsh (by rw [← hjb]; exact hj)
      · exact hh j hj
    have hshL : b + 1 < s.m_blocks.length → 0 ≤ (c.shapedRect b).height := by
      rw [hlen]; exact hsh
    have hhL : ∀ j, j + 1 < s.m_blocks.length → 0 ≤ (blockAt s.m_blocks j).m_rect.height := by
      rw [hlen]; exact hh
    have hc' : Contiguous (finishBlockLayout s b (c.shapedRect b)) :=
      finishBlockLayoutList_contiguous s.m_blocks b (c.shapedRect b) hb hc
    have h0' : (blockAt (finishBlockLayout s b (c.shapedRect b)).m_blocks 0).hasOffset = true →
        (blockAt (finishBlockLayout s b (c.shapedRect b)).m_blocks 0).m_offset = 0 :=
      finishBlockLayoutList_first s.m_blocks b (c.shapedRect b) hb h0
    rcases Nat.eq_or_lt_of_le hbE with e | e
    · -- the last block of the range: fillOffsetFrom runs to the end of the vector
      have hstop := hs1 e
      have hfin : (if c.changeEndBlock = some b then finishBlockLayout s b (c.shapedRect b)
          else if b + 1 < c.newBlockCount then
            layoutRangeLoop c fuel (b + 1) (finishBlockLayout s b (c.shapedRect b))
          else finishBlockLayout s b (c.shapedRect b))
          = finishBlockLayout s b (c.shapedRect b) := by
        by_cases h1 : c.changeEndBlock = some b
        · rw [if_pos h1]
        · rw [if_neg h1]
          rcases hstop with h | h
          · exact absurd h h1
          · rw [if_neg h]
      rw [hfin]
      refine ⟨?_, hc', h0'⟩
      intro i hi
      rw [hlen'] at hi
      exact finishBlockLayoutList_positioned s.m_blocks b s.m_blocks.length (c.shapedRect b)
        hb hb (le_refl _)
        (fun t ht1 ht2 => hheld t (by omega) (by omega)) (Or.inl rfl) hsn hshL hhL hprev i
        (by omega)
    · -- an inner block of the range: fillOffsetFrom stops at b + 1
      obtain ⟨h1, h2⟩ := hs2 e
      rw [if_neg h1, if_pos h2]
      apply ih (b + 1) _ (by omega) (by omega) (by omega) hlen'
      · intro j hj
        exact finishBlockLayoutList_positioned s.m_blocks b (b + 1) (c.shapedRect b)
          hb (by omega) (by omega) (fun t ht1 ht2 => by omega)
          (Or.inr (hnull (b + 1) (by omega) (by omega))) hsn hshL hhL hprev j hj
      · intro j hj1 hj2
        rw [hrect j, if_neg (by omega)]
        exact hnull j (by omega) hj2
      · intro j hj1 hj2
        rw [hrect j, if_neg (by omega)]
        exact hheld j hj1 hj2
      · exact hh'
      · exact hc'
      · exact h0'

theorem reachable_length (ok : QRectF → Prop) (s : Layout) (h : Reachable ok s) :
    s.m_blocks.length = s.m_blockCount := by
  induction h with
  | init margin => rfl
  | updateBlockCount s doc st _ ih => exact updateBlockCount_length s doc st ih
  | clearBlockLayout s num _ ih =>
    show (clearBlockLayoutList s.m_blocks num).1.length = _
    rw [clearBlockLayoutList_length]; exact ih
  | finishBlockLayout s num br _ _ _ ih =>
    show (finishBlockLayoutList s.m_blocks num br).length = _
    rw [finishBlockLayoutList_length]; exact ih
  | frame s s' _ hb hc ih => rw [hb, hc]; exact ih

theorem prepopulated_rect (br : QRectF) : (prepopulated br).m_rect.isNull = br.isNull := by
  unfold prepopulated
  cases h : br.isNull
  · simp [h]
  · simp [BlockInfo.fresh, QRectF.null, QRectF.isNull]

theorem prepopulated_height (br : QRectF) (h : 0 ≤ br.height) :
    0 ≤ (prepopulated br).m_rect.height := by
  unfold prepopulated
  split
  · exact h
  · show (0 : ℚ) ≤ 0
    exact le_refl _

/-- **C6.** Full-path reconciliation after a block-count change: starting from a fully
positioned contiguous cache (a state the engine can reach) in which every block outside
`[changeStartBlock, changeEndBlock]` still holds a shaping result with at least one line
(the blocks before the range are positioned blocks of the cache, the blocks behind it
hold a non-null rectangle), after `documentChanged` has run `clearBlockLayout` over the
range, `updateBlockCount(newBlockCount, changeStartBlock)`, `layoutBlock` over the range
and `updateDocumentSize`, the cache has exactly `newBlockCount` entries, every block is
positioned, block 0 has offset 0, `bottom(i)` equals `top(i + 1)` for every adjacent
pair, and the document height equals the bottom of the last block.  `changeStartBlock`
is a valid block of the document; `layoutBlock` gives every block of the range a
non-null rectangle (`Q_ASSERT(!info.m_rect.isNull())` in `finishBlockLayout`); and the
rectangles are the ones `blockRectFromTextLayout` builds: the document margin, which may
be negative, is added to the height of the last block only (lines 526-529), so the
rectangle of every block that has a successor in the document has a non-negative
height (`blockRectFromTextLayout_height`). -/
theorem full_path_reconciliation (bw : ℚ → ℚ) (ok : QRectF → Prop) (s : Layout) (c : Change)
    (hr : Reachable ok s) (hpos : FullyPositioned s) (hc : Contiguous s)
    (hcount : c.newBlockCount ≠ s.m_blockCount)
    (hN : c.changeStartBlock < c.newBlockCount)
    (hbefore : ∀ b, b < c.changeStartBlock → Positioned s b)
    (hheld : ∀ b, rangeEnd c < b → b < c.newBlockCount → (c.heldRect b).isNull = false)
    (hshaped : ∀ b, c.changeStartBlock ≤ b → b ≤ rangeEnd c → (c.shapedRect b).isNull = false)
    (hh1 : ∀ j, j < c.changeStartBlock → 0 ≤ (blockAt s.m_blocks j).m_rect.height)
    (hh2 : ∀ b, rangeEnd c < b → b + 1 < c.newBlockCount → 0 ≤ (c.heldRect b).height)
    (hh3 : ∀ b, c.changeStartBlock ≤ b → b ≤ rangeEnd c → b + 1 < c.newBlockCount →
      0 ≤ (c.shapedRect b).height) :
    (documentChanged bw s c).m_blocks.length = c.newBlockCount
    ∧ FullyPositioned (documentChanged bw s c)
    ∧ (blockAt (documentChanged bw s c).m_blocks 0).m_offset = 0
    ∧ (∀ i, i + 1 < (documentChanged bw s c).m_blocks.length →
        (blockAt (documentChanged bw s c).m_blocks i).bottom
          = (blockAt (documentChanged bw s c).m_blocks (i + 1)).top)
    ∧ (documentSize (documentChanged bw s c)).height
        = (blockAt (documentChanged bw s c).m_blocks (c.newBlockCount - 1)).bottom := by
  obtain ⟨hkE, hE⟩ := rangeEnd_bounds c hN
  have hlen0 := reachable_length ok s hr
  have h0 := reachable_first_offset ok s hr
  have hk : c.changeStartBlock ≤ s.m_blocks.length := by
    by_contra hlt
    have := hasOffset_lt_length (hbefore s.m_blocks.length (by omega))
    omega
  -- the state after the first loop
  have hcl := clearRangeLoop_spec c hE (c.newBlockCount - c.changeStartBlock)
    c.changeStartBlock ({ s with m_margin := c.margin }, c.heldRect) (le_refl _) (le_refl _) hkE
  have hcllen := clearRangeLoop_length c (c.newBlockCount - c.changeStartBlock)
    c.changeStartBlock ({ s with m_margin := c.margin }, c.heldRect)
  -- the state after updateBlockCount
  have hupd : ∀ j, blockAt (updateBlockCount
      (clearRangeLoop c (c.newBlockCount - c.changeStartBlock) c.changeStartBlock
        ({ s with m_margin := c.margin }, c.heldRect)).1
      ⟨c.newBlockCount, (clearRangeLoop c (c.newBlockCount - c.changeStartBlock)
        c.changeStartBlock ({ s with m_margin := c.margin }, c.heldRect)).2⟩
      c.newBlockCount c.changeStartBlock).m_blocks j =
      if j < c.changeStartBlock then blockAt s.m_blocks j
      else if j < c.newBlockCount then
        prepopulated (if j ≤ rangeEnd c then QRectF.null else c.heldRect j)
      else BlockInfo.fresh := by
    intro j
    unfold updateBlockCount
    rw [if_pos (by rw [hcllen.2]; exact fun h => hcount h.symm)]
    simp only [Int.toNat_ofNat, Nat.cast_nonneg, if_true]
    rw [updateBlockCountLoop_blockAt _ _ _ _ (le_refl _) j, resize_length, blockAt_resize]
    simp only []
    by_cases hj1 : j < c.changeStartBlock
    · rw [if_neg (by omega), if_pos (by omega), if_pos hj1, hcl.1 j hj1]
    · rw [if_neg hj1]
      by_cases hj2 : j < c.newBlockCount
      · rw [if_pos ⟨by omega, hj2, hj2⟩, if_pos hj2, hcl.2 j]
        by_cases hj3 : j ≤ rangeEnd c
        · rw [if_pos ⟨by omega, hj3⟩, if_pos hj3]
        · rw [if_neg (by omega), if_neg hj3]
      · rw [if_neg (by omega), if_neg hj2, if_neg hj2]
  have hupdlen : (updateBlockCount
      (clearRangeLoop c (c.newBlockCount - c.changeStartBlock) c.changeStartBlock
        ({ s with m_margin := c.margin }, c.heldRect)).1
      ⟨c.newBlockCount, (clearRangeLoop c (c.newBlockCount - c.changeStartBlock)
        c.changeStartBlock ({ s with m_margin := c.margin }, c.heldRect)).2⟩
      c.newBlockCount c.changeStartBlock).m_blocks.length = c.newBlockCount := by
    unfold updateBlockCount
    rw [if_pos (by rw [hcllen.2]; exact fun h => hcount h.symm)]
    simp only [Int.toNat_ofNat, Nat.cast_nonneg, if_true]
    rw [updateBlockCountLoop_length, resize_length]
  -- the second loop
  have hloop := layoutRangeLoop_spec c hE (fun b h1 h2 => ⟨hshaped b h1 h2, hh3 b h1 h2⟩)
    (c.newBlockCount - c.changeStartBlock) c.changeStartBlock _ (le_refl _) (le_refl _) hkE
    hupdlen
    (by
      intro j hj
      rw [hupd j, if_pos hj]
      exact hpos j (by omega))
    (by
      intro j hj1 hj2
      rw [hupd j, if_neg (by omega), if_pos (by omega), if_pos hj2]
      rfl)
    (by
      intro j hj1 hj2
      rw [hupd j, if_neg (by omega), if_pos hj2, if_neg (by omega), prepopulated_rect]
      exact hheld j hj1 hj2)
    (by
      intro j hjN
      rw [hupd j]
      split
      · rename_i hjk
        exact hh1 j hjk
      · split
        · apply prepopulated_height
          split
          · show (0 : ℚ) ≤ 0
            exact le_refl _
          · rename_i hjE
            exact hh2 j (by omega) hjN
        · show (0 : ℚ) ≤ 0
          exact le_refl _)
    (by
      intro i hi hi1
      unfold Positioned at hi hi1
      rw [hupd] at hi hi1 ⊢
      rw [hupd]
      have hlt : i + 1 < c.changeStartBlock := by
        by_contra hge
        rw [if_neg hge] at hi1
        split at hi1
        · rw [prepopulated_not_hasOffset] at hi1; exact Bool.noConfusion hi1
        · rw [fresh_not_hasOffset] at hi1; exact Bool.noConfusion hi1
      rw [if_pos (by omega)] at hi ⊢
      rw [if_pos hlt] at hi1 ⊢
      exact hc i hi hi1)
    (by
      intro hi
      rw [hupd] at hi ⊢
      by_cases hlt : 0 < c.changeStartBlock
      · rw [if_pos hlt] at hi ⊢
        exact h0 hi
      · rw [if_neg hlt] at hi
        split at hi
        · rw [prepopulated_not_hasOffset] at hi; exact Bool.noConfusion hi
        · rw [fresh_not_hasOffset] at hi; exact Bool.noConfusion hi)
  obtain ⟨hfull, hcont, hfirst⟩ := hloop
  -- documentChanged takes the full path
  have hres : documentChanged bw s c = updateDocumentSize bw
      (layoutRangeLoop c (c.newBlockCount - c.changeStartBlock) c.changeStartBlock
        (updateBlockCount
          (clearRangeLoop c (c.newBlockCount - c.changeStartBlock) c.changeStartBlock
            ({ s with m_margin := c.margin }, c.heldRect)).1
          ⟨c.newBlockCount, (clearRangeLoop c (c.newBlockCount - c.changeStartBlock)
            c.changeStartBlock ({ s with m_margin := c.margin }, c.heldRect)).2⟩
          c.newBlockCount c.changeStartBlock)) := by
    unfold documentChanged
    simp only []
    rw [if_neg (by
      rintro ⟨_, h⟩
      exact hcount h)]
  have hlenF := (layoutRangeLoop_length c (c.newBlockCount - c.changeStartBlock)
    c.changeStartBlock (updateBlockCount
      (clearRangeLoop c (c.newBlockCount - c.changeStartBlock) c.changeStartBlock
        ({ s with m_margin := c.margin }, c.heldRect)).1
      ⟨c.newBlockCount, (clearRangeLoop c (c.newBlockCount - c.changeStartBlock)
        c.changeStartBlock ({ s with m_margin := c.margin }, c.heldRect)).2⟩
      c.newBlockCount c.changeStartBlock)).1
  rw [hupdlen] at hlenF
  rw [hres]
  have hb := updateDocumentSize_blocks bw
    (layoutRangeLoop c (c.newBlockCount - c.changeStartBlock) c.changeStartBlock
      (updateBlockCount
        (clearRangeLoop c (c.newBlockCount - c.changeStartBlock) c.changeStartBlock
          ({ s with m_margin := c.margin }, c.heldRect)).1
        ⟨c.newBlockCount, (clearRangeLoop c (c.newBlockCount - c.changeStartBlock)
          c.changeStartBlock ({ s with m_margin := c.margin }, c.heldRect)).2⟩
        c.newBlockCount c.changeStartBlock))
  have hlastpos := hfull (c.newBlockCount - 1) (by rw [hlenF]; omega)
  unfold Positioned at hlastpos
  refine ⟨by rw [hb]; exact hlenF, ?_, ?_, ?_, ?_⟩
  · intro i hi
    rw [hb] at hi
    unfold Positioned
    rw [hb]
    exact hfull i hi
  · rw [hb]
    exact hfirst (hfull 0 (by rw [hlenF]; omega))
  · intro i hi
    rw [hb] at hi ⊢
    exact hcont i (hfull i (by omega)) (hfull (i + 1) hi)
  · rw [hb]
    show (updateDocumentSize bw _).m_height = _
    rw [(updateDocumentSize_size bw _ (by rw [hlenF]; exact hlastpos)).1, hlenF]

theorem threeBlocks_heights : ∀ j, 0 ≤ (blockAt threeBlocks.m_blocks j).m_rect.height := by
  intro j
  by_cases hj : j < 3
  · interval_cases j <;> decide!
  · rw [blockAt_of_le (by
      have : threeBlocks.m_blocks.length = 3 := by decide!
      omega)]
    decide!

/-- Witness of C6 (end-to-end scenario C): in the three-block example the newline between
blocks 0 and 1 is deleted; with a merged block 10 high the full path leaves two blocks
and a document of height 20, and under the document margin -25, which makes the last
block -5 high, it leaves two positioned blocks and a document as high as the bottom of
the last block. -/
theorem full_path_reconciliation_witness :
    (documentChanged (fun w => w + 1) threeBlocks mergeChangeOk).m_blocks.length = 2
    ∧ (documentSize (documentChanged (fun w => w + 1) threeBlocks mergeChangeOk)).height
        = (blockAt (documentChanged (fun w => w + 1) threeBlocks mergeChangeOk).m_blocks 1).bottom
    ∧ FullyPositioned (documentChanged (fun w => w + 1) threeBlocks mergeChangeNegativeMargin)
    ∧ (documentSize (documentChanged (fun w => w + 1) threeBlocks
          mergeChangeNegativeMargin)).height
        = (blockAt (documentChanged (fun w => w + 1) threeBlocks
            mergeChangeNegativeMargin).m_blocks 1).bottom := by
  have h := full_path_reconciliation (fun w => w + 1) _ threeBlocks mergeChangeOk
    reachable_threeBlocks fullyPositioned_threeBlocks
    (reachable_contiguous _ _ reachable_threeBlocks)
    (by decide!) (by decide!)
    (fun b hb => absurd hb (Nat.not_lt_zero b))
    (fun _ _ _ => by show (QRectF.mk 0 0 1 10).isNull = false; decide!)
    (fun _ _ _ => by show (QRectF.mk 0 0 2 10).isNull = false; decide!)
    (fun j _ => threeBlocks_heights j)
    (fun _ _ _ => by show (0 : ℚ) ≤ (QRectF.mk 0 0 1 10).height; decide!)
    (fun _ _ _ _ => by show (0 : ℚ) ≤ (QRectF.mk 0 0 2 10).height; decide!)
  have hE : rangeEnd mergeChangeNegativeMargin = 0 := by decide!
  have h2 := full_path_reconciliation (fun w => w + 1) _ threeBlocks mergeChangeNegativeMargin
    reachable_threeBlocks fullyPositioned_threeBlocks
    (reachable_contiguous _ _ reachable_threeBlocks)
    (by decide!) (by decide!)
    (fun b hb => absurd hb (Nat.not_lt_zero b))
    (fun _ _ _ => by show (QRectF.mk 0 0 1 (-5)).isNull = false; decide!)
    (fun _ _ _ => by show (QRectF.mk 0 0 1 20).isNull = false; decide!)
    (fun j _ => threeBlocks_heights j)
    (fun b hb1 hb2 => by
      rw [hE] at hb1
      have hn : mergeChangeNegativeMargin.newBlockCount = 2 := rfl
      rw [hn] at hb2
      omega)
    (fun _ _ _ _ => by show (0 : ℚ) ≤ (QRectF.mk 0 0 1 20).height; decide!)
  exact ⟨h.1, h.2.2.2.2, h2.2.1, h2.2.2.2.2⟩

/-- The range query at integer coordinates that stay in the range of `int`: the returned
range holds exactly the blocks whose closed extent meets `[y, y + h]`. -/
theorem blockRangeFromRect_integral (s : Layout) (p_rect : QRectF) (yi hi : Int)
    (hpos : FullyPositioned s) (hc : Contiguous s)
    (hh : ∀ j, 0 ≤ (blockAt s.m_blocks j).m_rect.height)
    (hnn : p_rect.isNull = false)
    (hy : p_rect.y = (yi : ℚ)) (hhi : p_rect.height = (hi : ℚ)) (hh0 : 0 ≤ hi)
    (htop : (blockAt s.m_blocks 0).top ≤ p_rect.y) (hfit : yi + hi ≤ intMax) :
    (∀ b : Nat, b < s.m_blocks.length →
      (((blockRangeFromRect s p_rect).1 ≤ (b : Int) ∧ (b : Int) ≤ (blockRangeFromRect s p_rect).2)
        ↔ ((blockAt s.m_blocks b).top ≤ p_rect.y + p_rect.height
            ∧ p_rect.y ≤ (blockAt s.m_blocks b).bottom)))
    ∧ (blockRangeFromRect s p_rect = (-1, -1) ↔
        ¬ ∃ b, b < s.m_blocks.length ∧ (blockAt s.m_blocks b).top ≤ p_rect.y + p_rect.height
          ∧ p_rect.y ≤ (blockAt s.m_blocks b).bottom) := by
  have hrh : 0 ≤ p_rect.height := by rw [hhi]; exact_mod_cast hh0
  have hyi : intMin ≤ yi := by
    have h0 : (-1 : ℚ) ≤ (blockAt s.m_blocks 0).top := by
      by_cases hl : 0 < s.m_blocks.length
      · exact le_of_lt ((hasOffset_iff _).1 (hpos 0 hl)).1
      · have hnil : s.m_blocks = [] := List.length_eq_zero.1 (by omega)
        rw [hnil]
        exact le_refl _
    have h1 : ((-1 : Int) : ℚ) ≤ (yi : ℚ) := by
      rw [← hy]; push_cast; linarith
    have h2 : (-1 : Int) ≤ yi := by exact_mod_cast h1
    unfold intMin; omega
  have hyi2 : yi ≤ intMax := by omega
  have hsum : intMin ≤ yi + hi := by omega
  have hY : ((truncToInt p_rect.y : Int) : ℚ) = p_rect.y := by
    rw [hy, truncToInt_intCast yi hyi hyi2]
  have hcast : (yi : ℚ) + (hi : ℚ) = ((yi + hi : Int) : ℚ) := by push_cast; rfl
  have hY2 : ((truncToInt (((truncToInt p_rect.y : Int) : ℚ) + p_rect.height) : Int) : ℚ)
      = p_rect.y + p_rect.height := by
    rw [hy, hhi, truncToInt_intCast yi hyi hyi2, hcast, truncToInt_intCast _ hsum hfit]
  have hlt : ((truncToInt p_rect.y : Int) : ℚ) + p_rect.height < 2147483648 := by
    rw [hY, hy, hhi, hcast]
    have h3 : yi + hi < 2147483648 := by unfold intMax at hfit; omega
    exact_mod_cast h3
  have gen := blockRangeFromRect_truncated s p_rect hpos hc hh hnn hrh hlt
  rw [hY2, hY] at gen
  obtain ⟨g1, g2⟩ := gen
  -- a block whose closed extent meets [y, y + h] gives a block with top ≤ y ≤ bottom
  have hex : (∃ b, b < s.m_blocks.length ∧ (blockAt s.m_blocks b).top ≤ p_rect.y + p_rect.height
        ∧ p_rect.y ≤ (blockAt s.m_blocks b).bottom)
      → ∃ b, b < s.m_blocks.length ∧ (blockAt s.m_blocks b).top ≤ p_rect.y
        ∧ p_rect.y ≤ (blockAt s.m_blocks b).bottom := by
    rintro ⟨b, hb, _, hb2⟩
    have hP : ∃ t, t < s.m_blocks.length ∧ p_rect.y ≤ (blockAt s.m_blocks t).bottom :=
      ⟨b, hb, hb2⟩
    obtain ⟨ht1, ht2⟩ := Nat.find_spec hP
    refine ⟨Nat.find hP, ht1, ?_, ht2⟩
    by_cases h0 : Nat.find hP = 0
    · rw [h0]; exact htop
    · have hmin := Nat.find_min hP (by omega : Nat.find hP - 1 < Nat.find hP)
      have hlt : (blockAt s.m_blocks (Nat.find hP - 1)).bottom < p_rect.y := by
        by_contra hge
        exact hmin ⟨by omega, not_lt.1 hge⟩
      have hcb := hc (Nat.find hP - 1) (hpos _ (by omega))
        (by rw [Nat.sub_add_cancel (by omega : 1 ≤ Nat.find hP)]; exact hpos _ ht1)
      rw [Nat.sub_add_cancel (by omega : 1 ≤ Nat.find hP)] at hcb
      rw [← hcb]
      exact le_of_lt hlt
  have hnone : blockRangeFromRect s p_rect = (-1, -1) ↔
      ¬ ∃ b, b < s.m_blocks.length ∧ (blockAt s.m_blocks b).top ≤ p_rect.y + p_rect.height
        ∧ p_rect.y ≤ (blockAt s.m_blocks b).bottom := by
    rw [g1]
    constructor
    · intro h hmeet
      exact h (hex hmeet)
    · rintro h ⟨b, hb, hb1, hb2⟩
      exact h ⟨b, hb, by linarith, hb2⟩
  refine ⟨fun b hb => ?_, hnone⟩
  by_cases hres : blockRangeFromRect s p_rect = (-1, -1)
  · have hno := hnone.1 hres
    rw [hres]
    constructor
    · rintro ⟨_, h2⟩
      simp only at h2
      omega
    · intro h
      exact absurd ⟨b, hb, h.1, h.2⟩ hno
  · exact g2 hres b hb

/-- **C5 (amended).** For every fully positioned contiguous cache whose rectangles have
non-negative heights and every non-null query rectangle whose top `y` and height
`h >= 0` are integers, with `y` not above the top of block 0 and `y + h` at most
`INT_MAX` (2147483647): `blockRangeFromRect`
returns `(first, last)` such that a block `b` satisfies `first <= b <= last` exactly
when its closed vertical extent `[top(b), bottom(b)]` meets the closed interval
`[y, y + h]` (that is, `top(b) <= y + h` and `y <= bottom(b)`), and it returns
`(-1, -1)` exactly when no block's closed extent meets that interval. -/
theorem blockRangeFromRect_closed_extents (s : Layout) (p_rect : QRectF) (yi hi : Int)
    (hpos : FullyPositioned s) (hc : Contiguous s)
    (hh : ∀ j, 0 ≤ (blockAt s.m_blocks j).m_rect.height)
    (hnn : p_rect.isNull = false)
    (hy : p_rect.y = (yi : ℚ)) (hhi : p_rect.height = (hi : ℚ)) (hh0 : 0 ≤ hi)
    (htop : (blockAt s.m_blocks 0).top ≤ p_rect.y) (hfit : yi + hi ≤ intMax) :
    (∀ b : Nat, b < s.m_blocks.length →
      (((blockRangeFromRect s p_rect).1 ≤ (b : Int) ∧ (b : Int) ≤ (blockRangeFromRect s p_rect).2)
        ↔ ((blockAt s.m_blocks b).top ≤ p_rect.y + p_rect.height
            ∧ p_rect.y ≤ (blockAt s.m_blocks b).bottom)))
    ∧ (blockRangeFromRect s p_rect = (-1, -1) ↔
        ¬ ∃ b, b < s.m_blocks.length ∧ (blockAt s.m_blocks b).top ≤ p_rect.y + p_rect.height
          ∧ p_rect.y ≤ (blockAt s.m_blocks b).bottom) :=
  blockRangeFromRect_integral s p_rect yi hi hpos hc hh hnn hy hhi hh0 htop hfit

/-- Counterexample to C5 as stated, on the three-block example (extents `[0,10)`,
`[10,20)`, `[20,30)`): for the rectangle with `y = 0`, `h = 10` the code returns
`(0, 1)` although the extent of block 1 does not intersect `[0, 10)`; for the rectangle
with `y = -1`, `h = 20` it returns `(-1, -1)` although the extent of block 0 intersects
`[-1, 19)`; for the rectangle with `y = 10.5`, `h = 0.2` it returns `(0, 1)` although
the extent of block 0 does not intersect `[10.5, 10.7)`; for the rectangle with `y = 1`,
`h = 2147483647` the sum `y + h` leaves the range of `int` and the code returns `(0, 0)`
although the extent of block 2 intersects `[1, 2147483648)`.  On the two-block example
under the document margin -25 (extents `[0, 20)` and, for the last block of height -5,
`[20, 15)`), for the rectangle with `y = 17`, `h = 20` the code returns `(0, 1)` although
the extent of block 1 intersects nothing. -/
theorem blockRangeFromRect_counterexample :
    FullyPositioned threeBlocks ∧ Contiguous threeBlocks
    ∧ blockRangeFromRect threeBlocks ⟨0, 0, 1, 10⟩ = (0, 1)
    ∧ ¬ ExtentIntersects (blockAt threeBlocks.m_blocks 1) 0 10
    ∧ blockRangeFromRect threeBlocks ⟨0, -1, 1, 20⟩ = (-1, -1)
    ∧ ExtentIntersects (blockAt threeBlocks.m_blocks 0) (-1) 20
    ∧ blockRangeFromRect threeBlocks ⟨0, 21 / 2, 1, 1 / 5⟩ = (0, 1)
    ∧ ¬ ExtentIntersects (blockAt threeBlocks.m_blocks 0) (21 / 2) (1 / 5)
    ∧ blockRangeFromRect threeBlocks ⟨0, 1, 1, 2147483647⟩ = (0, 0)
    ∧ ExtentIntersects (blockAt threeBlocks.m_blocks 2) 1 2147483647
    ∧ FullyPositioned negativeMarginBlocks ∧ Contiguous negativeMarginBlocks
    ∧ blockRangeFromRect negativeMarginBlocks ⟨0, 17, 1, 20⟩ = (0, 1)
    ∧ ¬ ExtentIntersects (blockAt negativeMarginBlocks.m_blocks 1) 17 20 := by
  refine ⟨fullyPositioned_threeBlocks, reachable_contiguous _ _ reachable_threeBlocks,
    by decide!, ?_, by decide!, ?_, by decide!, ?_, by decide!, ?_, ?_, ?_, by decide!, ?_⟩
  · unfold ExtentIntersects; decide!
  · unfold ExtentIntersects; decide!
  · unfold ExtentIntersects; decide!
  · unfold ExtentIntersects; decide!
  · intro i hi
    have hl : negativeMarginBlocks.m_blocks.length = 2 := by decide!
    rw [hl] at hi
    unfold Positioned
    interval_cases i <;> decide!
  · intro i h1 h2
    have hi : i + 1 < negativeMarginBlocks.m_blocks.length :=
      hasOffset_lt_length h2
    have hl : negativeMarginBlocks.m_blocks.length = 2 := by decide!
    rw [hl] at hi
    have hi0 : i = 0 := by omega
    subst hi0
    decide!
  · unfold ExtentIntersects; decide!

/-- Witness of C5 (amended): on the three-block example the rectangle with `y = 10`,
`h = 5` gives a range that holds block 1, whose extent `[10, 20]` meets `[10, 15]`. -/
theorem blockRangeFromRect_closed_extents_witness :
    ((blockRangeFromRect threeBlocks ⟨0, 10, 1, 5⟩).1 ≤ ((1 : Nat) : Int)
        ∧ ((1 : Nat) : Int) ≤ (blockRangeFromRect threeBlocks ⟨0, 10, 1, 5⟩).2)
      ↔ ((blockAt threeBlocks.m_blocks 1).top ≤ (10 : ℚ) + 5
          ∧ (10 : ℚ) ≤ (blockAt threeBlocks.m_blocks 1).bottom) :=
  (blockRangeFromRect_closed_extents threeBlocks ⟨0, 10, 1, 5⟩ 10 5 fullyPositioned_threeBlocks
    (reachable_contiguous _ _ reachable_threeBlocks) threeBlocks_heights
    (by decide!) (by decide!) (by decide!) (by decide) (by decide!) (by decide)).1 1 (by decide!)

/-! ## Relayout of a block is idempotent -/

theorem finishOffset_congr (as bs : List BlockInfo) (num : Nat)
    (h : ∀ j, j < num → blockAt as j = blockAt bs j) :
    finishOffset as num = finishOffset bs num := by
  unfold finishOffset
  by_cases h0 : num = 0
  · rw [if_pos h0, if_pos h0]
  · rw [if_neg h0, if_neg h0, h (num - 1) (by omega)]

theorem finishBlockLayoutList_idempotent (bs : List BlockInfo) (k : Nat) (br : QRectF)
    (hk : k < bs.length) :
    finishBlockLayoutList (finishBlockLayoutList bs k br) k br = finishBlockLayoutList bs k br := by
  obtain ⟨m, h1, h2, h3, h4⟩ :=
    exists_first_index (fun t => (blockAt bs t).m_rect.isNull) (k + 1) bs.length hk
  have key := finishBlockLayoutList_blockAt bs k m br hk h1 h2 (fun t ht1 ht2 => h3 t ht1 ht2) h4
  have hlen := finishBlockLayoutList_length bs k br
  have hrect : ∀ j, j ≠ k →
      (blockAt (finishBlockLayoutList bs k br) j).m_rect = (blockAt bs j).m_rect := by
    intro j hj
    rw [finishBlockLayoutList_rect bs k br hk j, if_neg hj]
  have hoff : finishOffset (finishBlockLayoutList bs k br) k = finishOffset bs k := by
    apply finishOffset_congr
    intro j hj
    rw [key j, if_neg (by omega), if_neg (by omega)]
  have key2 := finishBlockLayoutList_blockAt (finishBlockLayoutList bs k br) k m br
    (by rw [hlen]; exact hk) h1 (by rw [hlen]; exact h2)
    (by intro t ht1 ht2; rw [hrect t (by omega)]; exact h3 t ht1 ht2)
    (by
      rcases h4 with h | h
      · left; rw [hlen]; exact h
      · right; rw [hrect m (by omega)]; exact h)
  apply list_ext_blockAt (by rw [finishBlockLayoutList_length])
  intro j _
  rw [key2 j, hoff]
  by_cases e1 : j = k
  · rw [if_pos e1, key j, if_pos e1]
  · rw [if_neg e1]
    by_cases e2 : (BlockInfo.mk (finishOffset bs k) br).hasOffset = true ∧ k < j ∧ j < m
    · have hsum : ∑ t ∈ Finset.Ico (k + 1) j,
            (blockAt (finishBlockLayoutList bs k br) t).m_rect.height
          = ∑ t ∈ Finset.Ico (k + 1) j, (blockAt bs t).m_rect.height := by
        apply Finset.sum_congr rfl
        intro t ht
        rw [hrect t (by simp [Finset.mem_Ico] at ht; omega)]
      rw [if_pos e2, hsum, key j, if_neg e1, if_pos e2]
    · rw [if_neg e2]

/-- **C15.** Relayout is idempotent: for every cache state, every block index `k` inside
the cache and every non-null shaping rectangle `r`, running `finishBlockLayout` for block
`k` with `r` twice in a row yields exactly the same cache (every `m_rect` and every
`m_offset`) as running it once, and block `k` holds the rectangle `r` after either
run. -/
theorem finishBlockLayout_idempotent (s : Layout) (k : Nat) (r : QRectF)
    (hk : k < s.m_blocks.length) (_hr : r.isNull = false) :
    finishBlockLayout (finishBlockLayout s k r) k r = finishBlockLayout s k r
    ∧ (∀ j, blockAt (finishBlockLayout (finishBlockLayout s k r) k r).m_blocks j
        = blockAt (finishBlockLayout s k r).m_blocks j)
    ∧ (blockAt (finishBlockLayout s k r).m_blocks k).m_rect = r
    ∧ (blockAt (finishBlockLayout (finishBlockLayout s k r) k r).m_blocks k).m_rect = r := by
  have h := finishBlockLayoutList_idempotent s.m_blocks k r hk
  have hstate : finishBlockLayout (finishBlockLayout s k r) k r = finishBlockLayout s k r := by
    apply layout_eq_of_fields <;> try rfl
    exact h
  refine ⟨hstate, fun j => by rw [hstate], ?_, ?_⟩
  · show (blockAt (finishBlockLayoutList s.m_blocks k r) k).m_rect = r
    rw [finishBlockLayoutList_rect _ k r hk k, if_pos rfl]
  · rw [hstate]
    show (blockAt (finishBlockLayoutList s.m_blocks k r) k).m_rect = r
    rw [finishBlockLayoutList_rect _ k r hk k, if_pos rfl]

/-- Witness of C15: relaying out block 1 of the three-block example twice with a
rectangle 5 wide and 12 high gives the same state as doing it once. -/
theorem finishBlockLayout_idempotent_witness :
    finishBlockLayout (finishBlockLayout threeBlocks 1 ⟨0, 0, 5, 12⟩) 1 ⟨0, 0, 5, 12⟩
      = finishBlockLayout threeBlocks 1 ⟨0, 0, 5, 12⟩ :=
  (finishBlockLayout_idempotent threeBlocks 1 ⟨0, 0, 5, 12⟩ (by decide!) (by decide!)).1

/-! ## Shrinking the widest block -/

/-- **C11 (amended).** Shrinking the widest block forces a correct rescan: on a fully
positioned cache whose rectangles have non-negative widths, if `k` equals
`m_maximumWidthBlockNumber` and block `k`'s caret-adjusted width is now smaller than the
cached `m_width`, then after `updateDocumentSizeWithOneBlockChanged(k)` the document
width equals `blockWidthInDocument` of the maximum `m_rect.width` over all blocks in
their current state, and `m_maximumWidthBlockNumber` names a block attaining that
maximum. -/
theorem shrink_widest_rescan (bw : ℚ → ℚ) (s : Layout) (k : Nat)
    (hpos : FullyPositioned s) (hk : k < s.m_blocks.length)
    (hidx : (k : Int) = s.m_maximumWidthBlockNumber)
    (hshrunk : bw (blockAt s.m_blocks k).m_rect.width < s.m_width)
    (hw : ∀ j, j < s.m_blocks.length → 0 ≤ (blockAt s.m_blocks j).m_rect.width) :
    (updateDocumentSizeWithOneBlockChanged bw s k).m_blocks = s.m_blocks
    ∧ ∃ i : Nat, (updateDocumentSizeWithOneBlockChanged bw s k).m_maximumWidthBlockNumber = (i : Int)
        ∧ i < s.m_blocks.length
        ∧ (∀ j, j < s.m_blocks.length →
            (blockAt s.m_blocks j).m_rect.width ≤ (blockAt s.m_blocks i).m_rect.width)
        ∧ (documentSize (updateDocumentSizeWithOneBlockChanged bw s k)).width
            = bw (blockAt s.m_blocks i).m_rect.width := by
  have hres : updateDocumentSizeWithOneBlockChanged bw s k = updateDocumentSize bw s := by
    unfold updateDocumentSizeWithOneBlockChanged
    simp only []
    rw [if_neg (not_lt.2 (le_of_lt hshrunk)), if_pos ⟨hshrunk, hidx⟩]
  rw [hres]
  have hlast : (blockAt s.m_blocks (s.m_blocks.length - 1)).hasOffset = true :=
    hpos _ (by omega)
  obtain ⟨_, fw, fm⟩ := updateDocumentSize_size bw s hlast
  obtain ⟨m0, m1, _⟩ := maxRectWidth_spec s.m_blocks
  refine ⟨updateDocumentSize_blocks bw s, ?_⟩
  rcases eq_or_lt_of_le m0 with hz | hp
  · -- every rectangle is 0 wide: the tracked block stays k
    have hall : ∀ j, j < s.m_blocks.length → (blockAt s.m_blocks j).m_rect.width = 0 := by
      intro j hj
      exact le_antisymm (by rw [hz]; exact m1 j hj) (hw j hj)
    refine ⟨k, ?_, hk, fun j hj => by rw [hall j hj, hall k hk], ?_⟩
    · rw [fm, (widthScan_snd s.m_blocks 0 (0, s.m_maximumWidthBlockNumber)).2
        (by rw [widthScan_fst]; exact not_lt.2 (le_of_eq hz.symm))]
      exact hidx.symm
    · show (updateDocumentSize bw s).m_width = _
      rw [fw, widthScan_fst, hall k hk]
      show bw (maxRectWidth s.m_blocks) = bw 0
      rw [← hz]
  · obtain ⟨j, hj, e1, e2⟩ := (widthScan_snd s.m_blocks 0 (0, s.m_maximumWidthBlockNumber)).1
      (by rw [widthScan_fst]; exact hp)
    rw [widthScan_fst] at e2
    refine ⟨j, ?_, hj, fun t ht => ?_, ?_⟩
    · rw [fm, e1]; simp
    · rw [e2]; exact m1 t ht
    · show (updateDocumentSize bw s).m_width = _
      rw [fw, widthScan_fst, e2]

/-- Counterexample to C11 as stated: the only block, the tracked widest one, has shrunk
from width 5 to width -1 (cached width 6); every block is positioned.  After
`updateDocumentSizeWithOneBlockChanged(0)` the document width is
`blockWidthInDocument 0 = 1`, not `blockWidthInDocument (-1) = 0`: the rescan starts
from 0. -/
theorem shrink_widest_rescan_counterexample :
    FullyPositioned shrunkBelowZero
    ∧ shrunkBelowZero.m_blocks.length = 1
    ∧ ((0 : Nat) : Int) = shrunkBelowZero.m_maximumWidthBlockNumber
    ∧ (fun w : ℚ => w + 1) (blockAt shrunkBelowZero.m_blocks 0).m_rect.width
        < shrunkBelowZero.m_width
    ∧ (documentSize (updateDocumentSizeWithOneBlockChanged (fun w => w + 1)
        shrunkBelowZero 0)).width = 1
    ∧ (fun w : ℚ => w + 1) (blockAt shrunkBelowZero.m_blocks 0).m_rect.width = 0 := by
  refine ⟨?_, by decide!, by decide!, by decide!, by decide!, by decide!⟩
  intro i hi
  have hl : shrunkBelowZero.m_blocks.length = 1 := by decide!
  rw [hl] at hi
  unfold Positioned
  interval_cases i
  decide!

theorem fullyPositioned_shrunkWidest : FullyPositioned shrunkWidest := by
  intro i hi
  have hl : shrunkWidest.m_blocks.length = 3 := by decide!
  rw [hl] at hi
  unfold Positioned
  interval_cases i <;> decide!

/-- Witness of C11 (amended, end-to-end scenario D): widths 5, 3, 4 with block 0 shrunk
to 2: the rescan tracks block 2, the next widest, and the width is
`blockWidthInDocument 4 = 5`. -/
theorem shrink_widest_rescan_witness :
    (updateDocumentSizeWithOneBlockChanged (fun w => w + 1) shrunkWidest 0).m_maximumWidthBlockNumber
      = 2
    ∧ (documentSize (updateDocumentSizeWithOneBlockChanged (fun w => w + 1)
        shrunkWidest 0)).width = 5
    ∧ ∃ i : Nat, (updateDocumentSizeWithOneBlockChanged (fun w => w + 1)
          shrunkWidest 0).m_maximumWidthBlockNumber = (i : Int)
        ∧ i < shrunkWidest.m_blocks.length
        ∧ (∀ j, j < shrunkWidest.m_blocks.length →
            (blockAt shrunkWidest.m_blocks j).m_rect.width
              ≤ (blockAt shrunkWidest.m_blocks i).m_rect.width)
        ∧ (documentSize (updateDocumentSizeWithOneBlockChanged (fun w => w + 1)
            shrunkWidest 0)).width = (fun w : ℚ => w + 1) (blockAt shrunkWidest.m_blocks i).m_rect.width :=
  ⟨by decide!, by decide!,
    (shrink_widest_rescan (fun w => w + 1) shrunkWidest 0 fullyPositioned_shrunkWidest
      (by decide!) (by decide!) (by decide!)
      (by
        intro j hj
        have hl : shrunkWidest.m_blocks.length = 3 := by decide!
        rw [hl] at hj
        interval_cases j <;> decide!)).2⟩

/-! ## Rectangles below the last block, and rectangles with fractional coordinates -/

/-- **C12 (amended).** For every fully positioned non-empty cache (a state the engine can
reach) whose rectangles have non-negative heights: `blockRangeFromRect` applied to a
non-null rectangle whose top `y` is an integer greater than the bottom of the last
block returns `first = last = -1`; applied to a null (zero-size) rectangle, wherever
it lies, it returns the whole range `(0, n - 1)`. -/
theorem blockRangeFromRect_below (ok : QRectF → Prop) (s : Layout) (p_rect : QRectF)
    (yi : Int) (hr : Reachable ok s) (hpos : FullyPositioned s) (hne : s.m_blocks ≠ [])
    (hh : ∀ j, 0 ≤ (blockAt s.m_blocks j).m_rect.height) :
    (p_rect.isNull = false → p_rect.y = (yi : ℚ) →
        (blockAt s.m_blocks (s.m_blocks.length - 1)).bottom < p_rect.y →
        blockRangeFromRect s p_rect = (-1, -1))
    ∧ (p_rect.isNull = true →
        blockRangeFromRect s p_rect = (0, (s.m_blocks.length : Int) - 1)) := by
  have hlen : 0 < s.m_blocks.length := List.length_pos.2 hne
  have hc := reachable_contiguous ok s hr
  have hmono := tops_monotone s.m_blocks hpos hc hh
  constructor
  · intro hnn hy hbelow
    apply blockRangeFromRect_none s p_rect hnn
    rcases rangeFirstLoop_spec s.m_blocks (truncToInt p_rect.y) s.m_blocks.length 0 (by omega)
      with ⟨h1, _⟩ | ⟨f, _, _, hf, hft, _⟩
    · exact h1
    · exfalso
      have hft' := (rangeFirstTest_iff _ _ (hh f)).1 hft
      by_cases hin : intMin ≤ yi ∧ yi ≤ intMax
      · have h2 := hft'.2
        rw [hy, truncToInt_intCast yi hin.1 hin.2] at h2
        have h3 := (hmono f (s.m_blocks.length - 1) (by omega) (by omega)).2
        rw [hy] at hbelow
        linarith
      · -- the conversion of `y` left the range of `int`: no block has its top at `INT_MIN`
        have h1 := hft'.1
        rw [hy, truncToInt_intCast_out yi hin] at h1
        have hp := ((hasOffset_iff _).1 (hpos f hf)).1
        have ht : (blockAt s.m_blocks f).top = (blockAt s.m_blocks f).m_offset := rfl
        have hm : ((intMin : Int) : ℚ) = -2147483648 := by unfold intMin; norm_num
        rw [ht, hm] at h1
        linarith
  · intro hnull
    unfold blockRangeFromRect
    rw [if_pos hnull]

/-- Counterexample to C12 as stated, on the three-block example (document height 30):
the empty rectangle at `y = 40` gives the whole range `(0, 2)`, and the rectangle with
`y = 30.5`, below the last block, gives `(2, 2)`. -/
theorem blockRangeFromRect_below_counterexample :
    FullyPositioned threeBlocks ∧ threeBlocks.m_blocks ≠ []
    ∧ (blockAt threeBlocks.m_blocks 2).bottom = 30
    ∧ blockRangeFromRect threeBlocks ⟨0, 40, 0, 0⟩ = (0, 2)
    ∧ blockRangeFromRect threeBlocks ⟨0, 61 / 2, 1, 5⟩ = (2, 2) :=
  ⟨fullyPositioned_threeBlocks, by decide!, by decide!, by decide!, by decide!⟩

/-- Witness of C12 (amended): on the three-block example the rectangle with `y = 31`
gives `(-1, -1)`. -/
theorem blockRangeFromRect_below_witness :
    (blockAt threeBlocks.m_blocks (threeBlocks.m_blocks.length - 1)).bottom < (31 : ℚ)
    ∧ blockRangeFromRect threeBlocks ⟨0, 31, 1, 5⟩ = (-1, -1) :=
  ⟨by decide!,
    (blockRangeFromRect_below _ threeBlocks ⟨0, 31, 1, 5⟩ 31 reachable_threeBlocks
      fullyPositioned_threeBlocks (by decide!) threeBlocks_heights).1 (by decide!)
      (by decide!) (by decide!)⟩

/-- With integer coordinates the range query drops no block: for a fully positioned
cache (a state the engine can reach) with non-negative heights and a non-null rectangle
with integer `y` in `[0, bottom of the last block]` and integer `h >= 0` such that
`y + h` is at most `INT_MAX`, `0 <= first <= last <= n - 1` and every block whose extent intersects `[y, y + h)` lies
in the range. -/
theorem blockRangeFromRect_covers_integral (ok : QRectF → Prop) (s : Layout) (p_rect : QRectF)
    (yi hi : Int) (hr : Reachable ok s) (hpos : FullyPositioned s) (hne : s.m_blocks ≠ [])
    (hh : ∀ j, 0 ≤ (blockAt s.m_blocks j).m_rect.height)
    (hnn : p_rect.isNull = false)
    (hy : p_rect.y = (yi : ℚ)) (hhi : p_rect.height = (hi : ℚ)) (hh0 : 0 ≤ hi)
    (hy0 : 0 ≤ p_rect.y)
    (hy1 : p_rect.y ≤ (blockAt s.m_blocks (s.m_blocks.length - 1)).bottom)
    (hfit : yi + hi ≤ intMax) :
    0 ≤ (blockRangeFromRect s p_rect).1
    ∧ (blockRangeFromRect s p_rect).1 ≤ (blockRangeFromRect s p_rect).2
    ∧ (blockRangeFromRect s p_rect).2 ≤ (s.m_blocks.length : Int) - 1
    ∧ ∀ b : Nat, b < s.m_blocks.length →
        ExtentIntersects (blockAt s.m_blocks b) p_rect.y p_rect.height →
        (blockRangeFromRect s p_rect).1 ≤ (b : Int) ∧ (b : Int) ≤ (blockRangeFromRect s p_rect).2 := by
  have hlen : 0 < s.m_blocks.length := List.length_pos.2 hne
  have hc := reachable_contiguous ok s hr
  have h0 := reachable_first_offset ok s hr (hpos 0 hlen)
  have htop : (blockAt s.m_blocks 0).top ≤ p_rect.y := by
    show (blockAt s.m_blocks 0).m_offset ≤ _
    rw [h0]; exact hy0
  have hrh : 0 ≤ p_rect.height := by rw [hhi]; exact_mod_cast hh0
  obtain ⟨c1, c2⟩ :=
    blockRangeFromRect_integral s p_rect yi hi hpos hc hh hnn hy hhi hh0 htop hfit
  -- some block has top ≤ y ≤ bottom
  have hP : ∃ t, t < s.m_blocks.length ∧ p_rect.y ≤ (blockAt s.m_blocks t).bottom :=
    ⟨s.m_blocks.length - 1, by omega, hy1⟩
  obtain ⟨ht1, ht2⟩ := Nat.find_spec hP
  have htt : (blockAt s.m_blocks (Nat.find hP)).top ≤ p_rect.y := by
    by_cases hz : Nat.find hP = 0
    · rw [hz]; exact htop
    · have hmin := Nat.find_min hP (by omega : Nat.find hP - 1 < Nat.find hP)
      have hlt : (blockAt s.m_blocks (Nat.find hP - 1)).bottom < p_rect.y := by
        by_contra hge
        exact hmin ⟨by omega, not_lt.1 hge⟩
      have hcb := hc (Nat.find hP - 1) (hpos _ (by omega))
        (by rw [Nat.sub_add_cancel (by omega : 1 ≤ Nat.find hP)]; exact hpos _ ht1)
      rw [Nat.sub_add_cancel (by omega : 1 ≤ Nat.find hP)] at hcb
      rw [← hcb]
      exact le_of_lt hlt
  have hin := (c1 (Nat.find hP) ht1).2 ⟨by linarith, ht2⟩
  -- the shape of the result
  have hbounds : 0 ≤ (blockRangeFromRect s p_rect).1
      ∧ (blockRangeFromRect s p_rect).2 ≤ (s.m_blocks.length : Int) - 1 := by
    rcases rangeFirstLoop_spec s.m_blocks (truncToInt p_rect.y) s.m_blocks.length 0 (by omega)
      with ⟨h1, _⟩ | ⟨f, h1, _, hf, _, _⟩
    · have hres := blockRangeFromRect_none s p_rect hnn h1
      rw [hres] at hin
      simp only at hin
      omega
    · rw [blockRangeFromRect_some s p_rect hnn f h1]
      simp only
      refine ⟨by omega, ?_⟩
      rcases rangeLastLoop_spec s.m_blocks
          (truncToInt (((truncToInt p_rect.y : Int) : ℚ) + p_rect.height))
          (s.m_blocks.length - f) f (le_refl _)
        with ⟨l1, _⟩ | ⟨l, l1, _, ll, _, _⟩
      · rw [l1]
      · rw [l1]; omega
  refine ⟨hbounds.1, by omega, hbounds.2, fun b hb hint => ?_⟩
  apply (c1 b hb).2
  unfold ExtentIntersects at hint
  have h1 : (blockAt s.m_blocks b).top < p_rect.y + p_rect.height :=
    lt_of_le_of_lt (le_max_left _ _) (lt_of_lt_of_le hint (min_le_right _ _))
  have h2 : p_rect.y < (blockAt s.m_blocks b).bottom :=
    lt_of_le_of_lt (le_max_right _ _) (lt_of_lt_of_le hint (min_le_left _ _))
  exact ⟨le_of_lt h1, le_of_lt h2⟩

/-- **C17 (the code at the failing input).** On the three-block example (extents
`[0,10)`, `[10,20)`, `[20,30)`, document height 30) the non-null rectangle with
`y = 9.9` and `h = 0.2` lies inside the document and its interval `[9.9, 10.1)`
intersects the extent of block 1, but `blockRangeFromRect` returns `(0, 0)`: `y` is kept
in an `int`, so the interval is read as `[9, 9]`. -/
theorem blockRangeFromRect_drops_block :
    FullyPositioned threeBlocks ∧ Contiguous threeBlocks ∧ threeBlocks.m_blocks ≠ []
    ∧ (QRectF.mk 0 (99 / 10) 1 (1 / 5)).isNull = false
    ∧ (0 : ℚ) ≤ 99 / 10 ∧ (99 / 10 : ℚ) ≤ (blockAt threeBlocks.m_blocks 2).bottom
    ∧ ExtentIntersects (blockAt threeBlocks.m_blocks 1) (99 / 10) (1 / 5)
    ∧ blockRangeFromRect threeBlocks ⟨0, 99 / 10, 1, 1 / 5⟩ = (0, 0) := by
  refine ⟨fullyPositioned_threeBlocks, reachable_contiguous _ _ reachable_threeBlocks,
    by decide!, by decide!, by decide!, by decide!, ?_, by decide!⟩
  unfold ExtentIntersects
  decide!

/-! ## Selection projection -/

theorem formatRangeLoop_append (b : TextBlock) (sels : List Selection) :
    ∀ ret : List FormatRange, formatRangeLoop b sels ret = ret ++ formatRangeLoop b sels [] := by
  induction sels with
  | nil => intro ret; simp [formatRangeLoop]
  | cons sel rest ih =>
    intro ret
    unfold formatRangeLoop
    simp only []
    split
    · rw [ih, ih ([] ++ _)]
      simp
    · split
      · rw [ih, ih ([] ++ _)]
        simp
      · exact ih ret

theorem formatRangeLoop_fold (b : TextBlock) (xs ys : List Selection) :
    ∀ ret : List FormatRange,
      formatRangeLoop b (xs ++ ys) ret = formatRangeLoop b ys (formatRangeLoop b xs ret) := by
  induction xs with
  | nil => intro ret; simp only [List.nil_append, formatRangeLoop]
  | cons sel rest ih =>
    intro ret
    simp only [List.cons_append, formatRangeLoop]
    split
    · exact ih _
    · split
      · exact ih _
      · exact ih _

/-- The ranges of a concatenation of selection lists are the ranges of the first list
followed by the ranges of the second: the output keeps the order of the selections. -/
theorem formatRangeFromSelection_append (b : TextBlock) (xs ys : List Selection) :
    formatRangeFromSelection b (xs ++ ys)
      = formatRangeFromSelection b xs ++ formatRangeFromSelection b ys := by
  unfold formatRangeFromSelection
  rw [formatRangeLoop_fold, formatRangeLoop_append b ys]

theorem hasSelection_iff (c : QTextCursor) :
    c.hasSelection = true ↔ c.selectionEnd > c.selectionStart := by
  unfold QTextCursor.hasSelection QTextCursor.selectionEnd QTextCursor.selectionStart
  simp only [decide_eq_true_eq, gt_iff_lt]
  constructor
  · intro h
    rcases lt_or_gt_of_ne h with h1 | h1
    · rw [min_eq_right (le_of_lt h1), max_eq_left (le_of_lt h1)]; exact h1
    · rw [min_eq_left (le_of_lt h1), max_eq_right (le_of_lt h1)]; exact h1
  · intro h heq
    rw [heq] at h
    simp at h

/-- **C13.** Selection projection of real selections: for every block with start
position `p` and length `L` and every list of selections, `formatRangeFromSelection`
emits a range for a selection with `selectionStart` `s` and `selectionEnd` `e > s`
exactly when `s - p < L` and `e - p > 0`; that range has `start = s - p` and
`length = e - s` with the selection's format; and the emitted ranges appear in the order
of the selections: the ranges of the selections before it come first, those of the
selections after it come last. -/
theorem formatRange_real_selection (b : TextBlock) (before after : List Selection)
    (sel : Selection) (hreal : sel.cursor.selectionEnd > sel.cursor.selectionStart) :
    formatRangeFromSelection b (before ++ sel :: after)
      = formatRangeFromSelection b before
        ++ (if sel.cursor.selectionStart - b.position < b.length
              ∧ sel.cursor.selectionEnd - b.position > 0 then
            [⟨sel.cursor.selectionStart - b.position,
              sel.cursor.selectionEnd - sel.cursor.selectionStart, sel.format⟩]
          else [])
        ++ formatRangeFromSelection b after := by
  have hone : formatRangeFromSelection b [sel]
      = if sel.cursor.selectionStart - b.position < b.length
            ∧ sel.cursor.selectionEnd - b.position > 0 then
          [⟨sel.cursor.selectionStart - b.position,
            sel.cursor.selectionEnd - sel.cursor.selectionStart, sel.format⟩]
        else [] := by
    unfold formatRangeFromSelection formatRangeLoop
    simp only []
    have hsel : sel.cursor.hasSelection = true := (hasSelection_iff _).2 hreal
    have hgt : sel.cursor.selectionEnd - b.position > sel.cursor.selectionStart - b.position := by
      omega
    by_cases hc : sel.cursor.selectionStart - b.position < b.length
        ∧ sel.cursor.selectionEnd - b.position > 0
    · rw [if_pos ⟨hc.1, hc.2, hgt⟩, if_pos hc]
      simp only [formatRangeLoop, List.nil_append]
      congr 2
      omega
    · rw [if_neg (by tauto), if_neg hc]
      rw [if_neg (by simp [hsel])]
      rfl
  have hsplit : before ++ sel :: after = before ++ ([sel] ++ after) := by simp
  rw [hsplit, formatRangeFromSelection_append, formatRangeFromSelection_append, hone,
    List.append_assoc]

/-- Witness of C13: the selection `[5, 8]` in the 10-character block at position 0 gives
the range `start = 5`, `length = 3`. -/
theorem formatRange_real_selection_witness :
    formatRangeFromSelection tenCharBlock ([] ++ ⟨⟨5, 8⟩, ⟨false, 0⟩⟩ :: [])
      = [⟨5, 3, ⟨false, 0⟩⟩] := by
  rw [formatRange_real_selection tenCharBlock [] [] ⟨⟨5, 8⟩, ⟨false, 0⟩⟩ (by decide)]
  decide

/-- **C14.** Full-line highlight projection: for a zero-length selection that carries
the `FullWidthSelection` property and whose position lies inside the block (start `p`,
length `L`), `formatRangeFromSelection` emits the range of the visual line containing
`position - p` (the line `lineForTextPosition` returns), with `start = line.textStart`
and `length = line.textLength`, increased by one exactly when
`textStart + textLength = L - 1`; for a block laid out as a single line (text start 0,
text length `L - 1`) this range is `start = 0`, `length = L`. -/
theorem formatRange_full_line (b : TextBlock) (before after : List Selection)
    (sel : Selection) (hzero : sel.cursor.anchor = sel.cursor.position)
    (hfull : sel.format.fullWidthSelection = true)
    (hin : b.position ≤ sel.cursor.position ∧ sel.cursor.position < b.position + b.length) :
    formatRangeFromSelection b (before ++ sel :: after)
      = formatRangeFromSelection b before
        ++ [⟨(b.lineForTextPosition (sel.cursor.position - b.position)).textStart,
            (b.lineForTextPosition (sel.cursor.position - b.position)).textLength
              + (if (b.lineForTextPosition (sel.cursor.position - b.position)).textStart
                    + (b.lineForTextPosition (sel.cursor.position - b.position)).textLength
                    = b.length - 1 then 1 else 0),
            sel.format⟩]
        ++ formatRangeFromSelection b after
    ∧ ((b.lineForTextPosition (sel.cursor.position - b.position)).textStart = 0 →
        (b.lineForTextPosition (sel.cursor.position - b.position)).textLength = b.length - 1 →
        formatRangeFromSelection b (before ++ sel :: after)
          = formatRangeFromSelection b before ++ [⟨0, b.length, sel.format⟩]
            ++ formatRangeFromSelection b after) := by
  have hone : formatRangeFromSelection b [sel]
      = [⟨(b.lineForTextPosition (sel.cursor.position - b.position)).textStart,
          (b.lineForTextPosition (sel.cursor.position - b.position)).textLength
            + (if (b.lineForTextPosition (sel.cursor.position - b.position)).textStart
                  + (b.lineForTextPosition (sel.cursor.position - b.position)).textLength
                  = b.length - 1 then 1 else 0),
          sel.format⟩] := by
    unfold formatRangeFromSelection formatRangeLoop
    simp only []
    have hse : sel.cursor.selectionEnd = sel.cursor.selectionStart := by
      unfold QTextCursor.selectionEnd QTextCursor.selectionStart
      rw [hzero]; simp
    have hns : sel.cursor.hasSelection = false := by
      unfold QTextCursor.hasSelection
      simp [hzero]
    have hcont : b.contains sel.cursor.position = true := by
      unfold TextBlock.contains
      simp only [decide_eq_true_eq, ge_iff_le]
      exact hin
    rw [if_neg (by rw [hse]; intro h; exact absurd h.2.2 (lt_irrefl _))]
    rw [if_pos ⟨by simp [hns], hfull, hcont⟩]
    simp only [formatRangeLoop, List.nil_append]
    congr 2
    split <;> simp
  have hsplit : before ++ sel :: after = before ++ ([sel] ++ after) := by simp
  have hmain : formatRangeFromSelection b (before ++ sel :: after)
      = formatRangeFromSelection b before
        ++ [⟨(b.lineForTextPosition (sel.cursor.position - b.position)).textStart,
            (b.lineForTextPosition (sel.cursor.position - b.position)).textLength
              + (if (b.lineForTextPosition (sel.cursor.position - b.position)).textStart
                    + (b.lineForTextPosition (sel.cursor.position - b.position)).textLength
                    = b.length - 1 then 1 else 0),
            sel.format⟩]
        ++ formatRangeFromSelection b after := by
    rw [hsplit, formatRangeFromSelection_append, formatRangeFromSelection_append, hone,
      List.append_assoc]
  refine ⟨hmain, fun h0 hL => ?_⟩
  rw [hmain, h0, hL, if_pos (by omega)]
  have hlen : b.length - 1 + 1 = b.length := by omega
  rw [hlen]

/-- Witness of C14: the zero-length full-line selection `[5, 5]` in the 10-character
block at position 0 (one line) gives the range `start = 0`, `length = 10`. -/
theorem formatRange_full_line_witness :
    formatRangeFromSelection tenCharBlock ([] ++ ⟨⟨5, 5⟩, ⟨true, 0⟩⟩ :: [])
      = [⟨0, 10, ⟨true, 0⟩⟩] := by
  rw [(formatRange_full_line tenCharBlock [] [] ⟨⟨5, 5⟩, ⟨true, 0⟩⟩ rfl rfl
    (by decide)).2 (by decide) (by decide)]
  decide

/-! ## The paint loop stays aligned with the cache -/

/-- What the paint loop does from block `b` on, when it starts at the cached offset of
`b`: every pass handles a block of the cache at its cached offset, and every block from
`b` up to `last` is handled. -/
theorem drawLoop_spec (bs : List BlockInfo) (visible : Nat → Bool) (last : Int)
    (hpos : ∀ i, i < bs.length → (blockAt bs i).hasOffset = true)
    (hc : ∀ i, (blockAt bs i).hasOffset = true → (blockAt bs (i + 1)).hasOffset = true →
      (blockAt bs i).bottom = (blockAt bs (i + 1)).top)
    (fuel : Nat) :
    ∀ (b : Nat) (y : ℚ), bs.length - b ≤ fuel → (b < bs.length → y = (blockAt bs b).m_offset) →
      (∀ st, st ∈ drawLoop bs visible last fuel b y →
          b ≤ st.blockNumber ∧ st.blockNumber < bs.length
            ∧ st.offsetY = (blockAt bs st.blockNumber).m_offset
            ∧ st.painted = visible st.blockNumber)
      ∧ (∀ t : Nat, b ≤ t → t < bs.length → (t : Int) ≤ last →
          ∃ st, st ∈ drawLoop bs visible last fuel b y ∧ st.blockNumber = t) := by
  induction fuel with
  | zero =>
    intro b y hf _
    refine ⟨fun st hst => ?_, fun t h1 h2 _ => absurd h2 (by omega)⟩
    simp [drawLoop] at hst
  | succ fuel ih =>
    intro b y hf hy
    unfold drawLoop
    by_cases hb : b < bs.length
    · rw [if_pos hb]
      simp only []
      have hyb := hy hb
      -- the offset handed to the next pass is the cached offset of the next block
      have hnext : b + 1 < bs.length →
          y + (blockAt bs b).m_rect.height = (blockAt bs (b + 1)).m_offset := by
        intro hb1
        have := hc b (hpos b hb) (hpos (b + 1) hb1)
        rw [hyb]
        exact this
      obtain ⟨i1, i2⟩ := ih (b + 1) (y + (blockAt bs b).m_rect.height) (by omega) hnext
      have htail : ∀ st, st ∈ (if (b : Int) = last then ([] : List DrawStep)
            else drawLoop bs visible last fuel (b + 1) (y + (blockAt bs b).m_rect.height)) →
          b ≤ st.blockNumber ∧ st.blockNumber < bs.length
            ∧ st.offsetY = (blockAt bs st.blockNumber).m_offset
            ∧ st.painted = visible st.blockNumber := by
        intro st hst
        split at hst
        · simp at hst
        · obtain ⟨a1, a2, a3, a4⟩ := i1 st hst
          exact ⟨by omega, a2, a3, a4⟩
      have hcover : ∀ t : Nat, b < t → t < bs.length → (t : Int) ≤ last →
          ∃ st, st ∈ (if (b : Int) = last then ([] : List DrawStep)
            else drawLoop bs visible last fuel (b + 1) (y + (blockAt bs b).m_rect.height))
            ∧ st.blockNumber = t := by
        intro t h1 h2 h3
        rw [if_neg (by omega)]
        exact i2 t (by omega) h2 h3
      by_cases hv : visible b = true
      · simp only [hv, Bool.not_true, Bool.false_eq_true, if_false]
        refine ⟨fun st hst => ?_, fun t h1 h2 h3 => ?_⟩
        · rcases List.mem_cons.1 hst with e | e
          · rw [e]; exact ⟨le_refl _, hb, hyb, hv.symm⟩
          · exact htail st e
        · rcases Nat.eq_or_lt_of_le h1 with e | e
          · exact ⟨⟨b, y, true⟩, List.mem_cons_self _ _, e⟩
          · obtain ⟨st, m1, m2⟩ := hcover t e h2 h3
            exact ⟨st, List.mem_cons_of_mem _ m1, m2⟩
      · have hv' : visible b = false := bool_eq_false_of_ne_true hv
        simp only [hv', Bool.not_false, if_true]
        refine ⟨fun st hst => ?_, fun t h1 h2 h3 => ?_⟩
        · rcases List.mem_cons.1 hst with e | e
          · rw [e]; exact ⟨le_refl _, hb, hyb, hv'.symm⟩
          · exact htail st e
        · rcases Nat.eq_or_lt_of_le h1 with e | e
          · exact ⟨⟨b, y, false⟩, List.mem_cons_self _ _, e⟩
          · obtain ⟨st, m1, m2⟩ := hcover t e h2 h3
            exact ⟨st, List.mem_cons_of_mem _ m1, m2⟩
    · rw [if_neg hb]
      refine ⟨fun st hst => ?_, fun t h1 h2 _ => absurd h2 (by omega)⟩
      simp at hst

/-- When `blockRangeFromRect` finds a range, its first component is a block number. -/
theorem blockRangeFromRect_first_nat (s : Layout) (clip : QRectF)
    (h : (blockRangeFromRect s clip).1 ≠ -1) :
    ∃ f : Nat, (blockRangeFromRect s clip).1 = (f : Int) := by
  by_cases hnull : clip.isNull = true
  · refine ⟨0, ?_⟩
    unfold blockRangeFromRect
    rw [if_pos hnull]
    rfl
  · have hnn := bool_eq_false_of_ne_true hnull
    rcases rangeFirstLoop_spec s.m_blocks (truncToInt clip.y) s.m_blocks.length 0 (by omega)
      with ⟨h1, _⟩ | ⟨f, h1, _⟩
    · rw [blockRangeFromRect_none s clip hnn h1] at h
      exact absurd rfl h
    · exact ⟨f, by rw [blockRangeFromRect_some s clip hnn f h1]⟩

/-- **C16.** The render loop stays aligned with the cache: for a fully positioned
contiguous cache and any clip rectangle for which `blockRangeFromRect` returns
`first != -1`, whatever blocks are invisible, every pass of the paint loop of `draw`
handles a block at a running vertical offset equal to that block's cached `m_offset`
(which is the top of `blockBoundingRect(b)` for a rectangle anchored at the origin, as
`blockRectFromTextLayout` builds them), and every block `b` of the cache with
`first <= b <= last` is handled. -/
theorem draw_offsets_aligned (s : Layout) (clip : QRectF) (visible : Nat → Bool)
    (hpos : FullyPositioned s) (hc : Contiguous s)
    (hfirst : (blockRangeFromRect s clip).1 ≠ -1) :
    (∀ st, st ∈ draw s clip visible →
        st.blockNumber < s.m_blocks.length
        ∧ st.offsetY = (blockAt s.m_blocks st.blockNumber).m_offset
        ∧ ((blockAt s.m_blocks st.blockNumber).m_rect.y = 0 →
            st.offsetY = (blockBoundingRect s st.blockNumber).top)
        ∧ st.painted = visible st.blockNumber)
    ∧ (∀ b : Nat, b < s.m_blocks.length → (blockRangeFromRect s clip).1 ≤ (b : Int) →
        (b : Int) ≤ (blockRangeFromRect s clip).2 →
        ∃ st, st ∈ draw s clip visible ∧ st.blockNumber = b) := by
  obtain ⟨f, hf⟩ := blockRangeFromRect_first_nat s clip hfirst
  have hdraw : draw s clip visible
      = drawLoop s.m_blocks visible (blockRangeFromRect s clip).2 (s.m_blocks.length - f) f
          (blockAt s.m_blocks f).top := by
    unfold draw
    simp only []
    rw [if_neg hfirst, hf, Int.toNat_ofNat]
  obtain ⟨d1, d2⟩ := drawLoop_spec s.m_blocks visible (blockRangeFromRect s clip).2 hpos hc
    (s.m_blocks.length - f) f (blockAt s.m_blocks f).top (le_refl _) (fun _ => rfl)
  rw [hdraw]
  refine ⟨fun st hst => ?_, fun b hb h1 h2 => ?_⟩
  · obtain ⟨_, a2, a3, a4⟩ := d1 st hst
    refine ⟨a2, a3, fun hy0 => ?_, a4⟩
    rw [a3]
    unfold blockBoundingRect
    show _ = (blockAt s.m_blocks st.blockNumber).m_rect.y + _
    rw [hy0, zero_add]
  · rw [hf] at h1
    exact d2 b (by omega) hb h2

/-- Witness of C16: on the three-block example with block 0 invisible and the clip
rectangle `y = 5`, `h = 10`, the paint loop skips block 0 at offset 0 and paints block 1
at offset 10, its cached offset. -/
theorem draw_offsets_aligned_witness :
    (blockRangeFromRect threeBlocks ⟨0, 5, 1, 10⟩).1 ≠ -1
    ∧ draw threeBlocks ⟨0, 5, 1, 10⟩ (fun b => b != 0) = [⟨0, 0, false⟩, ⟨1, 10, true⟩]
    ∧ ∀ st, st ∈ draw threeBlocks ⟨0, 5, 1, 10⟩ (fun b => b != 0) →
        st.offsetY = (blockAt threeBlocks.m_blocks st.blockNumber).m_offset :=
  ⟨by decide!, by decide!, fun st hst =>
    ((draw_offsets_aligned threeBlocks ⟨0, 5, 1, 10⟩ (fun b => b != 0)
      fullyPositioned_threeBlocks (reachable_contiguous _ _ reachable_threeBlocks)
      (by decide!)).1 st hst).2.1⟩

end VTextDocumentLayout
